import Mathlib

/-! MosseFilters: correlation-filter state, scratch pool and peak extraction

A shallow embedding of `Filter.h`, `Filter.cpp`, `OnlineFilter.cpp` and
`Location.cpp`.

* A C++ `double` is a `Dbl`: either a finite value or `Dbl.nan`, the result of
  a division by zero and of every operation on such a result.  The products and
  sums of the filter state are computed in exact rational arithmetic.  The
  normalisation steps of the preprocessing take the rounding of each operation
  as a parameter: `roundDouble` rounds to the next double, `Dbl.fin` not at
  all.  `expDouble` is `exp` on doubles, with its underflow to 0.
* A `fftw_complex*` is a `Ptr` into a memory `Mem`; every assignment of the
  source is one write into that memory, so that two names of one buffer behave
  as they do in the program.
* OpenCV and FFTW are outside the repository.  The spectrum a forward transform
  leaves in `fftBuffer` and the result of `cvMinMaxLoc` are inputs of the
  functions that use them; `cvAvg` over a region of interest is modelled by its
  documented behaviour.
* `Globals.h` is not among the sources: `Globals::nPastLocations` and
  `Globals::psrWidth` are parameters.
* A C++ `int` is an `Int` (or a `Nat` for sizes and indices); division is the
  truncating `Int.tdiv`.  Sums of pixel coordinates are far from the limits of
  `int`, so wrap-around is not modelled.
* An `IplImage*` is an `Option Img`; an `Img` records how the image was made
  (loaded, rotated, translated) and its size.  The rotation matrix of
  `getRotationMatrix2D`, the outcome of the OpenCV calls of the preprocessing
  and the functions `atoi` and `strtod` of the C library are inputs;
  `Filter.cvCalls` is that outcome with the size tests `cvCvtColor` and
  `cvConvertScale` make on their arguments.
* A loop over a `double` (the angles and distances of the augmentation) runs on
  exact binary fractions, with a bound on its iterations (`fuel`).
* The element-wise calls of OpenCV on an image (`cvAvg`, `cvSum`, `cvSubS`,
  `cvAddS`, `cvMul`, `cvConvertScale`, `cvMinMaxLoc`) are modelled by their
  documented behaviour on the list of pixels; the forward and the inverse
  transform and the peak `cvMinMaxLoc` finds in its result are inputs.
* A `throw` is an `Except.error`, or the message next to the state the throw
  leaves behind where that state matters; `none` in an `Option` result stands
  for undefined behaviour or for exhausted fuel, as each definition says.
-/

namespace MosseFilters

/-! ## Numbers -/

/-- A C++ double: a finite value in exact arithmetic, or the non-finite result
of a division by zero. -/
inductive Dbl where
  | fin (q : ℚ)
  | nan
  deriving DecidableEq

namespace Dbl

/-- Sum of two doubles. -/
def add : Dbl → Dbl → Dbl
  | fin a, fin b => fin (a + b)
  | _, _ => nan

/-- Difference of two doubles. -/
def sub : Dbl → Dbl → Dbl
  | fin a, fin b => fin (a - b)
  | _, _ => nan

/-- Product of two doubles. -/
def mul : Dbl → Dbl → Dbl
  | fin a, fin b => fin (a * b)
  | _, _ => nan

/-- Unary minus. -/
def neg : Dbl → Dbl
  | fin a => fin (-a)
  | nan => nan

/-- Quotient of two doubles; a zero divisor gives no finite value. -/
def div : Dbl → Dbl → Dbl
  | fin a, fin b => if b = 0 then nan else fin (a / b)
  | _, _ => nan

/-- Comparison `a < b` of the source; false as soon as one side is not finite. -/
def lt : Dbl → Dbl → Bool
  | fin a, fin b => decide (a < b)
  | _, _ => false

/-- Test for a finite value. -/
def isFinite : Dbl → Bool
  | fin _ => true
  | nan => false

/-- Conversion of a C++ int to double. -/
def ofInt (z : Int) : Dbl := fin (z : ℚ)

instance : Add Dbl := ⟨add⟩
instance : Sub Dbl := ⟨sub⟩
instance : Mul Dbl := ⟨mul⟩
instance : Neg Dbl := ⟨neg⟩
instance : Div Dbl := ⟨div⟩
instance : Zero Dbl := ⟨fin 0⟩
instance : One Dbl := ⟨fin 1⟩
instance : Inhabited Dbl := ⟨fin 0⟩

end Dbl

/-- The type fftw_complex: `double[2]`, component 0 the real part, component 1
the imaginary part. -/
structure Cplx where
  re : Dbl
  im : Dbl
  deriving DecidableEq

instance : Inhabited Cplx := ⟨⟨0, 0⟩⟩

/-- The complex product as Filter::convolve computes it. -/
def Cplx.mul (u v : Cplx) : Cplx :=
  { re := (u.re * v.re) - (u.im * v.im), im := (u.re * v.im) + (u.im * v.re) }

/-- The complex conjugate as the conjugation loop computes it. -/
def Cplx.conj (u : Cplx) : Cplx := { re := u.re, im := -u.im }

/-- Componentwise sum, as the accumulation loop computes it. -/
def Cplx.add (u v : Cplx) : Cplx := { re := u.re + v.re, im := u.im + v.im }

/-- Both components are finite values. -/
def Cplx.isFinite (u : Cplx) : Bool := u.re.isFinite && u.im.isFinite

/-! ## Memory -/

/-- The complex buffers a filter works on.  `pool i` is `complexVectors[i]`,
`ext i` is a buffer owned by the caller (for instance the copy made by
`Location::getPreprocessedImage`). -/
inductive Ptr where
  | pool (i : Nat)
  | fftBuffer
  | mosseNum
  | mosseDen
  | filter
  | ext (i : Nat)
  deriving DecidableEq

/-- Contents of all complex buffers: `read p k` is element `k` of buffer `p`. -/
structure Mem where
  read : Ptr → Nat → Cplx

/-- The assignment `p[k][0] = v`. -/
def Mem.set0 (m : Mem) (p : Ptr) (k : Nat) (v : Dbl) : Mem :=
  { read := fun q j =>
      if q = p ∧ j = k then { re := v, im := (m.read q j).im } else m.read q j }

/-- The assignment `p[k][1] = v`. -/
def Mem.set1 (m : Mem) (p : Ptr) (k : Nat) (v : Dbl) : Mem :=
  { read := fun q j =>
      if q = p ∧ j = k then { re := (m.read q j).re, im := v } else m.read q j }

/-- The call `memcpy(dst, src, sizeof(fftw_complex) * n)`. -/
def Mem.memcpy (m : Mem) (dst src : Ptr) (n : Nat) : Mem :=
  { read := fun q j => if q = dst ∧ j < n then m.read src j else m.read q j }

/-- A transform that leaves the `n` values of `spec` in buffer `p`
(`fftw_execute(planForward)` with output `fftBuffer`). -/
def Mem.load (m : Mem) (p : Ptr) (n : Nat) (spec : Nat → Cplx) : Mem :=
  { read := fun q j => if q = p ∧ j < n then spec j else m.read q j }

/-- The loop `for (int i = 0; i < n; i++) body`. -/
def forRange {σ : Type} (n : Nat) (body : Nat → σ → σ) (s : σ) : σ :=
  (List.range n).foldl (fun acc i => body i acc) s

/-! ## Points, frames and tags -/

/-- The type CvPoint. -/
structure CvPoint where
  x : Int
  y : Int
  deriving DecidableEq

instance : Inhabited CvPoint := ⟨⟨0, 0⟩⟩

/-- The enumeration Annotations::Tag. -/
inductive Tag where
  | Root
  | Frame
  | FrameNumber
  | LeftEye
  | RightEye
  | Nose
  | Zone
  | EndFrame
  | Face
  | Ignore
  deriving DecidableEq

/-- An `IplImage*` as far as the filter code itself looks at it: which image it
is and its size.  `loaded id` is an image handed in by the caller (for
instance the result of `cvLoadImage`), `rotated src angle` the clone of `src`
warped by `getRotationMatrix2D(center, angle, 1.0)`, `translated src xdist
ydist` the clone of `src` warped by the translation (xdist, ydist).  A clone
has the size of its source. -/
inductive Img where
  | loaded (id : Nat) (height width : Nat)
  | rotated (src : Img) (angle : ℚ)
  | translated (src : Img) (xdist ydist : ℚ)
  deriving DecidableEq

/-- The result of `cvGetSize`: (height, width). -/
def Img.size : Img → Nat × Nat
  | Img.loaded _ height width => (height, width)
  | Img.rotated src _ => src.size
  | Img.translated src _ _ => src.size

/-- The type ImgLocPairT. -/
abbrev ImgLocPairT := Img × CvPoint

/-! ## Filter -/

/-- The static member `Filter::nComplexVectors`, initialised to 8 in
`Filter.cpp` and never assigned again. -/
def nComplexVectors : Nat := 8

/-- The members of `Filter` (and `learningRate` of `OnlineFilter`) that the
operations below read or write.  `hasFilter` is `filter != 0`.  The defaults of
`doAffineTransforms` and `transformedImages` are the values every constructor
leaves; `xmlTag` is set from the argument of the training constructor and by
`loadFilter`. -/
structure Filter where
  height : Nat
  width : Nat
  mem : Mem
  hasFilter : Bool
  storageIndex : Nat
  learningRate : Dbl
  xmlTag : Tag := Tag.Ignore
  doAffineTransforms : Bool := false
  transformedImages : List ImgLocPairT := []

/-- The count `imgSize.height * ((imgSize.width / 2) + 1)`. -/
def Filter.nElements (f : Filter) : Nat := f.height * (f.width / 2 + 1)

/-- Filter::getBuffer: hand out `complexVectors[storageIndex]` and advance the
index modulo `nComplexVectors`. -/
def Filter.getBuffer (f : Filter) : Ptr × Filter :=
  (Ptr.pool f.storageIndex,
    { f with storageIndex := (f.storageIndex + 1) % nComplexVectors })

/-- The filter after `n` successive calls of `getBuffer`. -/
def Filter.afterCalls (f : Filter) : Nat → Filter
  | 0 => f
  | n + 1 => (f.afterCalls n).getBuffer.2

/-- The buffer returned by call number `k` (counted from 1) of `getBuffer` on
`f`. -/
def Filter.nthBuffer (f : Filter) (k : Nat) : Ptr :=
  (f.afterCalls (k - 1)).getBuffer.1

/-- Body of the loops of Filter::convolve at flat index `ij`: two assignments,
in the order of the source. -/
def convolveStep (one two result : Ptr) (ij : Nat) (m : Mem) : Mem :=
  let m1 := m.set0 result ij
    (((m.read one ij).re * (m.read two ij).re) - ((m.read one ij).im * (m.read two ij).im))
  m1.set1 result ij
    (((m1.read one ij).re * (m1.read two ij).im) + ((m1.read one ij).im * (m1.read two ij).re))

/-- The two nested loops of Filter::convolve writing into `result`. -/
def convolveLoops (h w : Nat) (one two result : Ptr) (m : Mem) : Mem :=
  forRange h (fun i => forRange (w / 2 + 1)
    (fun j => convolveStep one two result (i * (w / 2 + 1) + j))) m

/-- Filter::convolve: the result goes to `outputBuffer` when one is given and
to the next pool buffer otherwise. -/
def Filter.convolve (f : Filter) (one two : Ptr) (outputBuffer : Option Ptr) :
    Ptr × Filter :=
  let rf : Ptr × Filter :=
    match outputBuffer with
    | some p => (p, f)
    | none => f.getBuffer
  (rf.1, { rf.2 with mem := convolveLoops rf.2.height rf.2.width one two rf.1 rf.2.mem })

/-- Body of the loops of Filter::create at flat index `ij`. -/
def createStep (ij : Nat) (m : Mem) : Mem :=
  let c := (m.read Ptr.mosseDen ij).re
  let d := (m.read Ptr.mosseDen ij).im
  let denom := (c * c) + (d * d)
  let a := (m.read Ptr.mosseNum ij).re
  let b := (m.read Ptr.mosseNum ij).im
  let re := a * c + b * d
  let im := b * c - a * d
  (m.set0 Ptr.filter ij (re / denom)).set1 Ptr.filter ij (im / denom)

/-- Filter::create: allocate `filter` if needed and fill it from the numerator
and denominator. -/
def Filter.create (f : Filter) : Filter :=
  { f with
    hasFilter := true
    mem := forRange f.height (fun i => forRange (f.width / 2 + 1)
      (fun j => createStep (i * (f.width / 2 + 1) + j))) f.mem }

/-- Body of the conjugation loop of Filter::update and
OnlineFilter::onlineUpdate. -/
def conjStep (fftImage fftImageC : Ptr) (i : Nat) (m : Mem) : Mem :=
  let m1 := m.set0 fftImageC i (m.read fftImage i).re
  m1.set1 fftImageC i (-(m1.read fftImage i).im)

/-- Body of the accumulation loops of Filter::update at flat index `ij`. -/
def accumulateStep (num den : Ptr) (ij : Nat) (m : Mem) : Mem :=
  let m1 := m.set0 Ptr.mosseNum ij ((m.read Ptr.mosseNum ij).re + (m.read num ij).re)
  let m2 := m1.set1 Ptr.mosseNum ij ((m1.read Ptr.mosseNum ij).im + (m1.read num ij).im)
  let m3 := m2.set0 Ptr.mosseDen ij ((m2.read Ptr.mosseDen ij).re + (m2.read den ij).re)
  m3.set1 Ptr.mosseDen ij ((m3.read Ptr.mosseDen ij).im + (m3.read den ij).im)

/-- Filter::preprocessImage on a frame of the right size: the pipeline ends in
`computeFFT()`, which leaves the spectrum `X` of the frame in `fftBuffer` and
returns that buffer. -/
def Filter.preprocessImage (f : Filter) (X : Nat → Cplx) : Ptr × Filter :=
  (Ptr.fftBuffer, { f with mem := f.mem.load Ptr.fftBuffer f.nElements X })

/-- Filter::createGaussian: ends in `computeFFT()`, which leaves the spectrum
`T` of the Gaussian in `fftBuffer` and returns that buffer. -/
def Filter.createGaussian (f : Filter) (T : Nat → Cplx) : Ptr × Filter :=
  (Ptr.fftBuffer, { f with mem := f.mem.load Ptr.fftBuffer f.nElements T })

/-- One iteration of the loop of Filter::update, for one (image, location)
pair, without ROI function: `size` is the size of the image, `X` the spectrum
its preprocessing yields and `T` the spectrum of the Gaussian at its
location. -/
def Filter.update (f : Filter) (size : Nat × Nat) (X T : Nat → Cplx) :
    Except String Filter :=
  if f.height ≠ size.1 ∨ f.width ≠ size.2 then
    Except.error "Filter::update. Inconsistent image sizes."
  else
    let (preImage, f1) := f.preprocessImage X
    let (fftImage, f2) := f1.getBuffer
    let nElements := f2.height * (f2.width / 2 + 1)
    let f3 := { f2 with mem := f2.mem.memcpy fftImage preImage nElements }
    let (gaussian, f4) := f3.createGaussian T
    let (fftImageC, f5) := f4.getBuffer
    let f6 := { f5 with mem := forRange nElements (conjStep fftImage fftImageC) f5.mem }
    let (num, f7) := f6.convolve gaussian fftImageC none
    let (den, f8) := f7.convolve fftImage fftImageC none
    Except.ok { f8 with
      mem := forRange f8.height (fun i => forRange (f8.width / 2 + 1)
        (fun j => accumulateStep num den (i * (f8.width / 2 + 1) + j))) f8.mem }

/-- The memory one iteration of Filter::update leaves when the four pool
buffers it acquires are `p0` (copy of the spectrum), `p1` (conjugate), `p2`
(numerator term) and `p3` (denominator term). -/
def updateMem (h w : Nat) (X T : Nat → Cplx) (p0 p1 p2 p3 : Ptr) (m : Mem) : Mem :=
  let n := h * (w / 2 + 1)
  let m1 := m.load Ptr.fftBuffer n X
  let m2 := m1.memcpy p0 Ptr.fftBuffer n
  let m3 := m2.load Ptr.fftBuffer n T
  let m4 := forRange n (conjStep p0 p1) m3
  let m5 := convolveLoops h w Ptr.fftBuffer p1 p2 m4
  let m6 := convolveLoops h w p0 p1 p3 m5
  forRange h (fun i => forRange (w / 2 + 1)
    (fun j => accumulateStep p2 p3 (i * (w / 2 + 1) + j))) m6

/-- Filter::apply up to the inverse transform: reject a null spectrum and a
null filter, then leave the product of `fft` and `filter` in `fftBuffer`, the
input of `planBackward`.  The response image is the inverse transform of
`fftBuffer`, scaled by OpenCV by one over its maximum. -/
def Filter.apply (f : Filter) (fft : Option Ptr) : Except String Filter :=
  match fft with
  | none => Except.error "Filter::apply. fft object is NULL."
  | some p =>
    if !f.hasFilter then
      Except.error "Filter::apply. Invalid filter (NULL)."
    else
      Except.ok (f.convolve p Ptr.filter (some Ptr.fftBuffer)).2

/-- Body of the zeroing loop of the training constructor of `Filter`: the
chained assignment sets the four components from right to left. -/
def initStep (i : Nat) (m : Mem) : Mem :=
  (((m.set1 Ptr.mosseDen i 0).set0 Ptr.mosseDen i 0).set1 Ptr.mosseNum i 0).set0
    Ptr.mosseNum i 0

/-- The training constructor of `Filter` for an image size: `filter = 0`, zeroed
numerator and denominator, `storageIndex = 0`.  `m` is the content of freshly
allocated memory; `rate` is the learning rate, used by `OnlineFilter` only. -/
def Filter.init (height width : Nat) (m : Mem) (rate : Dbl) : Filter :=
  { height := height
    width := width
    mem := forRange (height * (width / 2 + 1)) initStep m
    hasFilter := false
    storageIndex := 0
    learningRate := rate }

/-- The filter side of Location::getPreprocessedImage: preprocess the frame,
whose spectrum is `X`, then copy `fftBuffer` into the newly allocated buffer
`ext fresh`, which is returned. -/
def Filter.getPreprocessedImage (f : Filter) (X : Nat → Cplx) (fresh : Nat) :
    Ptr × Filter :=
  let (imageFFT, f1) := f.preprocessImage X
  let nElements := f1.height * (f1.width / 2 + 1)
  (Ptr.ext fresh, { f1 with mem := f1.mem.memcpy (Ptr.ext fresh) imageFFT nElements })

/-! ## The Gaussian of Filter::createGaussian -/

/-- The arrays `xspacer` and `yspacer` of Filter::createGaussian: `n` values,
the first one `start`, each next one 1.0 more. -/
def spacer (start : Dbl) (n : Nat) : List Dbl :=
  (forRange n (fun _ (s : List Dbl × Dbl) => (s.1 ++ [s.2], s.2 + 1)) ([], start)).1

/-- The function `exp` of the C library on doubles.  The result is the double
next to the exponential of the argument.  For the argument 0 it is 1.  For an
argument at or below -746 it is 0: the exponential is then below 2^-1075, half
of the least positive double 2^-1074, and the result underflows.  For an
argument at or above 710 it is not finite: the exponential is then above
2^1024.  For every other finite argument `approx` gives the result. -/
def expDouble (approx : ℚ → ℚ) : Dbl → Dbl
  | Dbl.fin q =>
    if q = 0 then Dbl.fin 1
    else if q ≤ -746 then Dbl.fin 0
    else if 710 ≤ q then Dbl.nan
    else Dbl.fin (approx q)
  | Dbl.nan => Dbl.nan

/-- The value `gaussian[i][j]` of Filter::createGaussian, which is also
`imageBuffer[i * width + j]` when the forward transform runs; `exp` is the
function of that name of the C library. -/
def Filter.gaussianCell (f : Filter) (exp : Dbl → Dbl) (location : CvPoint)
    (sd : Dbl) (i j : Nat) : Dbl :=
  let xspacer := spacer (Dbl.ofInt (-location.x)) f.width
  let yspacer := spacer (Dbl.ofInt (-location.y)) f.height
  let x := xspacer.getD j 0
  let y := yspacer.getD i 0
  let det := sd * sd
  let X := x * x
  let Y := y * y
  exp (-((X * sd + Y * sd) / det))

/-- The array `imageBuffer` when Filter::createGaussian starts the forward
transform: the cells of the grid, row after row. -/
def Filter.gaussianBuffer (f : Filter) (exp : Dbl → Dbl) (location : CvPoint) (sd : Dbl) :
    List Dbl :=
  (List.range f.height).flatMap (fun i =>
    (List.range f.width).map (fun j => f.gaussianCell exp location sd i j))

/-- Filter::update on one sample, with the target built as the source builds
it: `double sd = gaussianSpread / 2`, then `createGaussian(location, size, sd)`,
whose result is the forward transform `fft` of the image buffer. -/
def Filter.updateAt (f : Filter) (gaussianSpread : Dbl) (exp : Dbl → Dbl)
    (fft : List Dbl → Nat → Cplx) (size : Nat × Nat) (X : Nat → Cplx) (location : CvPoint) :
    Except String Filter :=
  let sd := gaussianSpread / Dbl.fin 2
  f.update size X (fft (f.gaussianBuffer exp location sd))

/-! ## The augmented training set -/

/-- The values of the control variable of the loop
`for (double v = start; v < bound; v += step)` (or `v <= bound` when `incl`),
in the order in which the body sees them.  The bounds and steps of the source
are exact binary fractions, so the values are exact.  `none` when `fuel`
iterations do not reach the end of the loop. -/
def doubleLoopValues (incl : Bool) (bound step : ℚ) : Nat → ℚ → Option (List ℚ)
  | 0, _ => none
  | fuel + 1, v =>
    if (if incl then decide (v ≤ bound) else decide (v < bound)) then
      (doubleLoopValues incl bound step fuel (v + step)).map (fun vs => v :: vs)
    else some []

/-- The conversion of a double to `int`: truncation toward zero. -/
def truncToInt (q : ℚ) : Int := Int.tdiv q.num q.den

/-- The 2 by 3 matrix of doubles that `getRotationMatrix2D` returns. -/
structure RotMat where
  m00 : ℚ
  m01 : ℚ
  m02 : ℚ
  m10 : ℚ
  m11 : ℚ
  m12 : ℚ

/-- The bounds test of Filter::getAffineTransforms, negated: the location is
kept. -/
def Filter.keeps (f : Filter) (p : CvPoint) : Bool :=
  !(decide (p.x < 0) || decide (p.x > (f.width : Int)) || decide (p.y < 0)
    || decide (p.y > (f.height : Int)))

/-- Body of the two translation loops of Filter::getAffineTransforms for one
(xdist, ydist), acting on `transformedImages`. -/
def translationStep (f : Filter) (transformedImage : Img) (rotatedLocation : CvPoint)
    (xdist ydist : ℚ) (images : List ImgLocPairT) : List ImgLocPairT :=
  if xdist = 0 ∧ ydist = 0 then images
  else
    let translatedImage := Img.translated transformedImage xdist ydist
    let translatedLocation : CvPoint :=
      { x := truncToInt ((rotatedLocation.x : ℚ) + xdist)
        y := truncToInt ((rotatedLocation.y : ℚ) + ydist) }
    if f.keeps translatedLocation then images ++ [(translatedImage, translatedLocation)]
    else images

/-- Body of the rotation loop of Filter::getAffineTransforms for one angle,
acting on `transformedImages`; `rot angle` is
`getRotationMatrix2D(center, angle, 1.0)` and `dists` the values of `xdist`
(and of `ydist`). -/
def rotationStep (f : Filter) (rot : ℚ → RotMat) (dists : List ℚ) (image : Img)
    (location : CvPoint) (angle : ℚ) (images : List ImgLocPairT) : List ImgLocPairT :=
  if angle = 0 then images
  else
    let rotationMat := rot angle
    let transformedImage := Img.rotated image angle
    let rotatedLocation : CvPoint :=
      { x := truncToInt (rotationMat.m00 * location.x + rotationMat.m01 * location.y
          + rotationMat.m02)
        y := truncToInt (rotationMat.m10 * location.x + rotationMat.m11 * location.y
          + rotationMat.m12) }
    if f.keeps rotatedLocation then
      dists.foldl (fun acc xdist => dists.foldl (fun acc1 ydist =>
        translationStep f transformedImage rotatedLocation xdist ydist acc1) acc)
        (images ++ [(transformedImage, rotatedLocation)])
    else images

/-- Filter::getAffineTransforms: the returned vector is the member
`transformedImages`.  `fuel` bounds the number of iterations of each loop over
doubles; the result is `none` when it does not suffice. -/
def Filter.getAffineTransforms (f : Filter) (rot : ℚ → RotMat) (fuel : Nat) (image : Img)
    (location : CvPoint) : Option (List ImgLocPairT × Filter) :=
  let f1 := { f with transformedImages := f.transformedImages ++ [(image, location)] }
  if !f1.doAffineTransforms then some (f1.transformedImages, f1)
  else
    match doubleLoopValues false 2 (1 / 4) fuel (-2), doubleLoopValues true 20 10 fuel (-20) with
    | some angles, some dists =>
      let f2 := { f1 with
        transformedImages := angles.foldl (fun acc angle =>
          rotationStep f1 rot dists image location angle acc) f1.transformedImages }
      some (f2.transformedImages, f2)
    | _, _ => none

/-- Filter::setAffineTransforms. -/
def Filter.setAffineTransforms (f : Filter) : Filter := { f with doAffineTransforms := true }

/-- Filter::destroyAffineTransforms on the member vector: the images are
released and the vector is cleared. -/
def Filter.destroyAffineTransforms (f : Filter) : Filter := { f with transformedImages := [] }

/-! ## OnlineFilter -/

/-- Body of the blending loops of OnlineFilter::onlineUpdate at flat index
`ij`. -/
def blendStep (learningRate : Dbl) (num den : Ptr) (ij : Nat) (m : Mem) : Mem :=
  let m1 := m.set0 Ptr.mosseNum ij
    (learningRate * (m.read num ij).re + (1 - learningRate) * (m.read Ptr.mosseNum ij).re)
  let m2 := m1.set1 Ptr.mosseNum ij
    (learningRate * (m1.read num ij).im + (1 - learningRate) * (m1.read Ptr.mosseNum ij).im)
  let m3 := m2.set0 Ptr.mosseDen ij
    (learningRate * (m2.read den ij).re + (1 - learningRate) * (m2.read Ptr.mosseDen ij).re)
  m3.set1 Ptr.mosseDen ij
    (learningRate * (m3.read den ij).im + (1 - learningRate) * (m3.read Ptr.mosseDen ij).im)

/-- OnlineFilter::onlineUpdate: `fftImage` points to the spectrum of the frame
and `T` is the spectrum of the Gaussian at `location`. -/
def Filter.onlineUpdate (f : Filter) (fftImage : Ptr) (T : Nat → Cplx) : Filter :=
  let (gaussian, f1) := f.createGaussian T
  let nElements := f1.height * (f1.width / 2 + 1)
  let (fftImageC, f2) := f1.getBuffer
  let f3 := { f2 with mem := forRange nElements (conjStep fftImage fftImageC) f2.mem }
  let (num, f4) := f3.convolve gaussian fftImageC none
  let (den, f5) := f4.convolve fftImage fftImageC none
  { f5 with
    mem := forRange f5.height (fun i => forRange (f5.width / 2 + 1)
      (fun j => blendStep f5.learningRate num den (i * (f5.width / 2 + 1) + j))) f5.mem }

/-- The memory OnlineFilter::onlineUpdate leaves for a spectrum held in `p`,
when the three pool buffers it acquires are `pC` (conjugate), `pN` (numerator
term) and `pD` (denominator term). -/
def onlineUpdateMem (h w : Nat) (rate : Dbl) (T : Nat → Cplx) (p pC pN pD : Ptr)
    (m : Mem) : Mem :=
  let n := h * (w / 2 + 1)
  let m1 := m.load Ptr.fftBuffer n T
  let m2 := forRange n (conjStep p pC) m1
  let m3 := convolveLoops h w Ptr.fftBuffer pC pN m2
  let m4 := convolveLoops h w p pC pD m3
  forRange h (fun i => forRange (w / 2 + 1)
    (fun j => blendStep rate pN pD (i * (w / 2 + 1) + j))) m4

/-- OnlineFilter::apply.  `peak s` is the location `cvMinMaxLoc` reports as
`maxLoc` for the inverse transform of the spectrum `s`; `T location` is the
spectrum of the Gaussian at `location`.  The result is the spectrum handed to
the inverse transform (the returned image is its inverse transform, scaled by
one over its maximum before the update starts), `maxLoc`, and the filter
afterwards. -/
def OnlineFilter.apply (f : Filter) (fft : Option Ptr) (peak : (Nat → Cplx) → CvPoint)
    (T : CvPoint → Nat → Cplx) : Except String ((Nat → Cplx) × CvPoint × Filter) :=
  match fft with
  | none => Except.error "OnlineFilter::apply. fft object is NULL."
  | some p =>
    let f1 := f.create
    if !f1.hasFilter then
      Except.error "OnlineFilter::apply. Invalid filter (NULL)."
    else
      let (fftCopy, f2) := f1.getBuffer
      let nElements := f2.height * (f2.width / 2 + 1)
      let f3 := { f2 with mem := f2.mem.memcpy fftCopy p nElements }
      let f4 := (f3.convolve p Ptr.filter (some Ptr.fftBuffer)).2
      let response := f4.mem.read Ptr.fftBuffer
      let maxLoc := peak response
      let f5 := f4.onlineUpdate fftCopy (T maxLoc)
      Except.ok (response, maxLoc, f5)

/-- The memory in which OnlineFilter::apply takes the product: `create()` has
run on the memory at entry and the spectrum held in `p` has been copied into
the pool buffer `fftCopy`. -/
def onlineApplyMem (f : Filter) (p fftCopy : Ptr) : Mem :=
  convolveLoops f.height f.width p Ptr.filter Ptr.fftBuffer
    (f.create.mem.memcpy fftCopy p f.nElements)

/-- OnlineFilter::onlineUpdate(fftImage, location), with the target built as
the source builds it: `double sd = gaussianSpread / 2.0`, then
`createGaussian(location, size, sd)`. -/
def Filter.onlineUpdateAt (f : Filter) (gaussianSpread : Dbl) (exp : Dbl → Dbl)
    (fft : List Dbl → Nat → Cplx) (fftImage : Ptr) (location : CvPoint) : Filter :=
  let sd := gaussianSpread / Dbl.fin 2
  f.onlineUpdate fftImage (fft (f.gaussianBuffer exp location sd))

/-! ## Location -/

/-- A one-channel image of doubles (the response `postFilterImg`): its size and
its pixel at a row and a column. -/
structure Image where
  height : Int
  width : Int
  pix : Int → Int → Dbl

/-- The members of `Location` used by peak extraction, by `setImage` and by
`apply`.  `imgHeight` and `imgWidth` are `imgSize`; `postFilterImg`, `inputImg`
and `imageFFT` are `none` for the null pointer, which is what the constructors
set `inputImg` and `imageFFT` to. -/
structure Location where
  imgHeight : Int
  imgWidth : Int
  postFilterImg : Option Image
  pastLocationIndex : Nat
  pastLocations : List CvPoint
  inputImg : Option Img := none
  imageFFT : Option Ptr := none

/-- The constructors of `Location`: a history of `nPastLocations` points, all
(-1, -1), index 0 and no response image.  They leave `imgSize` unset; its value
is a parameter here. -/
def Location.init (nPastLocations : Nat) (imgHeight imgWidth : Int) : Location :=
  { imgHeight := imgHeight
    imgWidth := imgWidth
    postFilterImg := none
    pastLocationIndex := 0
    pastLocations := forRange nPastLocations (fun _ ps => ps ++ [⟨-1, -1⟩]) [] }

/-- Sum of doubles, accumulated from 0 from the left. -/
def dsum (xs : List Dbl) : Dbl := xs.foldl (fun acc v => acc + v) 0

/-- The calls `cvSetImageROI(img, rect)` then `cvAvg(img, NULL)` of OpenCV:
the rectangle is clipped to the image and the mean of the pixels inside it is
returned, 0 for a region without pixels. -/
def cvAvgROI (img : Image) (x y width height : Int) : Dbl :=
  let x0 := max x 0
  let y0 := max y 0
  let x1 := min (x + width) img.width
  let y1 := min (y + height) img.height
  let rows := (List.range (y1 - y0).toNat).map (fun (r : Nat) => y0 + (r : Int))
  let cols := (List.range (x1 - x0).toNat).map (fun (c : Nat) => x0 + (c : Int))
  let vals := rows.flatMap (fun r => cols.map (fun c => img.pix r c))
  if vals.length = 0 then 0 else dsum vals / Dbl.ofInt vals.length

/-- The half width Location::computePSR ends up with, before its test
`halfWidth < 0`. -/
def psrHalfWidth (psrWidth : Int) (location : CvPoint) : Int :=
  let halfWidth := Int.tdiv psrWidth 2
  let halfWidth :=
    if location.x - halfWidth < 0 then halfWidth + (location.x - halfWidth) else halfWidth
  let halfWidth :=
    if location.y - halfWidth < 0 then halfWidth + (location.y - halfWidth) else halfWidth
  halfWidth

/-- Location::computePSR, with `psrWidthG` for `Globals::psrWidth`.  The two
boundary loops run from `y` (from `x`) over `psrWidth` values and accumulate
the pair (boundary, count). -/
def Location.computePSR (psrWidthG : Int) (l : Location) (max : Dbl)
    (location : CvPoint) : Dbl :=
  match l.postFilterImg with
  | none => 0
  | some img =>
    let halfWidth := psrHalfWidth psrWidthG location
    if halfWidth < 0 then 0
    else
      let psrWidth := halfWidth * 2
      let x := location.x - halfWidth
      let y := location.y - halfWidth
      let mean := cvAvgROI img x y psrWidth psrWidth
      if mean.lt 0 then 0
      else
        let acc0 : Dbl × Int := (0, 0)
        let acc1 := forRange psrWidth.toNat (fun k (acc : Dbl × Int) =>
          let i := y + (k : Int)
          if i < l.imgHeight then (acc.1 + img.pix i x, acc.2 + 1) else acc) acc0
        let acc2 := forRange psrWidth.toNat (fun k (acc : Dbl × Int) =>
          let i := x + (k : Int)
          if i < l.imgWidth then (acc.1 + img.pix y i, acc.2 + 1) else acc) acc1
        let boundary := acc2.1 / Dbl.ofInt acc2.2
        let sd := max - boundary
        (max - mean) / sd

/-- Location::getMaxLocation, with `nPastLocations` for
`Globals::nPastLocations` and `psrWidthG` for `Globals::psrWidth`; `max` and
`maxLoc` are what `cvMinMaxLoc` reports for `postFilterImg`.  The result is the
reported location, the confidence and the extractor afterwards.  The source
requires `nPastLocations` to be positive (it indexes the history and takes a
remainder by it). -/
def Location.getMaxLocation (nPastLocations : Nat) (psrWidthG : Int) (l : Location)
    (max : Dbl) (maxLoc : CvPoint) : Except String (CvPoint × Dbl × Location) :=
  match l.postFilterImg with
  | none => Except.error "Location::getMaxLocation. Invalid image"
  | some _ =>
    let sums : Int × Int × Int := forRange nPastLocations
      (fun i (acc : Int × Int × Int) =>
        if (l.pastLocations.getD i default).x ≠ -1 then
          (acc.1 + (l.pastLocations.getD i default).x,
            acc.2.1 + (l.pastLocations.getD i default).y, acc.2.2 + 1)
        else acc)
      (maxLoc.x, maxLoc.y, 1)
    let location : CvPoint :=
      { x := Int.tdiv sums.1 sums.2.2, y := Int.tdiv sums.2.1 sums.2.2 }
    let l1 := { l with pastLocations := l.pastLocations.set l.pastLocationIndex maxLoc }
    let l2 := { l1 with pastLocationIndex := (l1.pastLocationIndex + 1) % nPastLocations }
    Except.ok (location, l2.computePSR psrWidthG max maxLoc, l2)

/-- The assignment `postFilterImg = filter->apply(imageFFT)` of
Location::apply, for a response image `img`. -/
def Location.setResponse (l : Location) (img : Image) : Location :=
  { l with postFilterImg := some img }

/-- A sequence of frames on one extractor: for each frame the response `img`
is stored by `apply`, then `getMaxLocation` is called with the `max` and
`maxLoc` of `cvMinMaxLoc`.  The result lists the reported locations in call
order. -/
def Location.track (nPastLocations : Nat) (psrWidthG : Int) :
    Location → List (Image × Dbl × CvPoint) → Except String (List CvPoint × Location)
  | l, [] => Except.ok ([], l)
  | l, (img, max, maxLoc) :: rest =>
    match (l.setResponse img).getMaxLocation nPastLocations psrWidthG max maxLoc with
    | Except.error e => Except.error e
    | Except.ok (location, _, l1) =>
      match Location.track nPastLocations psrWidthG l1 rest with
      | Except.error e => Except.error e
      | Except.ok (locations, l2) => Except.ok (location :: locations, l2)

/-- The pair (boundary, count) the two boundary loops of Location::computePSR
leave, for the window with top-left corner (x, y) and side `psrWidth`. -/
def Location.psrBoundary (l : Location) (img : Image) (x y psrWidth : Int) : Dbl × Int :=
  let acc0 : Dbl × Int := (0, 0)
  let acc1 := forRange psrWidth.toNat (fun k (acc : Dbl × Int) =>
    let i := y + (k : Int)
    if i < l.imgHeight then (acc.1 + img.pix i x, acc.2 + 1) else acc) acc0
  forRange psrWidth.toNat (fun k (acc : Dbl × Int) =>
    let i := x + (k : Int)
    if i < l.imgWidth then (acc.1 + img.pix y i, acc.2 + 1) else acc) acc1

/-! ## The normalisation steps of Filter::preprocessImage -/

/-- The integer part of the binary logarithm of `n`, 0 for `n` below 2; `fuel`
bounds the number of halvings. -/
def log2Floor : Nat → Nat → Nat
  | 0, _ => 0
  | fuel + 1, n => if n < 2 then 0 else log2Floor fuel (n / 2) + 1

/-- The double (binary64) next to a rational: round to nearest, ties to even,
with 53 significant bits and least exponent -1074; the result is not finite
when the rounded magnitude reaches 2^1024.  `k` bounds the binary logarithm of
the magnitude a / b, `L` is its integer part, 2^e the gap between the doubles
around the magnitude, and `m` the magnitude in units of that gap, rounded. -/
def roundDouble (q : ℚ) : Dbl :=
  if q = 0 then Dbl.fin 0
  else
    let a := q.num.natAbs
    let b := q.den
    let k : Int := (log2Floor a a : Int) - (log2Floor b b : Int)
    let L : Int := if b * 2 ^ k.toNat ≤ a * 2 ^ (-k).toNat then k else k - 1
    let e : Int := max (L - 52) (-1074)
    let n := a * 2 ^ (-e).toNat
    let d := b * 2 ^ e.toNat
    let t := n / d
    let r := n % d
    let m := if d < 2 * r ∨ (2 * r = d ∧ t % 2 = 1) then t + 1 else t
    if 2 ^ 1024 * 2 ^ (-e).toNat ≤ m * 2 ^ e.toNat then Dbl.nan
    else
      let v : ℚ := mkRat ((m * 2 ^ e.toNat : Nat) : Int) (2 ^ (-e).toNat)
      Dbl.fin (if q < 0 then -v else v)

/-- Sum of two doubles; `rnd` rounds the exact result to a double. -/
def Dbl.addR (rnd : ℚ → Dbl) : Dbl → Dbl → Dbl
  | Dbl.fin a, Dbl.fin b => rnd (a + b)
  | _, _ => Dbl.nan

/-- Difference of two doubles, rounded by `rnd`. -/
def Dbl.subR (rnd : ℚ → Dbl) : Dbl → Dbl → Dbl
  | Dbl.fin a, Dbl.fin b => rnd (a - b)
  | _, _ => Dbl.nan

/-- Product of two doubles, rounded by `rnd`. -/
def Dbl.mulR (rnd : ℚ → Dbl) : Dbl → Dbl → Dbl
  | Dbl.fin a, Dbl.fin b => rnd (a * b)
  | _, _ => Dbl.nan

/-- Quotient of two doubles, rounded by `rnd`; a zero divisor gives no finite
value. -/
def Dbl.divR (rnd : ℚ → Dbl) : Dbl → Dbl → Dbl
  | Dbl.fin a, Dbl.fin b => if b = 0 then Dbl.nan else rnd (a / b)
  | _, _ => Dbl.nan

/-- The call `cvSum(img)`: the sum of the pixels, added one after the other
from 0. -/
def cvSum (rnd : ℚ → Dbl) (img : List Dbl) : Dbl :=
  img.foldl (fun acc v => Dbl.addR rnd acc v) (Dbl.fin 0)

/-- The call `cvAvg(img, NULL)` on a one-channel image given by its pixels:
their sum over their number. -/
def cvAvg (rnd : ℚ → Dbl) (img : List Dbl) : Dbl :=
  Dbl.divR rnd (cvSum rnd img) (Dbl.ofInt img.length)

/-- The call `cvSubS(src, value, dst)`. -/
def cvSubS (rnd : ℚ → Dbl) (src : List Dbl) (value : Dbl) : List Dbl :=
  src.map (fun v => Dbl.subR rnd v value)

/-- The call `cvAddS(src, value, dst, NULL)`. -/
def cvAddS (rnd : ℚ → Dbl) (src : List Dbl) (value : Dbl) : List Dbl :=
  src.map (fun v => Dbl.addR rnd v value)

/-- The call `cvMul(src1, src2, dst)`: the product pixel by pixel. -/
def cvMul (rnd : ℚ → Dbl) (src1 src2 : List Dbl) : List Dbl :=
  List.zipWith (fun a b => Dbl.mulR rnd a b) src1 src2

/-- The call `cvConvertScale(src, dst, scale, shift)`. -/
def cvConvertScale (rnd : ℚ → Dbl) (src : List Dbl) (scale shift : Dbl) : List Dbl :=
  src.map (fun v => Dbl.addR rnd (Dbl.mulR rnd v scale) shift)

/-- The minimum `cvMinMaxLoc` reports. -/
def cvMin (img : List Dbl) : Dbl :=
  match img with
  | [] => 0
  | v :: vs => vs.foldl (fun m x => if x.lt m then x else m) v

/-- The maximum `cvMinMaxLoc` reports. -/
def cvMax (img : List Dbl) : Dbl :=
  match img with
  | [] => 0
  | v :: vs => vs.foldl (fun m x => if m.lt x then x else m) v

/-- The steps of Filter::preprocessImage from the mean to the division by the
sum of squares, on the pixels of `realImg`; `rnd` rounds the exact result of
each operation to a double. -/
def preprocessScaled (rnd : ℚ → Dbl) (realImg : List Dbl) : List Dbl :=
  let mean := cvAvg rnd realImg
  let realImg := cvSubS rnd realImg mean
  let tempImg := cvMul rnd realImg realImg
  let sumOfSquares := cvSum rnd tempImg
  let scale := Dbl.divR rnd 1 sumOfSquares
  cvConvertScale rnd realImg scale 0

/-- The normalisation steps of Filter::preprocessImage, from the mean to the
scaling by one over the maximum, on the pixels of `realImg`; `rnd` rounds the
exact result of each operation to a double. -/
def preprocessNormalize (rnd : ℚ → Dbl) (realImg : List Dbl) : List Dbl :=
  let realImg := preprocessScaled rnd realImg
  let min := cvMin realImg
  let realImg := if min.lt 0 then cvAddS rnd realImg (-min) else cvAddS rnd realImg min
  let max := cvMax realImg
  let scale := Dbl.divR rnd 1 max
  cvConvertScale rnd realImg scale 0

/-! ## Filter::update on a file -/

/-- The loop of Filter::update(filename, fa) over the pairs of `imgLocPairs`,
without ROI function: `X image` is the spectrum the preprocessing of `image`
yields and `T location` the spectrum of the Gaussian at `location`.  A throw
leaves the loop at once: the result is then the message and the filter as it is
at that point. -/
def Filter.updateLoop (X : Img → Nat → Cplx) (T : CvPoint → Nat → Cplx) :
    Filter → List ImgLocPairT → Option String × Filter
  | f, [] => (none, f)
  | f, (image, location) :: rest =>
    match f.update image.size (X image) (T location) with
    | Except.error err => (some err, f)
    | Except.ok f1 => Filter.updateLoop X T f1 rest

/-- Filter::update(filename, fa), without ROI function: `image` is what
`cvLoadImage` returns for the file (`none` for a null pointer) and `location`
the annotated location.  The result is the message thrown, if any, and the
filter afterwards; it is `none` when `fuel` does not suffice for the loops over
doubles.  `destroyAffineTransforms` is reached only when nothing was thrown.
The first message carries the file name in the source, the second the expected
size. -/
def Filter.updateFile (f : Filter) (rot : ℚ → RotMat) (fuel : Nat) (image : Option Img)
    (location : CvPoint) (X : Img → Nat → Cplx) (T : CvPoint → Nat → Cplx) :
    Option (Option String × Filter) :=
  match image with
  | none => some (some "Filter::update. Cannot load file.", f)
  | some image =>
    match f.getAffineTransforms rot fuel image location with
    | none => none
    | some (imgLocPairs, f1) =>
      match Filter.updateLoop X T f1 imgLocPairs with
      | (some err, f2) => some (some err, f2)
      | (none, f2) => some (none, f2.destroyAffineTransforms)

/-! ## Frames given by pointer -/

/-- Location::setImage(IplImage*), for the filter the extractor holds.  The
result is the message thrown, if any, and the extractor afterwards: the three
assignments precede the size test.  The message of the size test is followed in
the source by the two sizes, formatted. -/
def Location.setImage (l : Location) (filter : Filter) (image : Option Img) :
    Option String × Location :=
  match image with
  | none => (some "Location::setImage. image parameter is NULL.", l)
  | some img =>
    let l1 := { l with inputImg := some img }
    let l2 := { l1 with postFilterImg := none }
    let l3 := { l2 with imgHeight := (img.size.1 : Int), imgWidth := (img.size.2 : Int) }
    if l3.imgHeight ≠ (filter.height : Int) ∨ l3.imgWidth ≠ (filter.width : Int) then
      (some "Location::setImage. filter size and image sizes do not match!", l3)
    else (none, l3)

/-- Filter::preprocessImage on a frame pointer (`none` for the null pointer).
After the null test the frame goes through the calls of OpenCV and through
`computeFFT()`; `cv image` is their outcome on the frame: the spectrum left in
`fftBuffer`, or the failure the library raises. -/
def Filter.preprocessImagePtr (f : Filter) (cv : Img → Except String (Nat → Cplx))
    (inputImg : Option Img) : Except String (Ptr × Filter) :=
  match inputImg with
  | none => Except.error "Filter::preprocessImage. Call setImage with a valid image."
  | some image =>
    match cv image with
    | Except.error err => Except.error err
    | Except.ok X => Except.ok (f.preprocessImage X)

/-- The test OpenCV makes in a call that reads one image and writes another
(`cvCvtColor`, `cvConvertScale`): source and destination have one size, or the
call raises an error. -/
def cvSameSize (src dst : Nat × Nat) : Except String Unit :=
  if src = dst then Except.ok () else Except.error "OpenCV: sizes of input arguments do not match"

/-- The calls of OpenCV in Filter::preprocessImage on a non-null frame, up to
`computeFFT()`.  A frame that is not grayscale (`gray inputImg` false) is
converted by `cvCvtColor` into `image`, which the function creates with the
size of the filter; a grayscale frame is `image` itself.  `cvConvertScale` then
writes `image` into `realImg`, which the constructor creates with the size of
the filter.  Each of the two calls raises an error unless its source and its
destination have one size.  `spectrum inputImg` is what the remaining calls
and the forward transform leave in `fftBuffer`. -/
def Filter.cvCalls (f : Filter) (gray : Img → Bool) (spectrum : Img → Nat → Cplx)
    (inputImg : Img) : Except String (Nat → Cplx) :=
  let imgSize := (f.height, f.width)
  let image : Except String (Nat × Nat) :=
    if gray inputImg then Except.ok inputImg.size
    else
      match cvSameSize inputImg.size imgSize with
      | Except.error err => Except.error err
      | Except.ok _ => Except.ok imgSize
  match image with
  | Except.error err => Except.error err
  | Except.ok imageSize =>
    match cvSameSize imageSize imgSize with
    | Except.error err => Except.error err
    | Except.ok _ => Except.ok (spectrum inputImg)

/-! ## Location::apply -/

/-- Location::apply, for the filter the extractor holds (a `Filter`, not an
`OnlineFilter`).  `cv` is the outcome of the OpenCV calls of the preprocessing
on a frame; `ifft s` is the image `Filter::apply` returns for the spectrum `s`
it hands to the inverse transform.  The result is the value returned, the
extractor and the filter afterwards; the state a throw leaves behind is not
part of the result. -/
def Location.apply (l : Location) (filter : Filter) (cv : Img → Except String (Nat → Cplx))
    (ifft : (Nat → Cplx) → Image) : Except String (Bool × Location × Filter) :=
  match l.imageFFT with
  | none =>
    match l.inputImg with
    | none =>
      Except.error "Location::apply. Please call setImage first to set the input image."
    | some image =>
      match filter.preprocessImagePtr cv (some image) with
      | Except.error err => Except.error err
      | Except.ok (imageFFT, f1) =>
        let l1 := { l with imageFFT := some imageFFT }
        match f1.apply l1.imageFFT with
        | Except.error err => Except.error err
        | Except.ok f2 =>
          let l2 := { l1 with postFilterImg := some (ifft (f2.mem.read Ptr.fftBuffer)) }
          let l3 := { l2 with imageFFT := none }
          Except.ok (true, l3, f2)
  | some imageFFT =>
    match filter.apply (some imageFFT) with
    | Except.error err => Except.error err
    | Except.ok f2 =>
      let l2 := { l with postFilterImg := some (ifft (f2.mem.read Ptr.fftBuffer)) }
      let l3 := { l2 with imageFFT := none }
      Except.ok (true, l3, f2)

/-- The memory Filter::apply leaves when the spectrum it is given is
`fftBuffer` itself, holding `X`: the product loops read and write the same
buffer. -/
def rawApplyMem (f : Filter) (X : Nat → Cplx) : Mem :=
  convolveLoops f.height f.width Ptr.fftBuffer Ptr.filter Ptr.fftBuffer
    (f.mem.load Ptr.fftBuffer f.nElements X)

/-! ## Filter::loadFilter -/

/-- The test `line.find(pat) != string::npos`: `pat` occurs in `line`. -/
def containsSub (pat line : String) : Bool :=
  line.toList.tails.any (fun t => pat.toList.isPrefixOf t)

/-- The delimiters of the calls of `strtok` in Filter::loadFilter: tab and
blank. -/
def isDelim (c : Char) : Bool := c = Char.ofNat 9 || c = Char.ofNat 32

/-- The tokens of the characters still to scan, `cur` being the token under
way, reversed. -/
def tokensFrom : List Char → List Char → List String
  | [], cur => if cur.isEmpty then [] else [String.mk cur.reverse]
  | c :: cs, cur =>
    if isDelim c then
      if cur.isEmpty then tokensFrom cs [] else String.mk cur.reverse :: tokensFrom cs []
    else tokensFrom cs (c :: cur)

/-- The tokens the successive calls of `strtok` on a line return before the
null pointer: the maximal runs of characters other than tab and blank. -/
def tokens (line : String) : List String := tokensFrom line.toList []

/-- The tag Filter::loadFilter assigns to `xmlTag` for the first line of the
file. -/
def tagOfLine (line : String) : Tag :=
  if containsSub "LeftEye" line then Tag.LeftEye
  else if containsSub "RightEye" line then Tag.RightEye
  else if containsSub "Face" line then Tag.Face
  else Tag.Nose

/-- The filter and the locals of Filter::loadFilter while the file is read.
`length` is the member of that name; `sized` records that `imgSize`, `mosseNum`
and `mosseDen` have been assigned, which the loading constructor leaves to
`loadFilter`. -/
structure LoadState where
  filter : Filter
  length : Int
  height : Int
  width : Int
  isNumeratorTerm : Bool
  index : Nat
  sized : Bool

/-- Body of the token loop of the size line. -/
def sizeStep (atoi : String → Int) (hw : Int × Int) (token : String) : Int × Int :=
  if hw.1 = 0 then (atoi token, hw.2)
  else if hw.1 ≠ 0 ∧ hw.2 = 0 then (hw.1, atoi token)
  else hw

/-- Body of the loop of Filter::loadFilter for a line other than the empty one;
`atoi` and `strtod` are the functions of the C library.  `none` stands for
undefined behaviour: a negative size or a product `height * width` beyond
`int`, `strtod` on the null pointer (a value line with fewer than two tokens)
and a write past the end of the array. -/
def processLine (atoi : String → Int) (strtod : String → Dbl) (s : LoadState)
    (line : String) : Option LoadState :=
  if s.length = 0 then
    let hw := (tokens line).foldl (sizeStep atoi) (s.height, s.width)
    if hw.1 < 0 ∨ hw.2 < 0 ∨ 2 ^ 31 ≤ hw.1 * hw.2 then none
    else
      let f1 := { s.filter with height := hw.1.toNat, width := hw.2.toNat }
      let nElements := f1.height * (f1.width / 2 + 1)
      some { s with
        height := hw.1
        width := hw.2
        length := hw.1 * hw.2
        sized := true
        filter := { f1 with mem := forRange nElements initStep f1.mem } }
  else if containsSub "Numerator" line then
    some { s with isNumeratorTerm := true, index := 0 }
  else if containsSub "Denominator" line then
    some { s with isNumeratorTerm := false, index := 0 }
  else
    match tokens line with
    | t0 :: t1 :: _ =>
      if s.index < s.filter.nElements then
        let p := if s.isNumeratorTerm then Ptr.mosseNum else Ptr.mosseDen
        let m1 := s.filter.mem.set0 p s.index (strtod t0)
        let m2 := m1.set1 p s.index (strtod t1)
        some { s with filter := { s.filter with mem := m2 }, index := s.index + 1 }
      else none
    | _ => none

/-- The loop `while (!filterFile.eof())` of Filter::loadFilter over the lines
that follow the first one: it ends at the first empty line and at the end of
the file. -/
def loadLines (atoi : String → Int) (strtod : String → Dbl) :
    LoadState → List String → Option LoadState
  | s, [] => some s
  | s, line :: rest =>
    if line = "" then some s
    else
      match processLine atoi strtod s line with
      | none => none
      | some s1 => loadLines atoi strtod s1 rest

/-- Filter::loadFilter, called by the loading constructor on the object `f`;
`file` holds the lines of the file, `none` when it cannot be opened.  The
function returns nothing and lets no exception out, so the result is the filter
afterwards; `none` stands for undefined behaviour, that of `processLine` and
`create()` running on a size and on arrays that were never assigned. -/
def Filter.loadFilter (f : Filter) (atoi : String → Int) (strtod : String → Dbl)
    (file : Option (List String)) : Option Filter :=
  match file with
  | none => none
  | some lines =>
    let f0 := { f with xmlTag := tagOfLine (lines.headD "") }
    let s0 : LoadState :=
      { filter := f0, length := 0, height := 0, width := 0, isNumeratorTerm := true,
        index := 0, sized := false }
    match loadLines atoi strtod s0 lines.tail with
    | none => none
    | some s => if s.sized then some s.filter.create else none

/-- The test that guards the warning of Filter::loadFilter, "ERROR. Corrupt
Filter. Non-zero imaginary part in the denominator.", for a line the body of
the loop processes in state `s`: the line is read as a value line of the
denominator section, and the imaginary part stored from its second token is
not 0. -/
def warnsOn (strtod : String → Dbl) (s : LoadState) (line : String) : Bool :=
  if s.length = 0 then false
  else if containsSub "Numerator" line then false
  else if containsSub "Denominator" line then false
  else
    match tokens line with
    | _ :: t1 :: _ => if s.isNumeratorTerm then false else decide (strtod t1 ≠ Dbl.fin 0)
    | _ => false

/-- The number of warnings the loop of Filter::loadFilter prints over the lines
that follow the first one. -/
def countWarnings (atoi : String → Int) (strtod : String → Dbl) :
    LoadState → List String → Nat
  | _, [] => 0
  | s, line :: rest =>
    if line = "" then 0
    else
      match processLine atoi strtod s line with
      | none => 0
      | some s1 => (if warnsOn strtod s line then 1 else 0) + countWarnings atoi strtod s1 rest

/-- The number of times Filter::loadFilter prints its warning while it reads
`file`; `none` where `Filter.loadFilter` is `none`. -/
def Filter.loadWarnings (f : Filter) (atoi : String → Int) (strtod : String → Dbl)
    (file : Option (List String)) : Option Nat :=
  match file with
  | none => none
  | some lines =>
    let f0 := { f with xmlTag := tagOfLine (lines.headD "") }
    let s0 : LoadState :=
      { filter := f0, length := 0, height := 0, width := 0, isNumeratorTerm := true,
        index := 0, sized := false }
    match loadLines atoi strtod s0 lines.tail with
    | none => none
    | some s => if s.sized then some (countWarnings atoi strtod s0 lines.tail) else none

/-! ## Filter::save and sequences of operations -/

/-- The lines Filter::save writes, when the file can be opened.  `names` is
Filter::filterName (`none` where it throws), `fmt` the text `operator<<` writes
for a double. -/
def Filter.save (f : Filter) (names : Tag → Option String) (fmt : Dbl → String) :
    Except String (List String) :=
  if !f.hasFilter then
    Except.error "Filter::saveFilter. filter not created."
  else
    match names f.xmlTag with
    | none => Except.error "Filter::filterName. Unknown tag."
    | some name =>
      let entry := fun (p : Ptr) (ij : Nat) =>
        fmt (f.mem.read p ij).re ++ " " ++ fmt (f.mem.read p ij).im
      let block := fun (p : Ptr) =>
        (List.range f.height).flatMap (fun i =>
          (List.range (f.width / 2 + 1)).map (fun j => entry p (i * (f.width / 2 + 1) + j)))
      Except.ok ([name, toString f.height ++ " " ++ toString f.width, "Numerator"]
        ++ block Ptr.mosseNum ++ ["Denominator"] ++ block Ptr.mosseDen)

/-- The operations on a filter that change its state. -/
inductive FilterOp where
  | update (size : Nat × Nat) (X T : Nat → Cplx)
  | create
  | setAffineTransforms
  | preprocessImage (X : Nat → Cplx)
  | apply (fft : Option Ptr)

/-- The operation is `create()`. -/
def FilterOp.isCreate : FilterOp → Bool
  | FilterOp.create => true
  | _ => false

/-- The filter after one operation; an operation that throws leaves it as it
is. -/
def Filter.perform (f : Filter) : FilterOp → Filter
  | FilterOp.update size X T =>
    match f.update size X T with
    | Except.ok g => g
    | Except.error _ => f
  | FilterOp.create => f.create
  | FilterOp.setAffineTransforms => f.setAffineTransforms
  | FilterOp.preprocessImage X => (f.preprocessImage X).2
  | FilterOp.apply fft =>
    match f.apply fft with
    | Except.ok g => g
    | Except.error _ => f

/-- The filter after a sequence of operations. -/
def Filter.performAll (f : Filter) (ops : List FilterOp) : Filter := ops.foldl Filter.perform f

/-! ## Vocabulary of the statements about smoothing -/

/-- A history slot that holds a peak: its `x` is not the sentinel -1. -/
def CvPoint.isSet (p : CvPoint) : Bool := decide (p.x ≠ -1)

/-- Component-wise truncating integer average of a list of points, all with
the same weight. -/
def averagePoint (ps : List CvPoint) : CvPoint :=
  { x := Int.tdiv (ps.map (fun p => p.x)).sum ps.length
    y := Int.tdiv (ps.map (fun p => p.y)).sum ps.length }

/-- The last `n` elements of a list (the whole list when it is shorter). -/
def lastN {α : Type} (n : Nat) (xs : List α) : List α := xs.drop (xs.length - n)

/-! ## Vocabulary of the statements about the confidence -/

/-- The response values on the left column and on the top row of the square
window of half width `h` around `peak`, whose top-left corner is
(peak.x - h, peak.y - h): the column is read at the rows of the window that are
below `imgHeight`, the row at the columns of the window that are below
`imgWidth`. -/
def psrBoundaryValues (img : Image) (imgHeight imgWidth : Int) (peak : CvPoint) (h : Int) :
    List Dbl :=
  (((List.range (h * 2).toNat).filter
          (fun (k : Nat) => decide (peak.y - h + (k : Int) < imgHeight))).map
      (fun (k : Nat) => img.pix (peak.y - h + (k : Int)) (peak.x - h)))
    ++ (((List.range (h * 2).toNat).filter
          (fun (k : Nat) => decide (peak.x - h + (k : Int) < imgWidth))).map
      (fun (k : Nat) => img.pix (peak.y - h) (peak.x - h + (k : Int))))

/-- The confidence as the specification words it, for a half width `h`: 0 when
the mean of the response inside the window is negative, and otherwise
(max - mean) / (max - boundary), with boundary the average of the boundary
values. -/
def psrSpec (img : Image) (imgHeight imgWidth : Int) (max : Dbl) (peak : CvPoint) (h : Int) :
    Dbl :=
  let mean := cvAvgROI img (peak.x - h) (peak.y - h) (h * 2) (h * 2)
  let vals := psrBoundaryValues img imgHeight imgWidth peak h
  let boundary := dsum vals / Dbl.ofInt vals.length
  if mean.lt 0 then 0 else (max - mean) / (max - boundary)

/-- The ring invariant: the history, read from the ring index on, is the last
`N` entries of `N` sentinels followed by the peaks seen so far. -/
def RingInv (N : Nat) (l : Location) (ps : List CvPoint) : Prop :=
  l.pastLocations.length = N ∧ l.pastLocationIndex < N
    ∧ l.pastLocations.rotate l.pastLocationIndex
        = lastN N (List.replicate N (⟨-1, -1⟩ : CvPoint) ++ ps)

/-! ## Vocabulary of the statements about the augmented training set -/

/-- The location a rotation matrix sends `location` to, converted to `int`
coordinates. -/
def rotateLocation (m : RotMat) (location : CvPoint) : CvPoint :=
  { x := truncToInt (m.m00 * location.x + m.m01 * location.y + m.m02)
    y := truncToInt (m.m10 * location.x + m.m11 * location.y + m.m12) }

/-- The location (xdist, ydist) away from `p`. -/
def translateLocation (p : CvPoint) (xdist ydist : ℚ) : CvPoint :=
  { x := truncToInt ((p.x : ℚ) + xdist), y := truncToInt ((p.y : ℚ) + ydist) }

/-- The kept translations of a kept rotated variant: one for every (xdist,
ydist) of `dists` other than (0, 0) whose translated location passes the
bounds test, `xdist` varying slowest. -/
def keptTranslations (f : Filter) (dists : List ℚ) (transformedImage : Img)
    (rotatedLocation : CvPoint) : List ImgLocPairT :=
  dists.flatMap (fun xdist => dists.flatMap (fun ydist =>
    if xdist = 0 ∧ ydist = 0 then []
    else if f.keeps (translateLocation rotatedLocation xdist ydist) then
      [(Img.translated transformedImage xdist ydist,
        translateLocation rotatedLocation xdist ydist)]
    else []))

/-- The pairs one angle contributes: nothing for angle 0 and for a rotated
location that fails the bounds test, otherwise the rotated variant followed by
its kept translations. -/
def keptVariantsAt (f : Filter) (rot : ℚ → RotMat) (dists : List ℚ) (image : Img)
    (location : CvPoint) (angle : ℚ) : List ImgLocPairT :=
  if angle = 0 then []
  else if f.keeps (rotateLocation (rot angle) location) then
    (Img.rotated image angle, rotateLocation (rot angle) location)
      :: keptTranslations f dists (Img.rotated image angle)
          (rotateLocation (rot angle) location)
  else []

/-- The angles the rotation loop visits. -/
def loopAngles : List ℚ :=
  [-2, -7/4, -3/2, -5/4, -1, -3/4, -1/2, -1/4, 0, 1/4, 1/2, 3/4, 1, 5/4, 3/2, 7/4]

/-- The distances each translation loop visits. -/
def loopDists : List ℚ := [-20, -10, 0, 10, 20]

/-- The angle of a pair whose image is a rotated clone; `none` for every other
pair. -/
def rotationAngle (p : ImgLocPairT) : Option ℚ :=
  match p.1 with
  | Img.rotated _ angle => some angle
  | _ => none

/-! ## Vocabulary of the statements about loading -/

/-- The pair of numbers of a value line: its first two tokens, each read by
`strtod`. -/
def valuePair (strtod : String → Dbl) (line : String) : Cplx :=
  match tokens line with
  | t0 :: t1 :: _ => ⟨strtod t0, strtod t1⟩
  | _ => default

/-- A value line of a persisted filter: two tokens, and neither marker occurs
in it. -/
def isValueLine (line : String) : Bool :=
  decide ((tokens line).length = 2) && !containsSub "Numerator" line
    && !containsSub "Denominator" line

/-- Memory after the pairs of the value lines `ls` have been stored in the
elements of buffer `p` from index `i` on. -/
def writeValues (strtod : String → Dbl) (p : Ptr) : Nat → List String → Mem → Mem
  | _, [], m => m
  | i, l :: ls, m =>
    writeValues strtod p (i + 1) ls
      ((m.set0 p i (valuePair strtod l).re).set1 p i (valuePair strtod l).im)

/-- The state of the loop of Filter::loadFilter once the size (h, w) has been
read: `isNum` and `index` are the two locals, `m` the memory. -/
def sizedState (f0 : Filter) (h w : Nat) (isNum : Bool) (index : Nat) (m : Mem) : LoadState :=
  { filter := { f0 with height := h, width := w, mem := m }
    length := (h : Int) * (w : Int)
    height := (h : Int)
    width := (w : Int)
    isNumeratorTerm := isNum
    index := index
    sized := true }

/-- The filter Filter::loadFilter has built when it calls `create()`, for a
file with first line `name`, size (h, w), value lines `numLines` after the
numerator marker and `denLines` after the denominator marker. -/
def loadedFilter (f : Filter) (strtod : String → Dbl) (name : String) (h w : Nat)
    (numLines denLines : List String) : Filter :=
  { f with
    xmlTag := tagOfLine name
    height := h
    width := w
    mem := writeValues strtod Ptr.mosseDen 0 denLines
      (writeValues strtod Ptr.mosseNum 0 numLines
        (forRange (h * (w / 2 + 1)) initStep f.mem)) }

/-- The value lines among `ls` whose imaginary part, read by `strtod`, is not
0. -/
def nonRealLines (strtod : String → Dbl) (ls : List String) : Nat :=
  ls.countP (fun l => decide ((valuePair strtod l).im ≠ Dbl.fin 0))

/-- The value lines Filter::save writes for the array `p`, one for each element
in the order of its two loops. -/
def savedLines (f : Filter) (fmt : Dbl → String) (p : Ptr) : List String :=
  (List.range f.height).flatMap (fun i =>
    (List.range (f.width / 2 + 1)).map (fun j =>
      fmt (f.mem.read p (i * (f.width / 2 + 1) + j)).re ++ " "
        ++ fmt (f.mem.read p (i * (f.width / 2 + 1) + j)).im))

/-- The text `pat` occurs in `line`. -/
def occursIn (pat line : String) : Prop :=
  ∃ s t : List Char, s ++ pat.toList ++ t = line.toList

/-! ## Vocabulary of the statements about accumulation -/

/-- The numerator term of one sample at index `k`: the target times the
conjugate of the spectrum. -/
def numTerm (X : Img → Nat → Cplx) (T : CvPoint → Nat → Cplx) (k : Nat) (p : ImgLocPairT) :
    Cplx :=
  Cplx.mul (T p.2 k) (Cplx.conj (X p.1 k))

/-- The denominator term of one sample at index `k`: the spectrum times its
conjugate. -/
def denTerm (X : Img → Nat → Cplx) (k : Nat) (p : ImgLocPairT) : Cplx :=
  Cplx.mul (X p.1 k) (Cplx.conj (X p.1 k))

/-- The sum of `start` and of the terms, added one after the other. -/
def sumFrom (start : Cplx) (terms : List Cplx) : Cplx := terms.foldl Cplx.add start

/-- The squared modulus of a finite complex value (0 when a component is not
finite). -/
def Cplx.sqNorm (u : Cplx) : ℚ :=
  match u.re, u.im with
  | Dbl.fin a, Dbl.fin b => a * a + b * b
  | _, _ => 0

/-! ## Vocabulary of the statements about the Gaussian and the normalisation -/

/-- The least element of a list of rationals that starts with `v`, found as
`cvMin` finds it. -/
def qMin (v : ℚ) (vs : List ℚ) : ℚ := vs.foldl (fun m x => if x < m then x else m) v

/-- The greatest element of a list of rationals that starts with `v`, found as
`cvMax` finds it. -/
def qMax (v : ℚ) (vs : List ℚ) : ℚ := vs.foldl (fun m x => if m < x then x else m) v

/-! ## Concrete inputs -/

/-- A small memory: numerator entries 1 + 2i, denominator entries 3 + 4i, every
other buffer filled with 5 + 6i. -/
def sampleMem : Mem :=
  { read := fun p _ =>
      match p with
      | Ptr.mosseNum => ⟨Dbl.fin 1, Dbl.fin 2⟩
      | Ptr.mosseDen => ⟨Dbl.fin 3, Dbl.fin 4⟩
      | _ => ⟨Dbl.fin 5, Dbl.fin 6⟩ }

/-- A filter for images of height 1 and width 2 (two spectral entries) over
`sampleMem`, with the given learning rate. -/
def sampleFilter (rate : Dbl) : Filter :=
  { height := 1, width := 2, mem := sampleMem, hasFilter := false, storageIndex := 0,
    learningRate := rate }

/-- A frame spectrum: every entry 1 + 2i. -/
def sampleX : Nat → Cplx := fun _ => ⟨Dbl.fin 1, Dbl.fin 2⟩

/-- A target spectrum: every entry 3 + 4i. -/
def sampleT : Nat → Cplx := fun _ => ⟨Dbl.fin 3, Dbl.fin 4⟩

/-- A 3 by 3 response: 1 at row 1, column 1, and 0 elsewhere. -/
def sampleImage : Image :=
  { height := 3, width := 3, pix := fun r c => if r = 1 ∧ c = 1 then 1 else 0 }

/-- Three frames with raw peaks (10,10), (20,20), (30,30). -/
def sampleCalls : List (Image × Dbl × CvPoint) :=
  [(sampleImage, 1, ⟨10, 10⟩), (sampleImage, 1, ⟨20, 20⟩), (sampleImage, 1, ⟨30, 30⟩)]

/-- A training filter for 64 by 64 images with augmentation switched on. -/
def augFilter : Filter := (Filter.init 64 64 sampleMem 0).setAffineTransforms

/-- A rotation matrix that leaves every location where it is (the identity),
for every angle. -/
def idRot : ℚ → RotMat := fun _ => { m00 := 1, m01 := 0, m02 := 0, m10 := 0, m11 := 1, m12 := 0 }

/-- A loaded 64 by 64 frame. -/
def baseImage : Img := Img.loaded 0 64 64

/-- A training filter for 64 by 64 images, augmentation left disabled. -/
def plainFilter : Filter := Filter.init 64 64 sampleMem 0

/-- A loaded 32 by 32 frame. -/
def smallImage : Img := Img.loaded 1 32 32

/-- Every frame counts as grayscale. -/
def allGray : Img → Bool := fun _ => true

/-- The object the loading constructor hands to `loadFilter`: `filter = 0`,
augmentation disabled; size and arrays not assigned yet (the values here are
overwritten). -/
def Filter.blank (m : Mem) : Filter :=
  { height := 0, width := 0, mem := m, hasFilter := false, storageIndex := 0,
    learningRate := 0 }

/-- Decimal digits to a number, as `atoi` reads them. -/
def digitsValue (s : String) : Int :=
  s.toList.foldl (fun acc c => acc * 10 + ((c.toNat : Int) - 48)) 0

/-- Digits to a double, as `strtod` reads them. -/
def digitsDbl (s : String) : Dbl := Dbl.fin (digitsValue s)

/-- A persisted filter for height 1 and width 2. -/
def sampleFile : List String :=
  ["MOSSE_LeftEye", "1 2", "Numerator", "1 2", "3 4", "Denominator", "5 0", "6 0"]

/-- A persisted filter for height 1 and width 2 cut after the first numerator
line. -/
def truncatedFile : List String := ["MOSSE_LeftEye", "1 2", "Numerator", "1 2"]

/-- A persisted filter for height 1 and width 2 whose denominator section has
one line instead of two. -/
def shortFile : List String :=
  ["MOSSE_LeftEye", "1 2", "Numerator", "1 2", "3 4", "Denominator", "5 0"]

/-- A persisted filter whose first line holds none of the three names. -/
def unnamedFile : List String :=
  ["MOSSE_Mouth", "1 2", "Numerator", "1 2", "3 4", "Denominator", "5 0", "6 0"]

/-- The names the repository gives to the four filters. -/
def sampleNames : Tag → Option String
  | Tag.Face => some "MOSSE_Face"
  | Tag.LeftEye => some "MOSSE_LeftEye"
  | Tag.RightEye => some "MOSSE_RightEye"
  | Tag.Nose => some "MOSSE_Nose"
  | _ => none

/-- A filter of height 1 and width 2 over `sampleMem` whose derived filter has
been created: every entry of `filter` is 5 + 6i. -/
def readyFilter : Filter := { sampleFilter 0 with hasFilter := true }

/-- A response image that keeps the real part of the spectrum entry at the
column as its pixel. -/
def sampleIfft : (Nat → Cplx) → Image :=
  fun s => { height := 1, width := 2, pix := fun _ c => (s c.toNat).re }

/-- A loaded 1 by 2 frame. -/
def tinyImage : Img := Img.loaded 2 1 2

/-- A response image is present; the history and the stored size are those of
a 3 by 3 frame. -/
def sampleLocation : Location := (Location.init 3 3 3).setResponse sampleImage

/-- A spectrum for each frame: every entry is id + i for a loaded frame with
that id. -/
def sampleSpectra : Img → Nat → Cplx :=
  fun image _ =>
    match image with
    | Img.loaded id _ _ => ⟨Dbl.fin id, Dbl.fin 1⟩
    | _ => ⟨Dbl.fin 0, Dbl.fin 0⟩

/-- A target spectrum for each location: every entry is x + 2i. -/
def sampleTargets : CvPoint → Nat → Cplx := fun location _ => ⟨Dbl.ofInt location.x, Dbl.fin 2⟩

/-- An online filter of height 1 and width 2 with learning rate 1/2 whose
denominator entries are 3 + 0i; every other buffer is filled with 5 + 6i. -/
def realDenFilter : Filter :=
  { height := 1, width := 2,
    mem := { read := fun p _ =>
      match p with
      | Ptr.mosseDen => ⟨Dbl.fin 3, Dbl.fin 0⟩
      | _ => ⟨Dbl.fin 5, Dbl.fin 6⟩ },
    hasFilter := true, storageIndex := 0, learningRate := Dbl.fin (1 / 2) }

/-- An online filter of height 1 and width 2 with learning rate 1 whose prior
numerator and denominator entries are not finite; every other buffer is filled
with 5 + 6i. -/
def nanPriorFilter : Filter :=
  { height := 1, width := 2,
    mem := { read := fun p _ =>
      match p with
      | Ptr.mosseNum => ⟨Dbl.nan, Dbl.nan⟩
      | Ptr.mosseDen => ⟨Dbl.nan, Dbl.nan⟩
      | _ => ⟨Dbl.fin 5, Dbl.fin 6⟩ },
    hasFilter := true, storageIndex := 0, learningRate := 1 }

/-- A spectrum without a finite entry. -/
def nanSpectrum : Nat → Cplx := fun _ => ⟨Dbl.nan, Dbl.nan⟩

/-- The text written for a double: 0 for the value 0, 3 for every other
one. -/
def sampleFmt : Dbl → String := fun d => if d = Dbl.fin 0 then "0" else "3"

/-- The filter `realDenFilter` with the tag of the left eye. -/
def realDenSaved : Filter := { realDenFilter with xmlTag := Tag.LeftEye }

/-- A rounded exponential for the arguments between -746 and 710: 1/2 below 0
and 2 above. -/
def sampleApprox : ℚ → ℚ := fun q => if q < 0 then 1 / 2 else 2

/-- A forward transform that keeps the first two values of the buffer. -/
def sampleFft : List Dbl → Nat → Cplx := fun b _ => ⟨b.getD 0 0, b.getD 1 0⟩

/-! # Theorems -/

/-! ## Loops -/

theorem forRange_zero {σ : Type} (body : Nat → σ → σ) (s : σ) :
    forRange 0 body s = s := by
  simp [forRange]

theorem forRange_succ {σ : Type} (n : Nat) (body : Nat → σ → σ) (s : σ) :
    forRange (n + 1) body s = body n (forRange n body s) := by
  simp [forRange, List.range_succ, List.foldl_append]

theorem forRange_add {σ : Type} (a b : Nat) (body : Nat → σ → σ) (s : σ) :
    forRange (a + b) body s = forRange b (fun j => body (a + j)) (forRange a body s) := by
  induction b with
  | zero => simp [forRange_zero]
  | succ b ih => rw [← Nat.add_assoc, forRange_succ, forRange_succ, ih]

/-- Two nested loops over rows and columns visit the flat indices in order. -/
theorem forRange_nested {σ : Type} (h m : Nat) (step : Nat → σ → σ) (s : σ) :
    forRange h (fun i => forRange m (fun j => step (i * m + j))) s
      = forRange (h * m) step s := by
  induction h with
  | zero => simp [forRange_zero]
  | succ h ih => rw [forRange_succ, ih, Nat.succ_mul, forRange_add]

/-- A loop whose body at `k` writes only element `k` of the buffers, from
element `k` of the buffers: element `j` ends as the body at `j` leaves it when
applied to the initial memory. -/
theorem forRange_pointwise (body : Nat → Mem → Mem)
    (hframe : ∀ k m p j, j ≠ k → (body k m).read p j = m.read p j)
    (hlocal : ∀ k m m1, (∀ p, m.read p k = m1.read p k) →
      ∀ p, (body k m).read p k = (body k m1).read p k)
    (n : Nat) (m : Mem) :
    ∀ (p : Ptr) (j : Nat),
      (forRange n body m).read p j = if j < n then (body j m).read p j else m.read p j := by
  induction n with
  | zero => simp [forRange_zero]
  | succ n ih =>
    intro p j
    rw [forRange_succ]
    by_cases hj : j = n
    · subst hj
      have h1 : ∀ q, (forRange j body m).read q j = m.read q j := by
        intro q
        simpa using ih q j
      simp [hlocal j _ m h1 p]
    · rw [hframe n _ p j hj, ih]
      by_cases hlt : j < n
      · simp [hlt, Nat.lt_succ_of_lt hlt]
      · have : ¬ j < n + 1 := by omega
        simp [hlt, this]

/-! ## Arithmetic on finite values -/

@[simp] theorem Dbl.fin_add (a b : ℚ) : Dbl.fin a + Dbl.fin b = Dbl.fin (a + b) := rfl

@[simp] theorem Dbl.fin_sub (a b : ℚ) : Dbl.fin a - Dbl.fin b = Dbl.fin (a - b) := rfl

@[simp] theorem Dbl.fin_mul (a b : ℚ) : Dbl.fin a * Dbl.fin b = Dbl.fin (a * b) := rfl

@[simp] theorem Dbl.fin_neg (a : ℚ) : -Dbl.fin a = Dbl.fin (-a) := rfl

@[simp] theorem Dbl.zero_def : (0 : Dbl) = Dbl.fin 0 := rfl

@[simp] theorem Dbl.one_def : (1 : Dbl) = Dbl.fin 1 := rfl

theorem Dbl.fin_div (a b : ℚ) :
    Dbl.fin a / Dbl.fin b = if b = 0 then Dbl.nan else Dbl.fin (a / b) := rfl

theorem Dbl.fin_div_of_ne (a : ℚ) {b : ℚ} (h : b ≠ 0) :
    Dbl.fin a / Dbl.fin b = Dbl.fin (a / b) := by
  simp [Dbl.fin_div, h]

/-! ## Filter::create -/

theorem createStep_frame (k : Nat) (m : Mem) (p : Ptr) (j : Nat) (h : j ≠ k) :
    (createStep k m).read p j = m.read p j := by
  simp [createStep, Mem.set0, Mem.set1, h]

theorem createStep_local (k : Nat) (m m1 : Mem) (h : ∀ p, m.read p k = m1.read p k) (p : Ptr) :
    (createStep k m).read p k = (createStep k m1).read p k := by
  simp [createStep, Mem.set0, Mem.set1, h]

/-- Memory after Filter::create, element by element. -/
theorem Filter.create_mem (f : Filter) (p : Ptr) (j : Nat) :
    f.create.mem.read p j = if j < f.nElements then (createStep j f.mem).read p j else f.mem.read p j := by
  simp only [Filter.create, Filter.nElements]
  rw [forRange_nested]
  exact forRange_pointwise createStep createStep_frame createStep_local _ _ p j

/-- The derived filter entry at an index with finite numerator a + bi and
denominator c + di, c*c + d*d nonzero. -/
theorem Filter.create_finite_entry (f : Filter) (k : Nat) (a b c d : ℚ)
    (hk : k < f.nElements)
    (hnum : f.mem.read Ptr.mosseNum k = ⟨Dbl.fin a, Dbl.fin b⟩)
    (hden : f.mem.read Ptr.mosseDen k = ⟨Dbl.fin c, Dbl.fin d⟩)
    (hnz : c * c + d * d ≠ 0) :
    f.create.mem.read Ptr.filter k
      = ⟨Dbl.fin ((a * c + b * d) / (c * c + d * d)),
          Dbl.fin ((b * c - a * d) / (c * c + d * d))⟩ := by
  rw [Filter.create_mem, if_pos hk]
  simp [createStep, Mem.set0, Mem.set1, hnum, hden, Dbl.fin_div_of_ne _ hnz]

/-- C1. Filter::create: at every spectral index whose numerator is a + bi and
whose denominator is c + di with c*c + d*d nonzero, the derived filter entry is
((a*c + b*d)/(c*c + d*d), (b*c - a*d)/(c*c + d*d)); its product with the
denominator is the numerator, and it is the quotient of the two as complex
numbers. -/
theorem Filter.create_entry (f : Filter) (k : Nat) (a b c d : ℚ)
    (hk : k < f.nElements)
    (hnum : f.mem.read Ptr.mosseNum k = ⟨Dbl.fin a, Dbl.fin b⟩)
    (hden : f.mem.read Ptr.mosseDen k = ⟨Dbl.fin c, Dbl.fin d⟩)
    (hnz : c * c + d * d ≠ 0) :
    f.create.mem.read Ptr.filter k
        = ⟨Dbl.fin ((a * c + b * d) / (c * c + d * d)),
            Dbl.fin ((b * c - a * d) / (c * c + d * d))⟩
      ∧ Cplx.mul (f.create.mem.read Ptr.filter k) (f.create.mem.read Ptr.mosseDen k)
          = f.create.mem.read Ptr.mosseNum k
      ∧ (Complex.mk (((a * c + b * d) / (c * c + d * d) : ℚ) : ℝ)
            (((b * c - a * d) / (c * c + d * d) : ℚ) : ℝ)
          = Complex.mk (a : ℝ) (b : ℝ) / Complex.mk (c : ℝ) (d : ℝ)) := by
  have hfilt := Filter.create_finite_entry f k a b c d hk hnum hden hnz
  have hn : f.create.mem.read Ptr.mosseNum k = ⟨Dbl.fin a, Dbl.fin b⟩ := by
    rw [Filter.create_mem, if_pos hk]
    simp [createStep, Mem.set0, Mem.set1, hnum]
  have hd : f.create.mem.read Ptr.mosseDen k = ⟨Dbl.fin c, Dbl.fin d⟩ := by
    rw [Filter.create_mem, if_pos hk]
    simp [createStep, Mem.set0, Mem.set1, hden]
  refine ⟨hfilt, ?_, ?_⟩
  · rw [hfilt, hn, hd]
    simp only [Cplx.mul, Dbl.fin_mul, Dbl.fin_sub, Dbl.fin_add]
    congr 2
    · field_simp
      ring
    · field_simp
      ring
  · have hr : ((c : ℝ) * c + d * d) ≠ 0 := by exact_mod_cast hnz
    apply Complex.ext
    · simp only [Complex.div_re, Complex.normSq_mk]
      push_cast
      field_simp
    · simp only [Complex.div_im, Complex.normSq_mk]
      push_cast
      field_simp

theorem Filter.create_entry_witness :
    (sampleFilter 0).create.mem.read Ptr.filter 0 = ⟨Dbl.fin (11 / 25), Dbl.fin (2 / 25)⟩ := by
  have h := (Filter.create_entry (sampleFilter 0) 0 1 2 3 4 (by decide) rfl rfl
    (by norm_num)).1
  norm_num at h
  exact h

/-! ## The scratch pool -/

theorem Filter.afterCalls_storageIndex (f : Filter) (hs : f.storageIndex < nComplexVectors)
    (n : Nat) : (f.afterCalls n).storageIndex = (f.storageIndex + n) % nComplexVectors := by
  induction n with
  | zero => simp [Filter.afterCalls, Nat.mod_eq_of_lt hs]
  | succ n ih =>
    simp only [Filter.afterCalls, Filter.getBuffer, ih, nComplexVectors]
    omega

/-- C10. Round robin of the scratch pool: on a filter whose pool index is
within the pool, calls number k and k + j of getBuffer (k at least 1) return
the same pool buffer exactly when j is a multiple of 8; the returned buffer is
one of the 8 pool buffers, and the pool index is below 8 after every call. -/
theorem Filter.getBuffer_round_robin (f : Filter)
    (hs : f.storageIndex < nComplexVectors) (k j : Nat) (hk : 1 ≤ k) :
    (f.nthBuffer k = f.nthBuffer (k + j) ↔ 8 ∣ j)
      ∧ (∃ i, i < 8 ∧ f.nthBuffer k = Ptr.pool i)
      ∧ (f.afterCalls k).storageIndex < 8 := by
  have h1 := Filter.afterCalls_storageIndex f hs (k - 1)
  have h2 := Filter.afterCalls_storageIndex f hs (k + j - 1)
  have h3 := Filter.afterCalls_storageIndex f hs k
  simp only [nComplexVectors] at hs h1 h2 h3
  refine ⟨?_, ⟨(f.afterCalls (k - 1)).storageIndex, ?_, rfl⟩, ?_⟩
  · simp only [Filter.nthBuffer, Filter.getBuffer, Ptr.pool.injEq, h1, h2]
    omega
  · omega
  · omega

theorem Filter.getBuffer_round_robin_witness :
    ((sampleFilter 0).nthBuffer 1 = (sampleFilter 0).nthBuffer (1 + 8) ↔ 8 ∣ 8)
      ∧ (∃ i, i < 8 ∧ (sampleFilter 0).nthBuffer 1 = Ptr.pool i)
      ∧ ((sampleFilter 0).afterCalls 1).storageIndex < 8 :=
  Filter.getBuffer_round_robin (sampleFilter 0) (by decide) 1 8 (by decide)

/-! ## The loops of update and onlineUpdate, element by element -/

theorem conjStep_frame (a c : Ptr) (k : Nat) (m : Mem) (p : Ptr) (j : Nat) (h : j ≠ k) :
    (conjStep a c k m).read p j = m.read p j := by
  simp [conjStep, Mem.set0, Mem.set1, h]

theorem conjStep_local (a c : Ptr) (k : Nat) (m m1 : Mem) (h : ∀ p, m.read p k = m1.read p k)
    (p : Ptr) : (conjStep a c k m).read p k = (conjStep a c k m1).read p k := by
  simp [conjStep, Mem.set0, Mem.set1, h]

theorem convolveStep_frame (a b r : Ptr) (k : Nat) (m : Mem) (p : Ptr) (j : Nat)
    (h : j ≠ k) : (convolveStep a b r k m).read p j = m.read p j := by
  simp [convolveStep, Mem.set0, Mem.set1, h]

theorem convolveStep_local (a b r : Ptr) (k : Nat) (m m1 : Mem) (h : ∀ p, m.read p k = m1.read p k)
    (p : Ptr) : (convolveStep a b r k m).read p k = (convolveStep a b r k m1).read p k := by
  simp [convolveStep, Mem.set0, Mem.set1, h]

theorem accumulateStep_frame (a b : Ptr) (k : Nat) (m : Mem) (p : Ptr) (j : Nat)
    (h : j ≠ k) : (accumulateStep a b k m).read p j = m.read p j := by
  simp [accumulateStep, Mem.set0, Mem.set1, h]

theorem accumulateStep_local (a b : Ptr) (k : Nat) (m m1 : Mem) (h : ∀ p, m.read p k = m1.read p k)
    (p : Ptr) : (accumulateStep a b k m).read p k = (accumulateStep a b k m1).read p k := by
  simp [accumulateStep, Mem.set0, Mem.set1, h]

theorem blendStep_frame (r : Dbl) (a b : Ptr) (k : Nat) (m : Mem) (p : Ptr) (j : Nat)
    (h : j ≠ k) : (blendStep r a b k m).read p j = m.read p j := by
  simp [blendStep, Mem.set0, Mem.set1, h]

theorem blendStep_local (r : Dbl) (a b : Ptr) (k : Nat) (m m1 : Mem)
    (h : ∀ p, m.read p k = m1.read p k) (p : Ptr) :
    (blendStep r a b k m).read p k = (blendStep r a b k m1).read p k := by
  simp [blendStep, Mem.set0, Mem.set1, h]

/-- Memory after the conjugation loop. -/
theorem conjLoop_mem (a c : Ptr) (n : Nat) (m : Mem) (p : Ptr) (j : Nat) :
    (forRange n (conjStep a c) m).read p j = if j < n then (conjStep a c j m).read p j else m.read p j :=
  forRange_pointwise (conjStep a c) (conjStep_frame a c) (conjStep_local a c) n m p j

/-- Memory after the loops of Filter::convolve. -/
theorem convolveLoops_mem (h w : Nat) (a b r : Ptr) (m : Mem) (p : Ptr) (j : Nat) :
    (convolveLoops h w a b r m).read p j
      = if j < h * (w / 2 + 1) then (convolveStep a b r j m).read p j else m.read p j := by
  simp only [convolveLoops]
  rw [forRange_nested]
  exact forRange_pointwise _ (convolveStep_frame a b r) (convolveStep_local a b r) _ m p j

/-- Memory after the accumulation loops of Filter::update. -/
theorem accumulateLoops_mem (h w : Nat) (a b : Ptr) (m : Mem) (p : Ptr) (j : Nat) :
    (forRange h (fun i => forRange (w / 2 + 1)
        (fun j => accumulateStep a b (i * (w / 2 + 1) + j))) m).read p j
      = if j < h * (w / 2 + 1) then (accumulateStep a b j m).read p j else m.read p j := by
  rw [forRange_nested]
  exact forRange_pointwise _ (accumulateStep_frame a b) (accumulateStep_local a b) _ m p j

/-- Memory after the blending loops of OnlineFilter::onlineUpdate. -/
theorem blendLoops_mem (r : Dbl) (h w : Nat) (a b : Ptr) (m : Mem) (p : Ptr) (j : Nat) :
    (forRange h (fun i => forRange (w / 2 + 1)
        (fun j => blendStep r a b (i * (w / 2 + 1) + j))) m).read p j
      = if j < h * (w / 2 + 1) then (blendStep r a b j m).read p j else m.read p j := by
  rw [forRange_nested]
  exact forRange_pointwise _ (blendStep_frame r a b) (blendStep_local r a b) _ m p j

/-! ## Filter::update -/

theorem updateMem_entry (h w : Nat) (X T : Nat → Cplx) (i0 i1 i2 i3 : Nat) (m : Mem)
    (h01 : i0 ≠ i1) (h02 : i0 ≠ i2) (h03 : i0 ≠ i3) (h12 : i1 ≠ i2) (h13 : i1 ≠ i3)
    (h23 : i2 ≠ i3) (k : Nat) (hk : k < h * (w / 2 + 1)) :
    (updateMem h w X T (Ptr.pool i0) (Ptr.pool i1) (Ptr.pool i2) (Ptr.pool i3) m).read
        Ptr.mosseNum k
        = Cplx.add (m.read Ptr.mosseNum k) (Cplx.mul (T k) (Cplx.conj (X k)))
      ∧ (updateMem h w X T (Ptr.pool i0) (Ptr.pool i1) (Ptr.pool i2) (Ptr.pool i3) m).read
          Ptr.mosseDen k
        = Cplx.add (m.read Ptr.mosseDen k) (Cplx.mul (X k) (Cplx.conj (X k))) := by
  simp [updateMem, accumulateLoops_mem, convolveLoops_mem, conjLoop_mem, hk,
    accumulateStep, convolveStep, conjStep, Mem.set0, Mem.set1, Mem.memcpy, Mem.load,
    h01, h02, h03, h12, h13, h23, h01.symm, h02.symm, h03.symm, h12.symm, h13.symm, h23.symm,
    Cplx.add, Cplx.mul, Cplx.conj]

/-- Filter::update on a frame of the filter's size succeeds; it advances the
pool index four times and leaves the memory `updateMem` describes. -/
theorem Filter.update_eq (f : Filter) (X T : Nat → Cplx) :
    f.update (f.height, f.width) X T = Except.ok
      { f with
        storageIndex := ((((f.storageIndex + 1) % 8 + 1) % 8 + 1) % 8 + 1) % 8
        mem := updateMem f.height f.width X T (Ptr.pool f.storageIndex)
          (Ptr.pool ((f.storageIndex + 1) % 8)) (Ptr.pool (((f.storageIndex + 1) % 8 + 1) % 8))
          (Ptr.pool ((((f.storageIndex + 1) % 8 + 1) % 8 + 1) % 8)) f.mem } := by
  unfold Filter.update
  rw [if_neg (by simp)]
  rfl

/-- The numerator and denominator after one call of Filter::update. -/
theorem Filter.update_sample_terms (f : Filter) (X T : Nat → Cplx) :
    ∃ g, f.update (f.height, f.width) X T = Except.ok g ∧
      ∀ k, k < f.nElements →
        g.mem.read Ptr.mosseNum k
            = Cplx.add (f.mem.read Ptr.mosseNum k) (Cplx.mul (T k) (Cplx.conj (X k)))
          ∧ g.mem.read Ptr.mosseDen k
            = Cplx.add (f.mem.read Ptr.mosseDen k) (Cplx.mul (X k) (Cplx.conj (X k))) := by
  refine ⟨_, Filter.update_eq f X T, ?_⟩
  intro k hk
  exact updateMem_entry f.height f.width X T _ _ _ _ f.mem
    (by omega) (by omega) (by omega) (by omega) (by omega) (by omega) k hk

/-- C2. Filter::update on one sample of the filter's size, without augmentation
or ROI function: the call succeeds and every spectral index k ends with
numerator[k] = old numerator[k] + T[k] * conj(X[k]) and
denominator[k] = old denominator[k] + X[k] * conj(X[k]). -/
theorem Filter.update_accumulates (f : Filter) (X T : Nat → Cplx) :
    ∃ g, f.update (f.height, f.width) X T = Except.ok g ∧
      ∀ k, k < f.nElements →
        g.mem.read Ptr.mosseNum k
            = Cplx.add (f.mem.read Ptr.mosseNum k) (Cplx.mul (T k) (Cplx.conj (X k)))
          ∧ g.mem.read Ptr.mosseDen k
            = Cplx.add (f.mem.read Ptr.mosseDen k) (Cplx.mul (X k) (Cplx.conj (X k))) := by
  refine ⟨_, Filter.update_eq f X T, ?_⟩
  intro k hk
  exact updateMem_entry f.height f.width X T _ _ _ _ f.mem
    (by omega) (by omega) (by omega) (by omega) (by omega) (by omega) k hk

theorem Filter.update_accumulates_witness :
    ∃ g, (sampleFilter 0).update (1, 2) sampleX sampleT = Except.ok g
      ∧ g.mem.read Ptr.mosseNum 1 = ⟨Dbl.fin 12, Dbl.fin 0⟩
      ∧ g.mem.read Ptr.mosseDen 1 = ⟨Dbl.fin 8, Dbl.fin 4⟩ := by
  obtain ⟨g, hg, h⟩ := Filter.update_accumulates (sampleFilter 0) sampleX sampleT
  refine ⟨g, hg, ?_⟩
  rw [(h 1 (by decide)).1, (h 1 (by decide)).2]
  simp only [sampleFilter, sampleMem, sampleX, sampleT, Cplx.add, Cplx.mul, Cplx.conj,
    Dbl.fin_mul, Dbl.fin_neg, Dbl.fin_sub, Dbl.fin_add]
  norm_num

/-! ## OnlineFilter::onlineUpdate -/

/-- OnlineFilter::onlineUpdate advances the pool index three times and leaves
the memory `onlineUpdateMem` describes. -/
theorem Filter.onlineUpdate_eq (f : Filter) (p : Ptr) (T : Nat → Cplx) :
    f.onlineUpdate p T =
      { f with
        storageIndex := (((f.storageIndex + 1) % 8 + 1) % 8 + 1) % 8
        mem := onlineUpdateMem f.height f.width f.learningRate T p
          (Ptr.pool f.storageIndex) (Ptr.pool ((f.storageIndex + 1) % 8))
          (Ptr.pool (((f.storageIndex + 1) % 8 + 1) % 8)) f.mem } := by
  rfl

theorem onlineUpdateMem_entry (h w : Nat) (rate : Dbl) (T : Nat → Cplx) (p : Ptr)
    (i1 i2 i3 : Nat) (m : Mem) (hf : p ≠ Ptr.fftBuffer)
    (h1 : p ≠ Ptr.pool i1) (h2 : p ≠ Ptr.pool i2) (h3 : p ≠ Ptr.pool i3)
    (h12 : i1 ≠ i2) (h13 : i1 ≠ i3) (h23 : i2 ≠ i3) (k : Nat) (hk : k < h * (w / 2 + 1)) :
    (onlineUpdateMem h w rate T p (Ptr.pool i1) (Ptr.pool i2) (Ptr.pool i3) m).read
        Ptr.mosseNum k
        = { re := rate * (Cplx.mul (T k) (Cplx.conj (m.read p k))).re
                    + (1 - rate) * (m.read Ptr.mosseNum k).re,
            im := rate * (Cplx.mul (T k) (Cplx.conj (m.read p k))).im
                    + (1 - rate) * (m.read Ptr.mosseNum k).im }
      ∧ (onlineUpdateMem h w rate T p (Ptr.pool i1) (Ptr.pool i2) (Ptr.pool i3) m).read
          Ptr.mosseDen k
        = { re := rate * (Cplx.mul (m.read p k) (Cplx.conj (m.read p k))).re
                    + (1 - rate) * (m.read Ptr.mosseDen k).re,
            im := rate * (Cplx.mul (m.read p k) (Cplx.conj (m.read p k))).im
                    + (1 - rate) * (m.read Ptr.mosseDen k).im } := by
  simp [onlineUpdateMem, blendLoops_mem, convolveLoops_mem, conjLoop_mem, hk,
    blendStep, convolveStep, conjStep, Mem.set0, Mem.set1, Mem.load,
    hf, h1, h2, h3, h12, h13, h23, hf.symm, h1.symm, h2.symm, h3.symm, h12.symm, h13.symm, h23.symm, Cplx.mul, Cplx.conj]

/-- The numerator and denominator after OnlineFilter::onlineUpdate. -/
theorem Filter.onlineUpdate_terms (f : Filter) (p : Ptr) (T : Nat → Cplx)
    (hs : f.storageIndex < nComplexVectors) (hf : p ≠ Ptr.fftBuffer)
    (hpool : ∀ i, i < 3 → p ≠ Ptr.pool ((f.storageIndex + i) % nComplexVectors))
    (k : Nat) (hk : k < f.nElements) :
    (f.onlineUpdate p T).mem.read Ptr.mosseNum k
        = { re := f.learningRate * (Cplx.mul (T k) (Cplx.conj (f.mem.read p k))).re
                    + (1 - f.learningRate) * (f.mem.read Ptr.mosseNum k).re,
            im := f.learningRate * (Cplx.mul (T k) (Cplx.conj (f.mem.read p k))).im
                    + (1 - f.learningRate) * (f.mem.read Ptr.mosseNum k).im }
      ∧ (f.onlineUpdate p T).mem.read Ptr.mosseDen k
        = { re := f.learningRate * (Cplx.mul (f.mem.read p k) (Cplx.conj (f.mem.read p k))).re
                    + (1 - f.learningRate) * (f.mem.read Ptr.mosseDen k).re,
            im := f.learningRate * (Cplx.mul (f.mem.read p k) (Cplx.conj (f.mem.read p k))).im
                    + (1 - f.learningRate) * (f.mem.read Ptr.mosseDen k).im } := by
  rw [Filter.onlineUpdate_eq]
  have e0 := hpool 0 (by omega)
  have e1 := hpool 1 (by omega)
  have e2 := hpool 2 (by omega)
  simp only [nComplexVectors] at e0 e1 e2 hs
  have q0 : (f.storageIndex + 0) % 8 = f.storageIndex := by omega
  have q2 : (f.storageIndex + 2) % 8 = ((f.storageIndex + 1) % 8 + 1) % 8 := by omega
  rw [q0] at e0
  rw [q2] at e2
  exact onlineUpdateMem_entry f.height f.width f.learningRate T p _ _ _ f.mem hf
    e0 e1 e2 (by omega) (by omega) (by omega) k hk

/-- C4. OnlineFilter::onlineUpdate on a filter whose pool index is within the
pool, for a spectrum X held in a buffer `p` that is neither `fftBuffer` nor one
of the three pool buffers the call acquires (as for the copy
OnlineFilter::apply passes): with learning rate a and
target spectrum T, every spectral index k ends with
numerator[k] = a * (T[k] * conj(X[k])) + (1 - a) * old numerator[k] and
denominator[k] = a * (X[k] * conj(X[k])) + (1 - a) * old denominator[k],
on the real and on the imaginary part. -/
theorem Filter.onlineUpdate_blend (f : Filter) (p : Ptr) (T : Nat → Cplx)
    (hs : f.storageIndex < nComplexVectors) (hf : p ≠ Ptr.fftBuffer)
    (hpool : ∀ i, i < 3 → p ≠ Ptr.pool ((f.storageIndex + i) % nComplexVectors))
    (k : Nat) (hk : k < f.nElements) :
    (f.onlineUpdate p T).mem.read Ptr.mosseNum k
        = { re := f.learningRate * (Cplx.mul (T k) (Cplx.conj (f.mem.read p k))).re
                    + (1 - f.learningRate) * (f.mem.read Ptr.mosseNum k).re,
            im := f.learningRate * (Cplx.mul (T k) (Cplx.conj (f.mem.read p k))).im
                    + (1 - f.learningRate) * (f.mem.read Ptr.mosseNum k).im }
      ∧ (f.onlineUpdate p T).mem.read Ptr.mosseDen k
        = { re := f.learningRate * (Cplx.mul (f.mem.read p k) (Cplx.conj (f.mem.read p k))).re
                    + (1 - f.learningRate) * (f.mem.read Ptr.mosseDen k).re,
            im := f.learningRate * (Cplx.mul (f.mem.read p k) (Cplx.conj (f.mem.read p k))).im
                    + (1 - f.learningRate) * (f.mem.read Ptr.mosseDen k).im } := by
  rw [Filter.onlineUpdate_eq]
  have e0 := hpool 0 (by omega)
  have e1 := hpool 1 (by omega)
  have e2 := hpool 2 (by omega)
  simp only [nComplexVectors] at e0 e1 e2 hs
  have q0 : (f.storageIndex + 0) % 8 = f.storageIndex := by omega
  have q2 : (f.storageIndex + 2) % 8 = ((f.storageIndex + 1) % 8 + 1) % 8 := by omega
  rw [q0] at e0
  rw [q2] at e2
  exact onlineUpdateMem_entry f.height f.width f.learningRate T p _ _ _ f.mem hf
    e0 e1 e2 (by omega) (by omega) (by omega) k hk

theorem Filter.onlineUpdate_blend_witness :
    ((sampleFilter (Dbl.fin (1 / 8))).onlineUpdate (Ptr.pool 7) sampleT).mem.read Ptr.mosseNum 1
        = ⟨Dbl.fin (23 / 4), Dbl.fin 2⟩
      ∧ ((sampleFilter (Dbl.fin (1 / 8))).onlineUpdate (Ptr.pool 7) sampleT).mem.read
          Ptr.mosseDen 1 = ⟨Dbl.fin (41 / 4), Dbl.fin (7 / 2)⟩ := by
  obtain ⟨h1, h2⟩ := Filter.onlineUpdate_blend (sampleFilter (Dbl.fin (1 / 8))) (Ptr.pool 7)
    sampleT (by decide) (by decide) (fun i hi hc => by
        injection hc with hc
        simp only [nComplexVectors, sampleFilter] at hc
        omega) 1 (by decide)
  rw [h1, h2]
  simp only [sampleFilter, sampleMem, sampleT, Cplx.mul, Cplx.conj, Dbl.fin_mul, Dbl.fin_neg,
    Dbl.fin_sub, Dbl.fin_add, Dbl.one_def]
  norm_num

theorem Dbl.blend_one (x : Dbl) (a : ℚ) : 1 * x + (1 - 1) * Dbl.fin a = x := by
  cases x with
  | fin q => simp
  | nan => rfl

theorem Dbl.blend_zero (x : Dbl) (a : ℚ) : 0 * Dbl.fin a + (1 - 0) * x = x := by
  cases x with
  | fin q => simp
  | nan => rfl

theorem Dbl.isFinite_iff (x : Dbl) : x.isFinite = true ↔ ∃ q, x = Dbl.fin q := by
  cases x <;> simp [Dbl.isFinite]

/-- C5 (counterexample). The endpoints do not hold for every prior state and
every spectrum. With learning rate 1 and a prior numerator and denominator that
are not finite, onlineUpdate leaves a non-finite numerator and denominator at
index 1, not the per-sample terms T * conj(X) = 39 + 2i and X * conj(X) = 61:
the prior value is multiplied by 1 - 1 = 0 and added, and 0 times a non-finite
double is not 0. With learning rate 0, the finite prior numerator 1 + 2i and a
target spectrum that is not finite, onlineUpdate does not keep the prior
numerator. -/
theorem Filter.onlineUpdate_endpoints_nonfinite :
    Cplx.mul (sampleT 1) (Cplx.conj (nanPriorFilter.mem.read (Ptr.pool 7) 1))
        = ⟨Dbl.fin 39, Dbl.fin 2⟩
      ∧ Cplx.mul (nanPriorFilter.mem.read (Ptr.pool 7) 1)
          (Cplx.conj (nanPriorFilter.mem.read (Ptr.pool 7) 1)) = ⟨Dbl.fin 61, Dbl.fin 0⟩
      ∧ nanPriorFilter.learningRate = 1
      ∧ (nanPriorFilter.onlineUpdate (Ptr.pool 7) sampleT).mem.read Ptr.mosseNum 1
        = ⟨Dbl.nan, Dbl.nan⟩
      ∧ (nanPriorFilter.onlineUpdate (Ptr.pool 7) sampleT).mem.read Ptr.mosseDen 1
        = ⟨Dbl.nan, Dbl.nan⟩
      ∧ (sampleFilter 0).mem.read Ptr.mosseNum 1 = ⟨Dbl.fin 1, Dbl.fin 2⟩
      ∧ ((sampleFilter 0).onlineUpdate (Ptr.pool 7) nanSpectrum).mem.read Ptr.mosseNum 1
        = ⟨Dbl.nan, Dbl.nan⟩ := by
  have h1 := Filter.onlineUpdate_terms nanPriorFilter (Ptr.pool 7) sampleT (by decide)
    (by decide) (fun i hi hc => by
        injection hc with hc
        simp only [nComplexVectors, nanPriorFilter] at hc
        omega) 1 (by decide)
  have h0 := Filter.onlineUpdate_terms (sampleFilter 0) (Ptr.pool 7) nanSpectrum (by decide)
    (by decide) (fun i hi hc => by
        injection hc with hc
        simp only [nComplexVectors, sampleFilter] at hc
        omega) 1 (by decide)
  refine ⟨?_, ?_, rfl, ?_, ?_, rfl, ?_⟩
  · simp only [sampleT, nanPriorFilter, Cplx.mul, Cplx.conj, Dbl.fin_mul, Dbl.fin_neg,
      Dbl.fin_sub, Dbl.fin_add]
    norm_num
  · simp only [nanPriorFilter, Cplx.mul, Cplx.conj, Dbl.fin_mul, Dbl.fin_neg,
      Dbl.fin_sub, Dbl.fin_add]
    norm_num
  · rw [h1.1]; rfl
  · rw [h1.2]; rfl
  · rw [h0.1]; rfl

/-- C5 (amended). Endpoints of the online blend, under the conditions of C4 on the buffer
that holds the spectrum X. With learning rate 1 and a finite prior numerator
and denominator at index k, onlineUpdate leaves exactly the per-sample terms
T[k] * conj(X[k]) and X[k] * conj(X[k]) there, whatever the prior values were.
With learning rate 0 and finite T[k] and X[k], it leaves the numerator and the
denominator at index k as they were. -/
theorem Filter.onlineUpdate_endpoints (f : Filter) (p : Ptr) (T : Nat → Cplx)
    (hs : f.storageIndex < nComplexVectors) (hf : p ≠ Ptr.fftBuffer)
    (hpool : ∀ i, i < 3 → p ≠ Ptr.pool ((f.storageIndex + i) % nComplexVectors))
    (k : Nat) (hk : k < f.nElements) :
    (f.learningRate = 1 → (f.mem.read Ptr.mosseNum k).isFinite = true →
        (f.mem.read Ptr.mosseDen k).isFinite = true →
        (f.onlineUpdate p T).mem.read Ptr.mosseNum k = Cplx.mul (T k) (Cplx.conj (f.mem.read p k))
          ∧ (f.onlineUpdate p T).mem.read Ptr.mosseDen k
            = Cplx.mul (f.mem.read p k) (Cplx.conj (f.mem.read p k)))
      ∧ (f.learningRate = 0 → (T k).isFinite = true → (f.mem.read p k).isFinite = true →
        (f.onlineUpdate p T).mem.read Ptr.mosseNum k = f.mem.read Ptr.mosseNum k
          ∧ (f.onlineUpdate p T).mem.read Ptr.mosseDen k = f.mem.read Ptr.mosseDen k) := by
  obtain ⟨hnum, hden⟩ := Filter.onlineUpdate_terms f p T hs hf hpool k hk
  rw [hnum, hden]
  constructor
  · intro hr hN hD
    simp only [Cplx.isFinite, Bool.and_eq_true, Dbl.isFinite_iff] at hN hD
    obtain ⟨⟨a, ha⟩, ⟨b, hb⟩⟩ := hN
    obtain ⟨⟨c, hc⟩, ⟨d, hd⟩⟩ := hD
    rw [hr, ha, hb, hc, hd]
    simp only [Dbl.blend_one]
    exact ⟨trivial, trivial⟩
  · intro hr hT hX
    simp only [Cplx.isFinite, Bool.and_eq_true, Dbl.isFinite_iff] at hT hX
    obtain ⟨⟨a, ha⟩, ⟨b, hb⟩⟩ := hT
    obtain ⟨⟨c, hc⟩, ⟨d, hd⟩⟩ := hX
    rw [hr]
    simp only [Cplx.mul, Cplx.conj, ha, hb, hc, hd, Dbl.fin_mul, Dbl.fin_neg, Dbl.fin_sub,
      Dbl.fin_add, Dbl.blend_zero]
    exact ⟨trivial, trivial⟩

theorem Filter.onlineUpdate_endpoints_witness :
    (((sampleFilter 1).onlineUpdate (Ptr.pool 7) sampleT).mem.read Ptr.mosseNum 1
        = Cplx.mul (sampleT 1) (Cplx.conj ((sampleFilter 1).mem.read (Ptr.pool 7) 1))
      ∧ ((sampleFilter 1).onlineUpdate (Ptr.pool 7) sampleT).mem.read Ptr.mosseDen 1
        = Cplx.mul ((sampleFilter 1).mem.read (Ptr.pool 7) 1)
            (Cplx.conj ((sampleFilter 1).mem.read (Ptr.pool 7) 1)))
      ∧ (((sampleFilter 0).onlineUpdate (Ptr.pool 7) sampleT).mem.read Ptr.mosseNum 1
          = (sampleFilter 0).mem.read Ptr.mosseNum 1
        ∧ ((sampleFilter 0).onlineUpdate (Ptr.pool 7) sampleT).mem.read Ptr.mosseDen 1
          = (sampleFilter 0).mem.read Ptr.mosseDen 1) :=
  ⟨(Filter.onlineUpdate_endpoints (sampleFilter 1) (Ptr.pool 7) sampleT (by decide) (by decide)
      (fun i hi hc => by
        injection hc with hc
        simp only [nComplexVectors, sampleFilter] at hc
        omega) 1 (by decide)).1 rfl rfl rfl,
    (Filter.onlineUpdate_endpoints (sampleFilter 0) (Ptr.pool 7) sampleT (by decide) (by decide)
      (fun i hi hc => by
        injection hc with hc
        simp only [nComplexVectors, sampleFilter] at hc
        omega) 1 (by decide)).2 rfl rfl rfl⟩

/-! ## Training on one sample -/

theorem initStep_frame (k : Nat) (m : Mem) (p : Ptr) (j : Nat) (h : j ≠ k) :
    (initStep k m).read p j = m.read p j := by
  simp [initStep, Mem.set0, Mem.set1, h]

theorem initStep_local (k : Nat) (m m1 : Mem) (h : ∀ p, m.read p k = m1.read p k) (p : Ptr) :
    (initStep k m).read p k = (initStep k m1).read p k := by
  simp [initStep, Mem.set0, Mem.set1, h]

/-- The training constructor leaves a zero numerator and denominator. -/
theorem Filter.init_zero (height width : Nat) (m : Mem) (rate : Dbl) (k : Nat)
    (hk : k < height * (width / 2 + 1)) :
    (Filter.init height width m rate).mem.read Ptr.mosseNum k = ⟨Dbl.fin 0, Dbl.fin 0⟩
      ∧ (Filter.init height width m rate).mem.read Ptr.mosseDen k = ⟨Dbl.fin 0, Dbl.fin 0⟩ := by
  simp only [Filter.init]
  rw [forRange_pointwise initStep initStep_frame initStep_local,
    forRange_pointwise initStep initStep_frame initStep_local]
  simp [hk, initStep, Mem.set0, Mem.set1]

theorem forRange_getD {α σ : Type} (d : α) (g : α → σ → σ) (xs : List α) (s : σ) (n : Nat)
    (hn : n ≤ xs.length) :
    forRange n (fun i acc => g (xs.getD i d) acc) s
      = (xs.take n).foldl (fun acc a => g a acc) s := by
  induction n with
  | zero => simp [forRange_zero]
  | succ n ih =>
    have hlt : n < xs.length := by omega
    rw [forRange_succ, ih (by omega), List.take_succ, List.foldl_append,
      List.getD_eq_getElem xs d hlt, List.getElem?_eq_getElem hlt]
    rfl

theorem smoothing_foldl (xs : List CvPoint) (acc : Int × Int × Int) :
    xs.foldl (fun (acc : Int × Int × Int) (a : CvPoint) =>
        if a.x ≠ -1 then (acc.1 + a.x, acc.2.1 + a.y, acc.2.2 + 1) else acc) acc
      = (acc.1 + ((xs.filter CvPoint.isSet).map (fun p => p.x)).sum,
          acc.2.1 + ((xs.filter CvPoint.isSet).map (fun p => p.y)).sum,
          acc.2.2 + ((xs.filter CvPoint.isSet).length : Int)) := by
  induction xs generalizing acc with
  | nil => simp
  | cons a xs ih =>
    rw [List.foldl_cons, ih]
    by_cases ha : a.x = -1
    · simp [CvPoint.isSet, ha]
    · simp [CvPoint.isSet, ha]
      refine ⟨?_, ?_, ?_⟩ <;> ring

/-- The smoothing loop of getMaxLocation over a history of `n` slots. -/
theorem smoothing_loop (xs : List CvPoint) (n : Nat) (hn : xs.length = n)
    (acc : Int × Int × Int) :
    forRange n (fun i (acc : Int × Int × Int) =>
        if (xs.getD i default).x ≠ -1 then
          (acc.1 + (xs.getD i default).x, acc.2.1 + (xs.getD i default).y, acc.2.2 + 1)
        else acc) acc
      = (acc.1 + ((xs.filter CvPoint.isSet).map (fun p => p.x)).sum,
          acc.2.1 + ((xs.filter CvPoint.isSet).map (fun p => p.y)).sum,
          acc.2.2 + ((xs.filter CvPoint.isSet).length : Int)) := by
  have h := forRange_getD (default : CvPoint)
    (fun (a : CvPoint) (acc : Int × Int × Int) =>
      if a.x ≠ -1 then (acc.1 + a.x, acc.2.1 + a.y, acc.2.2 + 1) else acc) xs acc n (by omega)
  rw [h, ← hn, List.take_length, smoothing_foldl]

/-- Location::getMaxLocation on an extractor with a response image and a
history of `N` slots, in closed form. -/
theorem Location.getMaxLocation_eq (N : Nat) (psrWidthG : Int) (l : Location)
    (img : Image) (max : Dbl) (maxLoc : CvPoint)
    (hlen : l.pastLocations.length = N) (himg : l.postFilterImg = some img) :
    l.getMaxLocation N psrWidthG max maxLoc = Except.ok
      ({ x := Int.tdiv
            (maxLoc.x + ((l.pastLocations.filter CvPoint.isSet).map (fun p => p.x)).sum)
            (1 + ((l.pastLocations.filter CvPoint.isSet).length : Int))
         y := Int.tdiv
            (maxLoc.y + ((l.pastLocations.filter CvPoint.isSet).map (fun p => p.y)).sum)
            (1 + ((l.pastLocations.filter CvPoint.isSet).length : Int)) },
        Location.computePSR psrWidthG
          { l with
            pastLocations := l.pastLocations.set l.pastLocationIndex maxLoc
            pastLocationIndex := (l.pastLocationIndex + 1) % N } max maxLoc,
        { l with
          pastLocations := l.pastLocations.set l.pastLocationIndex maxLoc
          pastLocationIndex := (l.pastLocationIndex + 1) % N }) := by
  simp only [Location.getMaxLocation, himg, smoothing_loop l.pastLocations N hlen]

/-- C7. One call of Location::getMaxLocation on an extractor with a response
image, a history of N slots (N positive) and a ring index below N: the call
returns; the reported location is the sum of the raw peak and of every history
slot whose x is not -1, divided (truncating) by one plus the number of such
slots; afterwards the slot at the ring index holds the raw peak, every other
slot is unchanged, and the ring index is the old one plus one modulo N, which
is below N. -/
theorem Location.getMaxLocation_step (N : Nat) (psrWidthG : Int) (l : Location)
    (img : Image) (max : Dbl) (maxLoc : CvPoint)
    (hN : 0 < N) (hlen : l.pastLocations.length = N) (hidx : l.pastLocationIndex < N)
    (himg : l.postFilterImg = some img) :
    ∃ location psr l1,
      l.getMaxLocation N psrWidthG max maxLoc = Except.ok (location, psr, l1)
      ∧ location.x = Int.tdiv
          (maxLoc.x + ((l.pastLocations.filter CvPoint.isSet).map (fun p => p.x)).sum)
          (1 + ((l.pastLocations.filter CvPoint.isSet).length : Int))
      ∧ location.y = Int.tdiv
          (maxLoc.y + ((l.pastLocations.filter CvPoint.isSet).map (fun p => p.y)).sum)
          (1 + ((l.pastLocations.filter CvPoint.isSet).length : Int))
      ∧ l1.pastLocations.length = N
      ∧ l1.pastLocations[l.pastLocationIndex]? = some maxLoc
      ∧ (∀ i, i ≠ l.pastLocationIndex → l1.pastLocations[i]? = l.pastLocations[i]?)
      ∧ l1.pastLocationIndex = (l.pastLocationIndex + 1) % N
      ∧ l1.pastLocationIndex < N := by
  refine ⟨_, _, _, Location.getMaxLocation_eq N psrWidthG l img max maxLoc hlen himg, ?_⟩
  refine ⟨rfl, rfl, ?_, ?_, ?_, rfl, Nat.mod_lt _ hN⟩
  · simp [hlen]
  · simp [List.getElem?_set, hlen, hidx]
  · intro i hi
    simp [List.getElem?_set, Ne.symm hi]

theorem Location.getMaxLocation_step_witness :
    ∃ location psr l1,
      ((Location.init 3 3 3).setResponse sampleImage).getMaxLocation 3 2 1 ⟨1, 1⟩
          = Except.ok (location, psr, l1)
        ∧ location = ⟨1, 1⟩ ∧ l1.pastLocations[0]? = some ⟨1, 1⟩ ∧ l1.pastLocationIndex = 1 := by
  obtain ⟨location, psr, l1, h, hx, hy, _, hs, _, hi, _⟩ := Location.getMaxLocation_step 3 2
    ((Location.init 3 3 3).setResponse sampleImage) sampleImage 1 ⟨1, 1⟩ (by decide) (by decide)
    (by decide) rfl
  refine ⟨location, psr, l1, h, ?_, hs, hi⟩
  have hx1 : location.x = 1 := by rw [hx]; decide
  have hy1 : location.y = 1 := by rw [hy]; decide
  cases location
  simp_all

/-! ## Location::getMaxLocation: successive calls -/

theorem init_pastLocations (N : Nat) (h w : Int) :
    (Location.init N h w).pastLocations = List.replicate N ⟨-1, -1⟩ := by
  simp only [Location.init]
  induction N with
  | zero => simp [forRange_zero]
  | succ n ih => rw [forRange_succ, ih, List.replicate_succ']

theorem rotate_set_succ {α : Type} (xs : List α) (i : Nat) (a : α) (hi : i < xs.length) :
    (xs.set i a).rotate (i + 1) = (xs.rotate i).tail ++ [a] := by
  rw [List.rotate_eq_drop_append_take (by simp; omega),
    List.rotate_eq_drop_append_take (by omega), List.drop_eq_getElem_cons hi]
  rw [List.set_eq_take_append_cons_drop, if_pos hi]
  have hl : (List.take i xs).length = i := by simp; omega
  have e1 : List.drop (i + 1) (List.take i xs ++ a :: List.drop (i + 1) xs)
      = List.drop (i + 1) xs := by
    rw [List.drop_append_eq_append_drop, hl]
    simp [List.drop_eq_nil_of_le, hl]
  have e2 : List.take (i + 1) (List.take i xs ++ a :: List.drop (i + 1) xs)
      = List.take i xs ++ [a] := by
    rw [List.take_append_eq_append_take, hl]
    simp [List.take_of_length_le, hl]
  rw [e1, e2]
  simp only [List.tail_cons, List.cons_append, List.append_assoc]

theorem lastN_append_singleton {α : Type} (n : Nat) (xs : List α) (a : α) :
    lastN (n + 1) (xs ++ [a]) = lastN n xs ++ [a] := by
  simp only [lastN, List.length_append, List.length_singleton]
  rw [show xs.length + 1 - (n + 1) = xs.length - n by omega]
  exact List.drop_append_of_le_length (by omega)

theorem lastN_tail_step {α : Type} (n : Nat) (xs : List α) (a : α) (hn : 0 < n)
    (hl : n ≤ xs.length) : lastN n (xs ++ [a]) = (lastN n xs).tail ++ [a] := by
  simp only [lastN, List.length_append, List.length_singleton, List.tail_drop]
  rw [show xs.length + 1 - n = xs.length - n + 1 by omega]
  exact List.drop_append_of_le_length (by omega)

theorem filter_isSet_history (N : Nat) (ps : List CvPoint)
    (hps : ∀ q ∈ ps, CvPoint.isSet q = true) :
    (lastN N (List.replicate N (⟨-1, -1⟩ : CvPoint) ++ ps)).filter CvPoint.isSet
      = lastN N ps := by
  simp only [lastN, List.length_append, List.length_replicate]
  rw [show N + ps.length - N = ps.length by omega, List.drop_append_eq_append_drop,
    List.drop_replicate, List.filter_append, List.length_replicate]
  have h1 : List.filter CvPoint.isSet (List.replicate (N - ps.length) (⟨-1, -1⟩ : CvPoint))
      = [] := by
    rw [List.filter_replicate]
    simp [CvPoint.isSet]
  have h2 : List.filter CvPoint.isSet (List.drop (ps.length - N) ps)
      = List.drop (ps.length - N) ps := by
    rw [List.filter_eq_self]
    intro q hq
    exact hps q (List.mem_of_mem_drop hq)
  rw [h1, h2]
  rfl

theorem RingInv.init (N : Nat) (hN : 0 < N) (h w : Int) :
    RingInv N (Location.init N h w) [] := by
  refine ⟨?_, hN, ?_⟩
  · rw [init_pastLocations, List.length_replicate]
  · rw [init_pastLocations]
    simp [Location.init, lastN]

theorem RingInv.step (N : Nat) (hN : 0 < N) (l : Location) (ps : List CvPoint)
    (h : RingInv N l ps) (img : Image) (p : CvPoint) :
    RingInv N
      { l.setResponse img with
        pastLocations := (l.setResponse img).pastLocations.set
          (l.setResponse img).pastLocationIndex p
        pastLocationIndex := ((l.setResponse img).pastLocationIndex + 1) % N } (ps ++ [p]) := by
  obtain ⟨hlen, hidx, hrot⟩ := h
  refine ⟨by simp [Location.setResponse, hlen], Nat.mod_lt _ hN, ?_⟩
  simp only [Location.setResponse]
  have hmod : (l.pastLocations.set l.pastLocationIndex p).rotate ((l.pastLocationIndex + 1) % N)
      = (l.pastLocations.set l.pastLocationIndex p).rotate (l.pastLocationIndex + 1) := by
    have := List.rotate_mod (l.pastLocations.set l.pastLocationIndex p) (l.pastLocationIndex + 1)
    rw [List.length_set, hlen] at this
    exact this
  rw [hmod, rotate_set_succ _ _ _ (by omega), hrot, ← List.append_assoc,
    lastN_tail_step N _ p hN (by simp)]

theorem RingInv.sums (N : Nat) (l : Location) (ps : List CvPoint) (h : RingInv N l ps)
    (hps : ∀ q ∈ ps, CvPoint.isSet q = true) :
    (l.pastLocations.filter CvPoint.isSet).Perm (lastN N ps) := by
  obtain ⟨_, _, hrot⟩ := h
  have h1 := (List.rotate_perm l.pastLocations l.pastLocationIndex).filter CvPoint.isSet
  rw [hrot, filter_isSet_history N ps hps] at h1
  exact h1.symm

theorem RingInv.smoothed (N : Nat) (l : Location) (ps : List CvPoint) (h : RingInv N l ps)
    (hps : ∀ q ∈ ps, CvPoint.isSet q = true) (p : CvPoint) :
    ({ x := Int.tdiv
          (p.x + ((l.pastLocations.filter CvPoint.isSet).map (fun p => p.x)).sum)
          (1 + ((l.pastLocations.filter CvPoint.isSet).length : Int))
       y := Int.tdiv
          (p.y + ((l.pastLocations.filter CvPoint.isSet).map (fun p => p.y)).sum)
          (1 + ((l.pastLocations.filter CvPoint.isSet).length : Int)) } : CvPoint)
      = averagePoint (lastN (N + 1) (ps ++ [p])) := by
  have hperm := RingInv.sums N l ps h hps
  rw [(hperm.map (fun p => p.x)).sum_eq, (hperm.map (fun p => p.y)).sum_eq, hperm.length_eq]
  simp only [averagePoint, lastN_append_singleton, List.map_append, List.sum_append,
    List.map_cons, List.map_nil, List.sum_cons, List.sum_nil, List.length_append,
    List.length_singleton, add_zero, CvPoint.mk.injEq]
  constructor
  · congr 1
    · ring
    · push_cast
      ring
  · congr 1
    · ring
    · push_cast
      ring

theorem track_aux (N : Nat) (psrWidthG : Int) (hN : 0 < N) :
    ∀ (calls : List (Image × Dbl × CvPoint)) (l : Location) (ps : List CvPoint),
      RingInv N l ps → (∀ q ∈ ps, CvPoint.isSet q = true) →
      (∀ c ∈ calls, CvPoint.isSet c.2.2 = true) →
      ∃ locs l1, Location.track N psrWidthG l calls = Except.ok (locs, l1)
        ∧ locs.length = calls.length
        ∧ ∀ j, j < calls.length →
            locs[j]? = some (averagePoint
              (lastN (N + 1) (ps ++ (calls.map (fun c => c.2.2)).take (j + 1)))) := by
  intro calls
  induction calls with
  | nil =>
    intro l ps _ _ _
    exact ⟨[], l, rfl, rfl, by simp⟩
  | cons c rest ih =>
    intro l ps hinv hps hcalls
    obtain ⟨img, max, p⟩ := c
    have hp : CvPoint.isSet p = true := hcalls (img, max, p) (List.mem_cons_self _ _)
    have hstep := RingInv.step N hN l ps hinv img p
    have hps1 : ∀ q ∈ ps ++ [p], CvPoint.isSet q = true := by
      intro q hq
      rcases List.mem_append.mp hq with h | h
      · exact hps q h
      · rw [List.mem_singleton.mp h]
        exact hp
    obtain ⟨locs, l1, htr, hlen, hlocs⟩ := ih _ (ps ++ [p]) hstep hps1
      (fun c hc => hcalls c (List.mem_cons_of_mem _ hc))
    have hget := Location.getMaxLocation_eq N psrWidthG (l.setResponse img) img max p
      hinv.1 rfl
    have hsm := RingInv.smoothed N l ps hinv hps p
    refine ⟨averagePoint (lastN (N + 1) (ps ++ [p])) :: locs, l1, ?_, by simp [hlen], ?_⟩
    · simp only [Location.setResponse] at hget htr
      rw [hsm] at hget
      simp only [Location.track, Location.setResponse, hget, htr]
    · intro j hj
      cases j with
      | zero => simp
      | succ j =>
        have := hlocs j (by simpa using hj)
        simpa [List.append_assoc] using this

/-- C6. Repeated calls of Location::getMaxLocation on a freshly constructed
extractor with a history of N slots (N positive), for raw peaks whose x is not
-1: every call returns, and the location reported by call number k is the
component-wise truncating integer average, with equal weights, of the last
min(k, N + 1) raw peaks. -/
theorem Location.track_reports_average (N : Nat) (psrWidthG : Int) (h w : Int)
    (calls : List (Image × Dbl × CvPoint)) (hN : 0 < N)
    (hpk : ∀ c ∈ calls, c.2.2.x ≠ -1) :
    ∃ locs l1, Location.track N psrWidthG (Location.init N h w) calls = Except.ok (locs, l1)
      ∧ locs.length = calls.length
      ∧ ∀ k, 1 ≤ k → k ≤ calls.length →
          (((calls.map (fun c => c.2.2)).take k).drop (k - min k (N + 1))).length
              = min k (N + 1)
            ∧ locs[k - 1]? = some (averagePoint
                (((calls.map (fun c => c.2.2)).take k).drop (k - min k (N + 1)))) := by
  obtain ⟨locs, l1, htr, hlen, hlocs⟩ := track_aux N psrWidthG hN calls (Location.init N h w) []
    (RingInv.init N hN h w) (by simp)
    (fun c hc => by simpa [CvPoint.isSet] using hpk c hc)
  refine ⟨locs, l1, htr, hlen, ?_⟩
  intro k hk1 hk2
  have hl : ((calls.map (fun c => c.2.2)).take k).length = k := by
    simp
    omega
  constructor
  · rw [List.length_drop, hl]
    omega
  · have := hlocs (k - 1) (by omega)
    rw [this]
    simp only [List.nil_append, lastN, show k - 1 + 1 = k by omega, hl]
    rw [show k - (N + 1) = k - min k (N + 1) by omega]

theorem Location.track_reports_average_witness :
    ∃ locs l1, Location.track 3 10 (Location.init 3 3 3) sampleCalls = Except.ok (locs, l1)
      ∧ locs[2]? = some ⟨20, 20⟩ := by
  obtain ⟨locs, l1, htr, _, h⟩ := Location.track_reports_average 3 10 3 3 sampleCalls
    (by decide) (by decide)
  exact ⟨locs, l1, htr, (h 3 (by decide) (by decide)).2⟩

/-! ## Location::computePSR -/

theorem boundary_loop (n : Nat) (c : Nat → Bool) (v : Nat → Dbl) (acc : Dbl × Int) :
    forRange n (fun k (acc : Dbl × Int) => if c k = true then (acc.1 + v k, acc.2 + 1) else acc) acc
      = ((((List.range n).filter c).map v).foldl (fun a b => a + b) acc.1,
          acc.2 + ((((List.range n).filter c).map v).length : Int)) := by
  induction n with
  | zero => simp [forRange_zero]
  | succ n ih =>
    rw [forRange_succ, ih, List.range_succ, List.filter_append, List.map_append,
      List.foldl_append]
    by_cases hc : c n = true
    · simp [hc]
      ring
    · simp [hc]

theorem psrHalfWidth_nonneg (psrWidthG : Int) (p : CvPoint) (hW : 0 ≤ psrWidthG)
    (hx : 0 ≤ p.x) (hy : 0 ≤ p.y) : 0 ≤ psrHalfWidth psrWidthG p := by
  have h0 : 0 ≤ Int.tdiv psrWidthG 2 := Int.tdiv_nonneg hW (by omega)
  simp only [psrHalfWidth]
  split_ifs <;> omega

theorem computePSR_eq_spec (psrWidthG : Int) (l : Location) (img : Image) (max : Dbl)
    (p : CvPoint) (himg : l.postFilterImg = some img) (hW : 0 ≤ psrWidthG)
    (hx : 0 ≤ p.x) (hy : 0 ≤ p.y) :
    l.computePSR psrWidthG max p
      = psrSpec img l.imgHeight l.imgWidth max p (psrHalfWidth psrWidthG p) := by
  have hh := psrHalfWidth_nonneg psrWidthG p hW hx hy
  simp only [Location.computePSR, himg, psrSpec, if_neg (not_lt.mpr hh)]
  split_ifs with hm
  · rfl
  · have e1 := boundary_loop (psrHalfWidth psrWidthG p * 2).toNat
      (fun k => decide (p.y - psrHalfWidth psrWidthG p + (k : Int) < l.imgHeight))
      (fun k => img.pix (p.y - psrHalfWidth psrWidthG p + (k : Int))
        (p.x - psrHalfWidth psrWidthG p)) (0, 0)
    simp only [decide_eq_true_eq] at e1
    rw [e1]
    have e2 := boundary_loop (psrHalfWidth psrWidthG p * 2).toNat
      (fun k => decide (p.x - psrHalfWidth psrWidthG p + (k : Int) < l.imgWidth))
      (fun k => img.pix (p.y - psrHalfWidth psrWidthG p)
        (p.x - psrHalfWidth psrWidthG p + (k : Int)))
    simp only [decide_eq_true_eq] at e2
    rw [e2]
    simp only [psrBoundaryValues, dsum, List.foldl_append, List.length_append, Nat.cast_add,
      zero_add]

/-- Location::getMaxLocation returns when there is a response image; the
confidence is computePSR on the extractor with the updated history. -/
theorem Location.getMaxLocation_ok (N : Nat) (psrWidthG : Int) (l : Location)
    (img : Image) (max : Dbl) (maxLoc : CvPoint) (himg : l.postFilterImg = some img) :
    ∃ location, l.getMaxLocation N psrWidthG max maxLoc = Except.ok
      (location,
        Location.computePSR psrWidthG
          { l with
            pastLocations := l.pastLocations.set l.pastLocationIndex maxLoc
            pastLocationIndex := (l.pastLocationIndex + 1) % N } max maxLoc,
        { l with
          pastLocations := l.pastLocations.set l.pastLocationIndex maxLoc
          pastLocationIndex := (l.pastLocationIndex + 1) % N }) := by
  simp only [Location.getMaxLocation, himg]
  exact ⟨_, rfl⟩

/-- C8. The confidence Location::getMaxLocation reports, for a response image,
a non-negative `Globals::psrWidth` and a raw peak with non-negative
coordinates, whatever the location history holds: with h the half width used
(which is not negative) and the window of side 2h whose top-left corner is
(x - h, y - h), it is 0 when the mean of the response inside the window is
negative, and otherwise (max - mean) / (max - boundary), where boundary is the
average of the response on the left column and on the top row of the window,
restricted to the rows below the image height and the columns below the image
width. -/
theorem Location.getMaxLocation_confidence (N : Nat) (psrWidthG : Int) (l : Location)
    (img : Image) (max : Dbl) (maxLoc : CvPoint) (himg : l.postFilterImg = some img)
    (hW : 0 ≤ psrWidthG) (hx : 0 ≤ maxLoc.x) (hy : 0 ≤ maxLoc.y) :
    0 ≤ psrHalfWidth psrWidthG maxLoc
      ∧ ∃ location l1, l.getMaxLocation N psrWidthG max maxLoc = Except.ok
          (location,
            psrSpec img l.imgHeight l.imgWidth max maxLoc (psrHalfWidth psrWidthG maxLoc),
            l1) := by
  refine ⟨psrHalfWidth_nonneg psrWidthG maxLoc hW hx hy, ?_⟩
  have h := computePSR_eq_spec psrWidthG
    { l with
      pastLocations := l.pastLocations.set l.pastLocationIndex maxLoc
      pastLocationIndex := (l.pastLocationIndex + 1) % N } img max maxLoc himg hW hx hy
  obtain ⟨location, hloc⟩ := Location.getMaxLocation_ok N psrWidthG l img max maxLoc himg
  exact ⟨location, _, by rw [hloc, h]⟩

theorem Location.getMaxLocation_confidence_witness :
    ∃ location l1,
      ((Location.init 3 3 3).setResponse sampleImage).getMaxLocation 3 2 1 ⟨1, 1⟩
        = Except.ok (location, Dbl.fin (3 / 4), l1) := by
  obtain ⟨_, location, l1, h⟩ := Location.getMaxLocation_confidence 3 2
    ((Location.init 3 3 3).setResponse sampleImage) sampleImage 1 ⟨1, 1⟩ rfl (by decide)
    (by decide) (by decide)
  refine ⟨location, l1, ?_⟩
  rw [h]
  have hh : psrHalfWidth 2 ⟨1, 1⟩ = 1 := by decide
  rw [hh]
  simp [psrSpec, psrBoundaryValues, cvAvgROI, dsum, Location.setResponse, Location.init,
    sampleImage, Dbl.lt, Dbl.ofInt, List.range_succ, Dbl.fin_div]
  norm_num

/-- A zero divisor gives no finite quotient. -/
theorem Dbl.div_zero_eq_nan (a : Dbl) : a / Dbl.fin 0 = Dbl.nan := by
  cases a with
  | fin q => simp [Dbl.fin_div]
  | nan => rfl

theorem Dbl.sub_nan (a : Dbl) : a - Dbl.nan = Dbl.nan := by
  cases a <;> rfl

theorem Dbl.div_nan (a : Dbl) : a / Dbl.nan = Dbl.nan := by
  cases a <;> rfl

/-- The mean over a region of interest of width 0 and height 0 is 0. -/
theorem cvAvgROI_empty (img : Image) (x y : Int) : cvAvgROI img x y 0 0 = 0 := by
  have e : (min (y + 0) img.height - max y 0).toNat = 0 := by omega
  simp only [cvAvgROI, e, List.range_zero, List.map_nil, List.flatMap_nil, List.length_nil,
    if_true]

/-- With half width 0 no boundary value is collected, and the specification
formula divides the empty sum by the count 0. -/
theorem psrSpec_zero_width (img : Image) (imgHeight imgWidth : Int) (max : Dbl)
    (peak : CvPoint) : psrSpec img imgHeight imgWidth max peak 0 = Dbl.nan := by
  simp [psrSpec, psrBoundaryValues, cvAvgROI_empty, dsum, Dbl.lt, Dbl.ofInt,
    Dbl.div_zero_eq_nan, Dbl.sub_nan, Dbl.div_nan]

/-- C9 (code evaluated at the failing input). For every history size N + 1,
every non-negative `Globals::psrWidth` W, every response image and every
maximum value, a raw peak at (0, 0) makes Location::getMaxLocation report a
confidence that is not a number: the window has half width 0, no boundary pixel
is accumulated, and the boundary sum 0 is divided by the count 0. -/
theorem Location.getMaxLocation_confidence_at_origin (N W : Nat) (h w : Int) (img : Image)
    (max : Dbl) :
    ∃ location l1,
      ((Location.init (N + 1) h w).setResponse img).getMaxLocation (N + 1) (W : Int) max ⟨0, 0⟩
        = Except.ok (location, Dbl.nan, l1) := by
  have hh : psrHalfWidth (W : Int) ⟨0, 0⟩ = 0 := by
    have h0 : 0 ≤ Int.tdiv (W : Int) 2 := Int.tdiv_nonneg (by omega) (by omega)
    simp only [psrHalfWidth]
    split_ifs <;> omega
  obtain ⟨location, hget⟩ := Location.getMaxLocation_ok (N + 1) (W : Int)
    ((Location.init (N + 1) h w).setResponse img) img max ⟨0, 0⟩ rfl
  rw [computePSR_eq_spec (W : Int) _ img max ⟨0, 0⟩ rfl (by omega) (le_refl _)
    (le_refl _), hh, psrSpec_zero_width] at hget
  exact ⟨location, _, hget⟩

/-! ## Filter::getAffineTransforms -/

theorem angles_eq : doubleLoopValues false 2 (1 / 4) 17 (-2)
    = some [-2, -7/4, -3/2, -5/4, -1, -3/4, -1/2, -1/4, 0, 1/4, 1/2, 3/4, 1, 5/4, 3/2, 7/4] := by
  norm_num [doubleLoopValues]

theorem dists_eq : doubleLoopValues true 20 10 6 (-20) = some [-20, -10, 0, 10, 20] := by
  norm_num [doubleLoopValues]

theorem doubleLoopValues_mono (incl : Bool) (bound step : ℚ) (fuel : Nat) :
    ∀ (v : ℚ) (vs : List ℚ), doubleLoopValues incl bound step fuel v = some vs →
      ∀ k, doubleLoopValues incl bound step (fuel + k) v = some vs := by
  induction fuel with
  | zero => intro v vs h; simp [doubleLoopValues] at h
  | succ n ih =>
    intro v vs h k
    rw [show n + 1 + k = (n + k) + 1 by omega]
    by_cases hc : (if incl then decide (v ≤ bound) else decide (v < bound)) = true
    · simp only [doubleLoopValues, hc, if_true] at h ⊢
      cases hr : doubleLoopValues incl bound step n (v + step) with
      | none => simp [hr] at h
      | some l =>
        rw [hr] at h
        rw [ih _ _ hr k]
        exact h
    · simp only [doubleLoopValues, hc] at h ⊢
      exact h

theorem foldl_append_flatMap {α β : Type} (step : α → List β → List β) (g : α → List β)
    (hstep : ∀ a acc, step a acc = acc ++ g a) (l : List α) (init : List β) :
    l.foldl (fun acc a => step a acc) init = init ++ l.flatMap g := by
  induction l generalizing init with
  | nil => simp
  | cons a l ih => rw [List.foldl_cons, ih, hstep, List.flatMap_cons, List.append_assoc]

theorem translationStep_eq (f : Filter) (img : Img) (rl : CvPoint) (xdist ydist : ℚ)
    (images : List ImgLocPairT) :
    translationStep f img rl xdist ydist images
      = images ++ (if xdist = 0 ∧ ydist = 0 then []
          else if f.keeps (translateLocation rl xdist ydist) then
            [(Img.translated img xdist ydist, translateLocation rl xdist ydist)]
          else []) := by
  simp only [translationStep, translateLocation]
  split_ifs <;> simp

theorem translationLoops_eq (f : Filter) (dists : List ℚ) (img : Img) (rl : CvPoint)
    (images : List ImgLocPairT) :
    dists.foldl (fun acc xdist => dists.foldl (fun acc1 ydist =>
        translationStep f img rl xdist ydist acc1) acc) images
      = images ++ keptTranslations f dists img rl := by
  simp only [keptTranslations]
  apply foldl_append_flatMap (fun xdist acc => dists.foldl (fun acc1 ydist =>
        translationStep f img rl xdist ydist acc1) acc)
  intro xdist acc
  apply foldl_append_flatMap (fun ydist acc1 => translationStep f img rl xdist ydist acc1)
  intro ydist acc1
  exact translationStep_eq f img rl xdist ydist acc1

theorem rotationStep_eq (f : Filter) (rot : ℚ → RotMat) (dists : List ℚ) (image : Img)
    (location : CvPoint) (angle : ℚ) (images : List ImgLocPairT) :
    rotationStep f rot dists image location angle images
      = images ++ keptVariantsAt f rot dists image location angle := by
  simp only [rotationStep, keptVariantsAt, rotateLocation, translationLoops_eq]
  split_ifs <;> simp

theorem keptVariantsAt_congr (f1 f : Filter) (hh : f1.height = f.height)
    (hw : f1.width = f.width) (rot : ℚ → RotMat) (dists : List ℚ) (image : Img)
    (location : CvPoint) (angle : ℚ) :
    keptVariantsAt f1 rot dists image location angle
      = keptVariantsAt f rot dists image location angle := by
  have hk : f1.keeps = f.keeps := by
    funext p
    simp [Filter.keeps, hh, hw]
  simp only [keptVariantsAt, keptTranslations, hk]

theorem loopAngles_values (fuel : Nat) (h : 17 ≤ fuel) :
    doubleLoopValues false 2 (1 / 4) fuel (-2) = some loopAngles := by
  have := doubleLoopValues_mono false 2 (1 / 4) 17 (-2) _ angles_eq (fuel - 17)
  rwa [show 17 + (fuel - 17) = fuel by omega] at this

theorem loopDists_values (fuel : Nat) (h : 17 ≤ fuel) :
    doubleLoopValues true 20 10 fuel (-20) = some loopDists := by
  have := doubleLoopValues_mono true 20 10 6 (-20) _ dists_eq (fuel - 6)
  rwa [show 6 + (fuel - 6) = fuel by omega] at this

/-- Filter::getAffineTransforms with augmentation enabled, in closed form. -/
theorem Filter.getAffineTransforms_enabled (f : Filter) (rot : ℚ → RotMat) (fuel : Nat)
    (image : Img) (location : CvPoint) (hen : f.doAffineTransforms = true)
    (hfuel : 17 ≤ fuel) :
    f.getAffineTransforms rot fuel image location = some
      (f.transformedImages ++ (image, location)
          :: loopAngles.flatMap (keptVariantsAt f rot loopDists image location),
        { f with
          transformedImages := f.transformedImages ++ (image, location)
            :: loopAngles.flatMap (keptVariantsAt f rot loopDists image location) }) := by
  simp only [Filter.getAffineTransforms, hen, loopAngles_values fuel hfuel,
    loopDists_values fuel hfuel]
  rw [foldl_append_flatMap _ (keptVariantsAt f rot loopDists image location)
    (fun a acc => by
      rw [rotationStep_eq]
      exact congrArg _ (keptVariantsAt_congr _ f rfl rfl rot loopDists image location a))]
  simp

/-- Filter::getAffineTransforms with augmentation disabled, in closed form. -/
theorem Filter.getAffineTransforms_disabled (f : Filter) (rot : ℚ → RotMat) (fuel : Nat)
    (image : Img) (location : CvPoint) (hdis : f.doAffineTransforms = false) :
    f.getAffineTransforms rot fuel image location = some
      (f.transformedImages ++ [(image, location)],
        { f with transformedImages := f.transformedImages ++ [(image, location)] }) := by
  simp [Filter.getAffineTransforms, hdis]

theorem Filter.keeps_iff (f : Filter) (p : CvPoint) :
    f.keeps p = true ↔ 0 ≤ p.x ∧ p.x ≤ f.width ∧ 0 ≤ p.y ∧ p.y ≤ f.height := by
  simp only [Filter.keeps, Bool.not_eq_true', Bool.or_eq_false_iff, decide_eq_false_iff_not,
    not_lt, gt_iff_lt]
  tauto

theorem mem_keptTranslations (f : Filter) (dists : List ℚ) (img : Img) (rl : CvPoint)
    (p : ImgLocPairT) :
    p ∈ keptTranslations f dists img rl ↔
      ∃ xdist ∈ dists, ∃ ydist ∈ dists, ¬ (xdist = 0 ∧ ydist = 0)
        ∧ f.keeps (translateLocation rl xdist ydist) = true
        ∧ p = (Img.translated img xdist ydist, translateLocation rl xdist ydist) := by
  simp only [keptTranslations, List.mem_flatMap]
  constructor
  · rintro ⟨xd, hxd, yd, hyd, hp⟩
    refine ⟨xd, hxd, yd, hyd, ?_⟩
    split_ifs at hp with h0 hk
    · simp at hp
    · exact ⟨h0, hk, by simpa using hp⟩
    · simp at hp
  · rintro ⟨xd, hxd, yd, hyd, h0, hk, hp⟩
    refine ⟨xd, hxd, yd, hyd, ?_⟩
    rw [if_neg h0, if_pos hk, hp]
    exact List.mem_singleton_self _

theorem mem_keptVariants (f : Filter) (rot : ℚ → RotMat) (angles dists : List ℚ) (image : Img)
    (location : CvPoint) (p : ImgLocPairT) :
    p ∈ angles.flatMap (keptVariantsAt f rot dists image location) ↔
      ∃ angle ∈ angles, angle ≠ 0 ∧ f.keeps (rotateLocation (rot angle) location) = true
        ∧ (p = (Img.rotated image angle, rotateLocation (rot angle) location)
          ∨ p ∈ keptTranslations f dists (Img.rotated image angle)
              (rotateLocation (rot angle) location)) := by
  simp only [List.mem_flatMap, keptVariantsAt]
  constructor
  · rintro ⟨a, ha, hp⟩
    refine ⟨a, ha, ?_⟩
    split_ifs at hp with h0 hk
    · simp at hp
    · exact ⟨h0, hk, by simpa using hp⟩
    · simp at hp
  · rintro ⟨a, ha, h0, hk, hp⟩
    refine ⟨a, ha, ?_⟩
    rw [if_neg h0, if_pos hk]
    simpa using hp

/-- C11 (counterexample). With augmentation enabled on a 64 by 64 filter and
the base location (70, 10), the returned vector contains a pair whose location
is not within [0, 64] x [0, 64]: the base pair itself. -/
theorem Filter.getAffineTransforms_base_out_of_bounds :
    ∃ L g, augFilter.getAffineTransforms idRot 17 baseImage ⟨70, 10⟩ = some (L, g)
      ∧ ∃ p ∈ L, ¬ (0 ≤ p.2.x ∧ p.2.x ≤ 64 ∧ 0 ≤ p.2.y ∧ p.2.y ≤ 64) := by
  refine ⟨_, _, Filter.getAffineTransforms_enabled augFilter idRot 17 baseImage ⟨70, 10⟩ rfl
    (le_refl _), (baseImage, ⟨70, 10⟩), ?_, by decide⟩
  exact List.mem_append_right _ (List.mem_cons_self _ _)

/-- C11 (amended). Filter::getAffineTransforms with augmentation enabled
returns the previous content of `transformedImages`, then the base pair as it
was given, then the generated variants; every generated variant has a location
with 0 <= x <= width and 0 <= y <= height of the filter's configured size. -/
theorem Filter.getAffineTransforms_variants_in_bounds (f : Filter) (rot : ℚ → RotMat)
    (fuel : Nat) (image : Img) (location : CvPoint) (hen : f.doAffineTransforms = true)
    (hfuel : 17 ≤ fuel) :
    ∃ variants g,
      f.getAffineTransforms rot fuel image location
          = some (f.transformedImages ++ (image, location) :: variants, g)
        ∧ ∀ p ∈ variants,
            0 ≤ p.2.x ∧ p.2.x ≤ (f.width : Int) ∧ 0 ≤ p.2.y ∧ p.2.y ≤ (f.height : Int) := by
  refine ⟨_, _, Filter.getAffineTransforms_enabled f rot fuel image location hen hfuel, ?_⟩
  intro p hp
  obtain ⟨a, _, _, hk, hp⟩ := (mem_keptVariants f rot _ _ image location p).mp hp
  rcases hp with hp | hp
  · rw [hp]
    exact (Filter.keeps_iff f _).mp hk
  · obtain ⟨xd, _, yd, _, _, hk2, hp⟩ := (mem_keptTranslations f _ _ _ p).mp hp
    rw [hp]
    exact (Filter.keeps_iff f _).mp hk2

theorem Filter.getAffineTransforms_variants_in_bounds_witness :
    ∃ variants g,
      augFilter.getAffineTransforms idRot 17 baseImage ⟨32, 32⟩
          = some (augFilter.transformedImages ++ (baseImage, ⟨32, 32⟩) :: variants, g)
        ∧ ∀ p ∈ variants,
            0 ≤ p.2.x ∧ p.2.x ≤ (augFilter.width : Int) ∧ 0 ≤ p.2.y
              ∧ p.2.y ≤ (augFilter.height : Int) :=
  Filter.getAffineTransforms_variants_in_bounds augFilter idRot 17 baseImage ⟨32, 32⟩ rfl
    (by decide)

/-- C13 (counterexample). With augmentation enabled, the un-rotated base pair
is an element of the returned vector. -/
theorem Filter.getAffineTransforms_returns_base :
    ∃ L g, augFilter.getAffineTransforms idRot 17 baseImage ⟨32, 32⟩ = some (L, g)
      ∧ (baseImage, (⟨32, 32⟩ : CvPoint)) ∈ L := by
  refine ⟨_, _, Filter.getAffineTransforms_enabled augFilter idRot 17 baseImage ⟨32, 32⟩ rfl
    (le_refl _), ?_⟩
  exact List.mem_append_right _ (List.mem_cons_self _ _)

/-- C13 (amended). Filter::getAffineTransforms with augmentation enabled
returns the previous content of `transformedImages`, then the un-rotated base
pair, then only kept rotated variants and their kept translations: every
further pair is the frame rotated by a nonzero angle with its rotated location,
which passed the bounds test, or a translation by a nonzero (xdist, ydist) of
such a rotated variant that is itself in the result. -/
theorem Filter.getAffineTransforms_variants (f : Filter) (rot : ℚ → RotMat)
    (fuel : Nat) (image : Img) (location : CvPoint) (hen : f.doAffineTransforms = true)
    (hfuel : 17 ≤ fuel) :
    ∃ variants g,
      f.getAffineTransforms rot fuel image location
          = some (f.transformedImages ++ (image, location) :: variants, g)
        ∧ ∀ p ∈ variants,
            (∃ angle, angle ≠ 0
              ∧ f.keeps (rotateLocation (rot angle) location) = true
              ∧ p = (Img.rotated image angle, rotateLocation (rot angle) location))
            ∨ (∃ angle xdist ydist, angle ≠ 0 ∧ ¬ (xdist = 0 ∧ ydist = 0)
              ∧ (Img.rotated image angle, rotateLocation (rot angle) location) ∈ variants
              ∧ f.keeps (translateLocation (rotateLocation (rot angle) location) xdist ydist)
                  = true
              ∧ p = (Img.translated (Img.rotated image angle) xdist ydist,
                  translateLocation (rotateLocation (rot angle) location) xdist ydist)) := by
  refine ⟨_, _, Filter.getAffineTransforms_enabled f rot fuel image location hen hfuel, ?_⟩
  intro p hp
  obtain ⟨a, ha, h0, hk, hp⟩ := (mem_keptVariants f rot _ _ image location p).mp hp
  rcases hp with hp | hp
  · exact Or.inl ⟨a, h0, hk, hp⟩
  · obtain ⟨xd, _, yd, _, hd, hk2, hp⟩ := (mem_keptTranslations f _ _ _ p).mp hp
    refine Or.inr ⟨a, xd, yd, h0, hd, ?_, hk2, hp⟩
    exact (mem_keptVariants f rot _ _ image location _).mpr ⟨a, ha, h0, hk, Or.inl rfl⟩

theorem Filter.getAffineTransforms_variants_witness :
    ∃ variants g,
      augFilter.getAffineTransforms idRot 17 baseImage ⟨32, 32⟩
          = some (augFilter.transformedImages ++ (baseImage, ⟨32, 32⟩) :: variants, g)
        ∧ ∀ p ∈ variants,
            (∃ angle, angle ≠ 0
              ∧ augFilter.keeps (rotateLocation (idRot angle) ⟨32, 32⟩) = true
              ∧ p = (Img.rotated baseImage angle, rotateLocation (idRot angle) ⟨32, 32⟩))
            ∨ (∃ angle xdist ydist, angle ≠ 0 ∧ ¬ (xdist = 0 ∧ ydist = 0)
              ∧ (Img.rotated baseImage angle, rotateLocation (idRot angle) ⟨32, 32⟩)
                  ∈ variants
              ∧ augFilter.keeps
                  (translateLocation (rotateLocation (idRot angle) ⟨32, 32⟩) xdist ydist) = true
              ∧ p = (Img.translated (Img.rotated baseImage angle) xdist ydist,
                  translateLocation (rotateLocation (idRot angle) ⟨32, 32⟩) xdist ydist)) :=
  Filter.getAffineTransforms_variants augFilter idRot 17 baseImage ⟨32, 32⟩ rfl (by decide)

theorem filterMap_rotationAngle_keptTranslations (f : Filter) (dists : List ℚ) (img : Img)
    (rl : CvPoint) : (keptTranslations f dists img rl).filterMap rotationAngle = [] := by
  rw [List.filterMap_eq_nil_iff]
  intro p hp
  obtain ⟨xd, _, yd, _, _, _, hp⟩ := (mem_keptTranslations f dists img rl p).mp hp
  rw [hp]
  rfl

/-- When every rotated location passes the bounds test, the rotated variants
produced are those of the nonzero angles of the loop, in loop order. -/
theorem filterMap_rotationAngle_keptVariants (f : Filter) (rot : ℚ → RotMat)
    (angles dists : List ℚ) (image : Img) (location : CvPoint)
    (hk : ∀ a ∈ angles, f.keeps (rotateLocation (rot a) location) = true) :
    (angles.flatMap (keptVariantsAt f rot dists image location)).filterMap rotationAngle
      = angles.filter (fun a => decide (a ≠ 0)) := by
  induction angles with
  | nil => rfl
  | cons a as ih =>
    rw [List.flatMap_cons, List.filterMap_append, ih (fun b hb => hk b (List.mem_cons_of_mem _ hb))]
    by_cases h0 : a = 0
    · simp [keptVariantsAt, h0]
    · simp [keptVariantsAt, h0, hk a (List.mem_cons_self _ _),
        filterMap_rotationAngle_keptTranslations, rotationAngle]

theorem idRot_rotateLocation (a : ℚ) (p : CvPoint) : rotateLocation (idRot a) p = p := by
  cases p with
  | mk x y => simp [rotateLocation, idRot, truncToInt]

/-- C14 (code evaluated at the failing inputs). With augmentation enabled and
a rotation that sends the base location to a location passing the bounds test
for every angle, the one for 2.0 degrees included, the generated variants
follow the previous content of `transformedImages` and the base pair, and their
rotated images are those of the 15 angles -2.0, -1.75, ..., -0.25, 0.25, ...,
1.75, in this order: no variant is the frame rotated by 2.0. -/
theorem Filter.getAffineTransforms_rotation_range (f : Filter) (rot : ℚ → RotMat)
    (fuel : Nat) (image : Img) (location : CvPoint) (hen : f.doAffineTransforms = true)
    (hfuel : 17 ≤ fuel) (hk : ∀ a, f.keeps (rotateLocation (rot a) location) = true) :
    ∃ variants g,
      f.getAffineTransforms rot fuel image location
          = some (f.transformedImages ++ (image, location) :: variants, g)
      ∧ variants.filterMap rotationAngle
          = [-2, -7/4, -3/2, -5/4, -1, -3/4, -1/2, -1/4, 1/4, 1/2, 3/4, 1, 5/4, 3/2, 7/4]
      ∧ ∀ p ∈ variants, p.1 ≠ Img.rotated image 2 := by
  have hL : (loopAngles.flatMap (keptVariantsAt f rot loopDists image location)).filterMap
        rotationAngle
      = [-2, -7/4, -3/2, -5/4, -1, -3/4, -1/2, -1/4, 1/4, 1/2, 3/4, 1, 5/4, 3/2, 7/4] := by
    rw [filterMap_rotationAngle_keptVariants _ _ _ _ _ _ (fun a _ => hk a)]
    simp only [loopAngles]
    norm_num [List.filter]
  refine ⟨_, _, Filter.getAffineTransforms_enabled f rot fuel image location hen hfuel, hL, ?_⟩
  intro p hp hc
  have hmem : (2 : ℚ) ∈ (loopAngles.flatMap
      (keptVariantsAt f rot loopDists image location)).filterMap rotationAngle := by
    rw [List.mem_filterMap]
    exact ⟨p, hp, by simp [rotationAngle, hc]⟩
  rw [hL] at hmem
  norm_num at hmem

theorem Filter.getAffineTransforms_rotation_range_witness :
    augFilter.keeps (rotateLocation (idRot 2) ⟨32, 32⟩) = true
      ∧ ∃ variants g,
        augFilter.getAffineTransforms idRot 17 baseImage ⟨32, 32⟩
            = some (augFilter.transformedImages ++ (baseImage, ⟨32, 32⟩) :: variants, g)
        ∧ variants.filterMap rotationAngle
            = [-2, -7/4, -3/2, -5/4, -1, -3/4, -1/2, -1/4, 1/4, 1/2, 3/4, 1, 5/4, 3/2, 7/4]
        ∧ ∀ p ∈ variants, p.1 ≠ Img.rotated baseImage 2 :=
  ⟨by rw [idRot_rotateLocation]; decide,
    Filter.getAffineTransforms_rotation_range augFilter idRot 17 baseImage ⟨32, 32⟩ rfl
      (le_refl _) (fun a => by rw [idRot_rotateLocation]; decide)⟩

/-! ## Filter::update on a file, Location::setImage, Filter::preprocessImage -/

theorem Filter.update_mismatch (f : Filter) (size : Nat × Nat) (X T : Nat → Cplx)
    (h : size ≠ (f.height, f.width)) :
    f.update size X T = Except.error "Filter::update. Inconsistent image sizes." := by
  unfold Filter.update
  rw [if_pos]
  by_contra hc
  push_neg at hc
  exact h (Prod.ext hc.1.symm hc.2.symm)

theorem Filter.update_ok_size (f g : Filter) (size : Nat × Nat) (X T : Nat → Cplx)
    (h : f.update size X T = Except.ok g) :
    size = (f.height, f.width) ∧ g.height = f.height ∧ g.width = f.width
      ∧ g.hasFilter = f.hasFilter ∧ g.transformedImages = f.transformedImages
      ∧ g.doAffineTransforms = f.doAffineTransforms ∧ g.xmlTag = f.xmlTag := by
  by_cases hs : size = (f.height, f.width)
  · subst hs
    rw [Filter.update_eq] at h
    cases h
    exact ⟨rfl, rfl, rfl, rfl, rfl, rfl, rfl⟩
  · rw [Filter.update_mismatch f size X T hs] at h
    cases h

/-- A mismatched image given to Filter::update with augmentation disabled and
an empty `transformedImages`: the throw leaves the pair in the vector. -/
theorem Filter.updateFile_mismatch_disabled (f : Filter) (rot : ℚ → RotMat) (fuel : Nat)
    (image : Img) (location : CvPoint) (X : Img → Nat → Cplx) (T : CvPoint → Nat → Cplx)
    (hd : f.doAffineTransforms = false) (he : f.transformedImages = [])
    (hs : image.size ≠ (f.height, f.width)) :
    f.updateFile rot fuel (some image) location X T
      = some (some "Filter::update. Inconsistent image sizes.",
          { f with transformedImages := [(image, location)] }) := by
  simp only [Filter.updateFile, Filter.getAffineTransforms_disabled f rot fuel image location hd,
    he, List.nil_append, Filter.updateLoop]
  rw [Filter.update_mismatch { f with transformedImages := [(image, location)] } image.size
    (X image) (T location) hs]

/-- C12 (code evaluated at the failing input). On a filter for 64 by 64
images with augmentation disabled and an empty `transformedImages`,
Filter::update on a 32 by 32 image throws its size message after
`getAffineTransforms` has stored the pair and before `destroyAffineTransforms`
is reached; in the state it leaves, augmentation still disabled,
`getAffineTransforms` on a base pair returns two pairs, the stale one first,
instead of the singleton. -/
theorem Filter.getAffineTransforms_after_failed_update
    (X : Img → Nat → Cplx) (T : CvPoint → Nat → Cplx) :
    ∃ g, plainFilter.updateFile idRot 17 (some smallImage) ⟨16, 16⟩ X T
        = some (some "Filter::update. Inconsistent image sizes.", g)
      ∧ g.doAffineTransforms = false
      ∧ ∃ g1, g.getAffineTransforms idRot 17 baseImage ⟨32, 32⟩
          = some ([(smallImage, ⟨16, 16⟩), (baseImage, ⟨32, 32⟩)], g1) := by
  refine ⟨{ plainFilter with transformedImages := [(smallImage, ⟨16, 16⟩)] },
    Filter.updateFile_mismatch_disabled plainFilter idRot 17 smallImage ⟨16, 16⟩ X T
      rfl rfl (by decide), rfl, ?_⟩
  rw [Filter.getAffineTransforms_disabled _ _ _ _ _ rfl]
  exact ⟨_, rfl⟩

theorem Location.setImage_mismatch_iff (l : Location) (filter : Filter) (img : Img) :
    (l.setImage filter (some img)).1
        = some "Location::setImage. filter size and image sizes do not match!"
      ↔ img.size ≠ (filter.height, filter.width) := by
  unfold Location.setImage
  by_cases h : img.size = (filter.height, filter.width)
  · simp [h]
  · have h2 : ¬ (img.size.1 = filter.height ∧ img.size.2 = filter.width) :=
      fun hc => h (Prod.ext hc.1 hc.2)
    have h3 : ¬ img.size.1 = filter.height ∨ ¬ img.size.2 = filter.width := by
      by_contra hc
      push_neg at hc
      exact h2 hc
    simp [h, h3]

theorem Filter.updateLoop_rejects (X : Img → Nat → Cplx) (T : CvPoint → Nat → Cplx)
    (pre rest : List ImgLocPairT) (image : Img) (location : CvPoint) :
    ∀ (f : Filter), (∀ p ∈ pre, p.1.size = (f.height, f.width)) →
      image.size ≠ (f.height, f.width) →
      ∃ g, Filter.updateLoop X T f pre = (none, g)
        ∧ Filter.updateLoop X T f (pre ++ (image, location) :: rest)
            = (some "Filter::update. Inconsistent image sizes.", g) := by
  induction pre with
  | nil =>
    intro f _ hs
    refine ⟨f, rfl, ?_⟩
    simp only [List.nil_append, Filter.updateLoop]
    rw [Filter.update_mismatch f _ _ _ hs]
  | cons p pre ih =>
    intro f hpre hs
    obtain ⟨im, loc⟩ := p
    have hp : im.size = (f.height, f.width) := hpre (im, loc) (List.mem_cons_self _ _)
    obtain ⟨g, hg1, hg2⟩ := ih
      { f with
        storageIndex := ((((f.storageIndex + 1) % 8 + 1) % 8 + 1) % 8 + 1) % 8
        mem := updateMem f.height f.width (X im) (T loc) (Ptr.pool f.storageIndex)
          (Ptr.pool ((f.storageIndex + 1) % 8)) (Ptr.pool (((f.storageIndex + 1) % 8 + 1) % 8))
          (Ptr.pool ((((f.storageIndex + 1) % 8 + 1) % 8 + 1) % 8)) f.mem }
      (fun q hq => hpre q (List.mem_cons_of_mem _ hq)) hs
    refine ⟨g, ?_, ?_⟩
    · simp only [Filter.updateLoop, hp, Filter.update_eq]
      exact hg1
    · simp only [List.cons_append, Filter.updateLoop, hp, Filter.update_eq]
      exact hg2

/-- C19. Location::setImage on a non-null frame throws its size-mismatch
message exactly when the (height, width) of the frame differs from the
configured size of the filter; one pass of the loop of Filter::update on an
image throws its size message exactly when the size of the image differs from
the configured size; and when the images before a mismatched one have the
configured size, Filter::update throws at the mismatched one with the filter,
numerator and denominator included, as the earlier images left it. -/
theorem Location.setImage_size_check (l : Location) (filter : Filter) (img image : Img)
    (location : CvPoint) (X : Img → Nat → Cplx) (T : CvPoint → Nat → Cplx)
    (pre rest : List ImgLocPairT)
    (hpre : ∀ p ∈ pre, p.1.size = (filter.height, filter.width))
    (hs : image.size ≠ (filter.height, filter.width)) :
    ((l.setImage filter (some img)).1
        = some "Location::setImage. filter size and image sizes do not match!"
      ↔ img.size ≠ (filter.height, filter.width))
    ∧ ((∃ err, filter.update img.size (X img) (T location) = Except.error err)
      ↔ img.size ≠ (filter.height, filter.width))
    ∧ ∃ g, Filter.updateLoop X T filter pre = (none, g)
        ∧ Filter.updateLoop X T filter (pre ++ (image, location) :: rest)
            = (some "Filter::update. Inconsistent image sizes.", g) := by
  refine ⟨Location.setImage_mismatch_iff l filter img, ?_,
    Filter.updateLoop_rejects X T pre rest image location filter hpre hs⟩
  constructor
  · rintro ⟨err, he⟩ hc
    rw [hc, Filter.update_eq] at he
    cases he
  · intro h
    exact ⟨_, Filter.update_mismatch filter _ _ _ h⟩

theorem Location.setImage_size_check_witness :
    (∀ p ∈ [(Img.loaded 0 1 2, (⟨0, 0⟩ : CvPoint))],
        p.1.size = ((sampleFilter 0).height, (sampleFilter 0).width))
    ∧ smallImage.size ≠ ((sampleFilter 0).height, (sampleFilter 0).width)
    ∧ (((Location.init 3 0 0).setImage (sampleFilter 0) (some baseImage)).1
        = some "Location::setImage. filter size and image sizes do not match!"
      ↔ baseImage.size ≠ ((sampleFilter 0).height, (sampleFilter 0).width))
    ∧ ((∃ err, (sampleFilter 0).update baseImage.size (sampleX) (sampleT) = Except.error err)
      ↔ baseImage.size ≠ ((sampleFilter 0).height, (sampleFilter 0).width))
    ∧ ∃ g, Filter.updateLoop (fun _ => sampleX) (fun _ => sampleT) (sampleFilter 0)
          [(Img.loaded 0 1 2, ⟨0, 0⟩)] = (none, g)
        ∧ Filter.updateLoop (fun _ => sampleX) (fun _ => sampleT) (sampleFilter 0)
            ([(Img.loaded 0 1 2, ⟨0, 0⟩)] ++ (smallImage, ⟨16, 16⟩) :: [])
            = (some "Filter::update. Inconsistent image sizes.", g) :=
  ⟨by simp [Img.size, sampleFilter], by decide,
    Location.setImage_size_check (Location.init 3 0 0) (sampleFilter 0) baseImage smallImage
      ⟨16, 16⟩ (fun _ => sampleX) (fun _ => sampleT) [(Img.loaded 0 1 2, ⟨0, 0⟩)] []
      (by simp [Img.size, sampleFilter]) (by decide)⟩

/-- The OpenCV calls of Filter::preprocessImage accept a frame of the size of
the filter. -/
theorem Filter.cvCalls_same_size (f : Filter) (gray : Img → Bool)
    (spectrum : Img → Nat → Cplx) (image : Img) (h : image.size = (f.height, f.width)) :
    f.cvCalls gray spectrum image = Except.ok (spectrum image) := by
  cases hg : gray image <;> simp [Filter.cvCalls, cvSameSize, hg, h]

/-- The OpenCV calls of Filter::preprocessImage raise an error on a frame whose
size is not the size of the filter. -/
theorem Filter.cvCalls_other_size (f : Filter) (gray : Img → Bool)
    (spectrum : Img → Nat → Cplx) (image : Img) (h : image.size ≠ (f.height, f.width)) :
    f.cvCalls gray spectrum image
      = Except.error "OpenCV: sizes of input arguments do not match" := by
  cases hg : gray image <;> simp [Filter.cvCalls, cvSameSize, hg, h]

/-- C20. Filter::preprocessImage fails on a null frame pointer, with its
invalid-input message, and on every frame whose size differs from the size
(height, width) of the filter, with the error OpenCV raises when `cvCvtColor`
or `cvConvertScale` is given a source and a destination of different sizes. A
frame of the size of the filter passes: the function returns `fftBuffer`,
holding the spectrum of the frame. -/
theorem Filter.preprocessImagePtr_rejects (f : Filter) (gray : Img → Bool)
    (spectrum : Img → Nat → Cplx) :
    f.preprocessImagePtr (f.cvCalls gray spectrum) none
        = Except.error "Filter::preprocessImage. Call setImage with a valid image."
      ∧ (∀ image, image.size ≠ (f.height, f.width) →
          ∃ err, f.preprocessImagePtr (f.cvCalls gray spectrum) (some image) = Except.error err)
      ∧ (∀ image, image.size = (f.height, f.width) →
          f.preprocessImagePtr (f.cvCalls gray spectrum) (some image)
            = Except.ok (Ptr.fftBuffer,
                { f with mem := f.mem.load Ptr.fftBuffer f.nElements (spectrum image) })) := by
  refine ⟨rfl, ?_, ?_⟩
  · intro image h
    refine ⟨"OpenCV: sizes of input arguments do not match", ?_⟩
    simp only [Filter.preprocessImagePtr, Filter.cvCalls_other_size f gray spectrum image h]
  · intro image h
    simp only [Filter.preprocessImagePtr, Filter.cvCalls_same_size f gray spectrum image h]
    rfl

theorem Filter.preprocessImagePtr_rejects_witness :
    smallImage.size ≠ (plainFilter.height, plainFilter.width)
      ∧ baseImage.size = (plainFilter.height, plainFilter.width)
      ∧ plainFilter.preprocessImagePtr (plainFilter.cvCalls allGray sampleSpectra) none
        = Except.error "Filter::preprocessImage. Call setImage with a valid image."
      ∧ (∃ err, plainFilter.preprocessImagePtr (plainFilter.cvCalls allGray sampleSpectra)
          (some smallImage) = Except.error err)
      ∧ plainFilter.preprocessImagePtr (plainFilter.cvCalls allGray sampleSpectra)
          (some baseImage)
        = Except.ok (Ptr.fftBuffer,
            { plainFilter with
              mem := plainFilter.mem.load Ptr.fftBuffer plainFilter.nElements
                (sampleSpectra baseImage) }) :=
  ⟨by decide, by decide,
    (Filter.preprocessImagePtr_rejects plainFilter allGray sampleSpectra).1,
    (Filter.preprocessImagePtr_rejects plainFilter allGray sampleSpectra).2.1 smallImage
      (by decide),
    (Filter.preprocessImagePtr_rejects plainFilter allGray sampleSpectra).2.2 baseImage
      (by decide)⟩

/-! ## Filter::loadFilter -/

theorem isValueLine_tokens (line : String) (h : isValueLine line = true) :
    ∃ t0 t1, tokens line = [t0, t1] := by
  simp only [isValueLine, Bool.and_eq_true, decide_eq_true_eq] at h
  match ht : tokens line, h.1.1 with
  | [t0, t1], _ => exact ⟨t0, t1, rfl⟩

theorem isValueLine_ne_empty (line : String) (h : isValueLine line = true) : line ≠ "" := by
  intro hc
  subst hc
  revert h
  decide

theorem processLine_value (atoi : String → Int) (strtod : String → Dbl) (s : LoadState)
    (line : String) (hlen : s.length ≠ 0) (hv : isValueLine line = true)
    (hi : s.index < s.filter.nElements) :
    processLine atoi strtod s line = some { s with
      filter := { s.filter with
        mem := writeValues strtod (if s.isNumeratorTerm then Ptr.mosseNum else Ptr.mosseDen)
          s.index [line] s.filter.mem }
      index := s.index + 1 } := by
  obtain ⟨t0, t1, ht⟩ := isValueLine_tokens line hv
  simp only [isValueLine, Bool.and_eq_true, decide_eq_true_eq, Bool.not_eq_true'] at hv
  simp only [processLine, if_neg hlen, hv.1.2, hv.2, ht, if_pos hi, writeValues, valuePair]
  simp

theorem loadLines_values (atoi : String → Int) (strtod : String → Dbl)
    (vls rest : List String) :
    ∀ (s : LoadState), s.length ≠ 0 → (∀ l ∈ vls, isValueLine l = true) →
      s.index + vls.length ≤ s.filter.nElements →
      loadLines atoi strtod s (vls ++ rest) = loadLines atoi strtod { s with
        filter := { s.filter with
          mem := writeValues strtod (if s.isNumeratorTerm then Ptr.mosseNum else Ptr.mosseDen)
            s.index vls s.filter.mem }
        index := s.index + vls.length } rest := by
  induction vls with
  | nil => intro s _ _ _; rfl
  | cons l vls ih =>
    intro s hlen hv hi
    have hl := hv l (List.mem_cons_self _ _)
    simp only [List.length_cons] at hi
    rw [List.cons_append, loadLines, if_neg (isValueLine_ne_empty l hl),
      processLine_value atoi strtod s l hlen hl (by omega)]
    simp only
    refine (ih _ ?_ ?_ ?_).trans ?_
    · exact hlen
    · exact fun q hq => hv q (List.mem_cons_of_mem _ hq)
    · simp only [Filter.nElements] at hi ⊢
      omega
    · simp only [writeValues, List.length_cons]
      congr 2
      omega

theorem writeValues_read (strtod : String → Dbl) (p : Ptr) (ls : List String) :
    ∀ (i : Nat) (m : Mem) (q : Ptr) (k : Nat),
      (writeValues strtod p i ls m).read q k
        = if q = p ∧ i ≤ k ∧ k < i + ls.length then valuePair strtod (ls.getD (k - i) "")
          else m.read q k := by
  induction ls with
  | nil =>
    intro i m q k
    have h : ¬ (q = p ∧ i ≤ k ∧ k < i + ([] : List String).length) := by
      simp only [List.length_nil]; omega
    rw [if_neg h, writeValues]
  | cons l ls ih =>
    intro i m q k
    rw [writeValues, ih]
    by_cases hq : q = p
    · subst hq
      by_cases h1 : i + 1 ≤ k ∧ k < i + 1 + ls.length
      · have h2 : i ≤ k ∧ k < i + (l :: ls).length := by
          simp only [List.length_cons]; omega
        have h3 : k - i = (k - (i + 1)) + 1 := by omega
        simp only [true_and, h1, h2, and_self, if_true]
        rw [h3, List.getD_cons_succ]
      · by_cases h4 : k = i
        · subst h4
          simp [Mem.set0, Mem.set1]
        · have h2 : ¬ (i ≤ k ∧ k < i + (l :: ls).length) := by
            simp only [List.length_cons]; omega
          rw [if_neg (by simpa using h1), if_neg (by simpa using h2)]
          simp [Mem.set0, Mem.set1, h4]
    · simp [hq, Mem.set0, Mem.set1]

theorem processLine_size (atoi : String → Int) (strtod : String → Dbl) (f0 : Filter)
    (line th tw : String) (h w : Nat) (ht : tokens line = [th, tw])
    (hh : atoi th = (h : Int)) (hw : atoi tw = (w : Int)) (hpos : 0 < h)
    (hlt : h * w < 2 ^ 31) :
    processLine atoi strtod
        { filter := f0, length := 0, height := 0, width := 0, isNumeratorTerm := true,
          index := 0, sized := false } line
      = some (sizedState f0 h w true 0 (forRange (h * (w / 2 + 1)) initStep f0.mem)) := by
  have h0 : (h : Int) ≠ 0 := by omega
  have h1 : ¬ ((h : Int) < 0 ∨ (w : Int) < 0 ∨ (2 : Int) ^ 31 ≤ (h : Int) * (w : Int)) := by
    have : ((h * w : Nat) : Int) < 2 ^ 31 := by exact_mod_cast hlt
    push_cast at this
    omega
  simp only [processLine, ht, List.foldl_cons, List.foldl_nil, sizeStep, if_true, hh, hw, h0,
    if_false, ne_eq, not_false_eq_true, and_self, h1, Int.toNat_ofNat, sizedState]

theorem processLine_numerator (atoi : String → Int) (strtod : String → Dbl) (f0 : Filter)
    (h w : Nat) (isNum : Bool) (index : Nat) (m : Mem) (hne : h * w ≠ 0) :
    processLine atoi strtod (sizedState f0 h w isNum index m) "Numerator"
      = some (sizedState f0 h w true 0 m) := by
  have h1 : ¬ ((h : Int) * (w : Int) = 0) := by exact_mod_cast hne
  have h2 : containsSub "Numerator" "Numerator" = true := by decide
  simp only [processLine, sizedState, if_neg h1, h2, if_true]

theorem processLine_denominator (atoi : String → Int) (strtod : String → Dbl) (f0 : Filter)
    (h w : Nat) (isNum : Bool) (index : Nat) (m : Mem) (hne : h * w ≠ 0) :
    processLine atoi strtod (sizedState f0 h w isNum index m) "Denominator"
      = some (sizedState f0 h w false 0 m) := by
  have h1 : ¬ ((h : Int) * (w : Int) = 0) := by exact_mod_cast hne
  have h2 : containsSub "Numerator" "Denominator" = false := by decide
  have h3 : containsSub "Denominator" "Denominator" = true := by decide
  simp only [processLine, sizedState, if_neg h1, h2, h3, if_true]
  simp

theorem loadLines_sized_values (atoi : String → Int) (strtod : String → Dbl) (f0 : Filter)
    (h w : Nat) (isNum : Bool) (index : Nat) (m : Mem) (vls rest : List String)
    (hne : h * w ≠ 0) (hv : ∀ l ∈ vls, isValueLine l = true)
    (hi : index + vls.length ≤ h * (w / 2 + 1)) :
    loadLines atoi strtod (sizedState f0 h w isNum index m) (vls ++ rest)
      = loadLines atoi strtod
          (sizedState f0 h w isNum (index + vls.length)
            (writeValues strtod (if isNum then Ptr.mosseNum else Ptr.mosseDen) index vls m))
          rest := by
  have h1 : ¬ ((h : Int) * (w : Int) = 0) := by exact_mod_cast hne
  exact loadLines_values atoi strtod vls rest (sizedState f0 h w isNum index m) h1 hv hi

theorem loadLines_stop (atoi : String → Int) (strtod : String → Dbl) (s : LoadState)
    (trailer : List String) (h : trailer.headD "" = "") :
    loadLines atoi strtod s trailer = some s := by
  cases trailer with
  | nil => rfl
  | cons l ls =>
    simp only [List.headD_cons] at h
    simp [loadLines, h]

theorem loadLines_step (atoi : String → Int) (strtod : String → Dbl) (s s1 : LoadState)
    (line : String) (rest : List String) (hne : line ≠ "")
    (h : processLine atoi strtod s line = some s1) :
    loadLines atoi strtod s (line :: rest) = loadLines atoi strtod s1 rest := by
  rw [loadLines, if_neg hne, h]

theorem tokens_ne_empty (line : String) (t : String) (ts : List String)
    (h : tokens line = t :: ts) : line ≠ "" := by
  intro hc
  subst hc
  have h0 : tokens "" = [] := by decide
  rw [h0] at h
  cases h

theorem containsSub_iff (pat line : String) :
    containsSub pat line = true ↔ occursIn pat line := by
  simp only [containsSub, occursIn, List.any_eq_true, List.mem_tails,
    List.isPrefixOf_iff_prefix]
  constructor
  · rintro ⟨x, ⟨s, hs⟩, ⟨t, ht⟩⟩
    exact ⟨s, t, by rw [List.append_assoc, ht, hs]⟩
  · rintro ⟨s, t, h⟩
    exact ⟨pat.toList ++ t, ⟨s, by rw [← List.append_assoc, h]⟩, ⟨t, rfl⟩⟩

/-- Loading a file made of a name, a size line, the numerator marker and value
lines, with no more value lines than the arrays hold. -/
theorem Filter.loadFilter_numerator_only (f : Filter) (atoi : String → Int)
    (strtod : String → Dbl) (name sizeLine th tw : String) (h w : Nat)
    (numLines trailer : List String)
    (ht : tokens sizeLine = [th, tw]) (hh : atoi th = (h : Int)) (hw : atoi tw = (w : Int))
    (hne : h * w ≠ 0) (hlt : h * w < 2 ^ 31)
    (hnum : ∀ l ∈ numLines, isValueLine l = true)
    (hnlen : numLines.length ≤ h * (w / 2 + 1))
    (htr : trailer.headD "" = "") :
    f.loadFilter atoi strtod
        (some (name :: sizeLine :: "Numerator" :: (numLines ++ trailer)))
      = some (loadedFilter f strtod name h w numLines []).create := by
  have hpos : 0 < h := Nat.pos_of_ne_zero (fun hc => hne (by rw [hc, Nat.zero_mul]))
  simp only [Filter.loadFilter, List.headD_cons, List.tail_cons]
  rw [loadLines_step atoi strtod _ _ sizeLine _ (tokens_ne_empty _ _ _ ht)
      (processLine_size atoi strtod _ sizeLine th tw h w ht hh hw hpos hlt),
    loadLines_step atoi strtod _ _ "Numerator" _ (by decide)
      (processLine_numerator atoi strtod _ h w true 0 _ hne),
    loadLines_sized_values atoi strtod _ h w true 0 _ numLines trailer hne hnum (by omega),
    loadLines_stop atoi strtod _ trailer htr]
  rfl

/-- Loading a file made of a name, a size line, the numerator marker and value
lines, the denominator marker and value lines, with no more value lines in
either section than the arrays hold. -/
theorem Filter.loadFilter_sections (f : Filter) (atoi : String → Int)
    (strtod : String → Dbl) (name sizeLine th tw : String) (h w : Nat)
    (numLines denLines trailer : List String)
    (ht : tokens sizeLine = [th, tw]) (hh : atoi th = (h : Int)) (hw : atoi tw = (w : Int))
    (hne : h * w ≠ 0) (hlt : h * w < 2 ^ 31)
    (hnum : ∀ l ∈ numLines, isValueLine l = true)
    (hden : ∀ l ∈ denLines, isValueLine l = true)
    (hnlen : numLines.length ≤ h * (w / 2 + 1))
    (hdlen : denLines.length ≤ h * (w / 2 + 1))
    (htr : trailer.headD "" = "") :
    f.loadFilter atoi strtod
        (some (name :: sizeLine :: "Numerator"
          :: (numLines ++ "Denominator" :: (denLines ++ trailer))))
      = some (loadedFilter f strtod name h w numLines denLines).create := by
  have hpos : 0 < h := Nat.pos_of_ne_zero (fun hc => hne (by rw [hc, Nat.zero_mul]))
  simp only [Filter.loadFilter, List.headD_cons, List.tail_cons]
  rw [loadLines_step atoi strtod _ _ sizeLine _ (tokens_ne_empty _ _ _ ht)
      (processLine_size atoi strtod _ sizeLine th tw h w ht hh hw hpos hlt),
    loadLines_step atoi strtod _ _ "Numerator" _ (by decide)
      (processLine_numerator atoi strtod _ h w true 0 _ hne),
    loadLines_sized_values atoi strtod _ h w true 0 _ numLines _ hne hnum (by omega),
    loadLines_step atoi strtod _ _ "Denominator" _ (by decide)
      (processLine_denominator atoi strtod _ h w true _ _ hne),
    loadLines_sized_values atoi strtod _ h w false 0 _ denLines trailer hne hden (by omega),
    loadLines_stop atoi strtod _ trailer htr]
  rfl

/-- The numerator and the denominator `loadFilter` has built, element by
element: the pairs of the value lines present, 0 for the others. -/
theorem loadedFilter_read (f : Filter) (strtod : String → Dbl) (name : String) (h w : Nat)
    (numLines denLines : List String) (k : Nat) (hk : k < h * (w / 2 + 1)) :
    (loadedFilter f strtod name h w numLines denLines).mem.read Ptr.mosseNum k
        = (if k < numLines.length then valuePair strtod (numLines.getD k "")
            else ⟨Dbl.fin 0, Dbl.fin 0⟩)
      ∧ (loadedFilter f strtod name h w numLines denLines).mem.read Ptr.mosseDen k
        = (if k < denLines.length then valuePair strtod (denLines.getD k "")
            else ⟨Dbl.fin 0, Dbl.fin 0⟩) := by
  have hz := Filter.init_zero h w f.mem 0 k hk
  simp only [Filter.init] at hz
  simp only [loadedFilter, writeValues_read]
  constructor
  · by_cases h1 : k < numLines.length
    · simp [h1]
    · simp [h1, hz.1]
  · by_cases h1 : k < denLines.length
    · simp [h1]
    · simp [h1, hz.2]

/-- Filter::create leaves the numerator and the denominator as they are. -/
theorem Filter.create_keeps_terms (f : Filter) (k : Nat) :
    f.create.mem.read Ptr.mosseNum k = f.mem.read Ptr.mosseNum k
      ∧ f.create.mem.read Ptr.mosseDen k = f.mem.read Ptr.mosseDen k := by
  rw [Filter.create_mem, Filter.create_mem]
  constructor <;> split_ifs <;> simp [createStep, Mem.set0, Mem.set1]

theorem processLine_xmlTag (atoi : String → Int) (strtod : String → Dbl) (s s1 : LoadState)
    (line : String) (h : processLine atoi strtod s line = some s1) :
    s1.filter.xmlTag = s.filter.xmlTag := by
  unfold processLine at h
  by_cases h0 : s.length = 0
  · rw [if_pos h0] at h
    simp only at h
    split_ifs at h
    cases h
    rfl
  · rw [if_neg h0] at h
    by_cases h1 : containsSub "Numerator" line = true
    · rw [if_pos h1] at h
      cases h
      rfl
    · rw [if_neg h1] at h
      by_cases h2 : containsSub "Denominator" line = true
      · rw [if_pos h2] at h
        cases h
        rfl
      · rw [if_neg h2] at h
        split at h
        · by_cases h3 : s.index < s.filter.nElements
          · rw [if_pos h3] at h
            cases h
            rfl
          · rw [if_neg h3] at h
            cases h
        · cases h

theorem loadLines_xmlTag (atoi : String → Int) (strtod : String → Dbl) (lines : List String) :
    ∀ (s s1 : LoadState), loadLines atoi strtod s lines = some s1 →
      s1.filter.xmlTag = s.filter.xmlTag := by
  induction lines with
  | nil => intro s s1 h; cases h; rfl
  | cons l ls ih =>
    intro s s1 h
    rw [loadLines] at h
    split_ifs at h
    · cases h; rfl
    · cases hp : processLine atoi strtod s l with
      | none => rw [hp] at h; cases h
      | some s2 =>
        rw [hp] at h
        rw [ih s2 s1 h, processLine_xmlTag atoi strtod s s2 l hp]

/-- Whenever Filter::loadFilter returns, `create()` has run and the tag is
that of the first line. -/
theorem Filter.loadFilter_result (f g : Filter) (atoi : String → Int) (strtod : String → Dbl)
    (lines : List String) (h : f.loadFilter atoi strtod (some lines) = some g) :
    g.hasFilter = true ∧ g.xmlTag = tagOfLine (lines.headD "") := by
  simp only [Filter.loadFilter] at h
  split at h
  · cases h
  · rename_i s hs
    split_ifs at h
    cases h
    exact ⟨rfl, loadLines_xmlTag atoi strtod _ _ s hs⟩

theorem Filter.loadFilter_none_file (f : Filter) (atoi : String → Int) (strtod : String → Dbl) :
    f.loadFilter atoi strtod none = none := rfl

theorem tagOfLine_cases (line : String) :
    (occursIn "LeftEye" line → tagOfLine line = Tag.LeftEye)
      ∧ (¬ occursIn "LeftEye" line → occursIn "RightEye" line → tagOfLine line = Tag.RightEye)
      ∧ (¬ occursIn "LeftEye" line → ¬ occursIn "RightEye" line → occursIn "Face" line →
          tagOfLine line = Tag.Face)
      ∧ (¬ occursIn "LeftEye" line → ¬ occursIn "RightEye" line → ¬ occursIn "Face" line →
          tagOfLine line = Tag.Nose) := by
  simp only [← containsSub_iff, tagOfLine]
  refine ⟨fun h => by simp [h], fun h1 h2 => by simp [h1, h2],
    fun h1 h2 h3 => by simp [h1, h2, h3], fun h1 h2 h3 => by simp [h1, h2, h3]⟩

/-- C15. Filter::loadFilter on a well-formed file (a name line; a size line
of two tokens that `atoi` reads as h and w, both positive; the marker
Numerator followed by n = h * (w / 2 + 1) value lines; the marker Denominator
followed by n value lines; then the end of the file or an empty line) returns,
and what it returns is the result of `create()` on a filter g0 of size (h, w)
whose numerator and denominator hold at every k below n the k-th pair after the
respective marker; the derived filter is non-null and the two arrays still hold
these pairs afterwards. -/
theorem Filter.loadFilter_well_formed (f : Filter) (atoi : String → Int)
    (strtod : String → Dbl) (name sizeLine th tw : String) (h w : Nat)
    (numLines denLines trailer : List String)
    (ht : tokens sizeLine = [th, tw]) (hh : atoi th = (h : Int)) (hw : atoi tw = (w : Int))
    (hne : h * w ≠ 0) (hlt : h * w < 2 ^ 31)
    (hnum : ∀ l ∈ numLines, isValueLine l = true)
    (hden : ∀ l ∈ denLines, isValueLine l = true)
    (hnlen : numLines.length = h * (w / 2 + 1))
    (hdlen : denLines.length = h * (w / 2 + 1))
    (htr : trailer.headD "" = "") :
    ∃ g0 : Filter,
      f.loadFilter atoi strtod
          (some (name :: sizeLine :: "Numerator"
            :: (numLines ++ "Denominator" :: (denLines ++ trailer))))
        = some g0.create
      ∧ g0.height = h ∧ g0.width = w
      ∧ g0.create.hasFilter = true ∧ g0.create.height = h ∧ g0.create.width = w
      ∧ ∀ k, k < h * (w / 2 + 1) →
          g0.mem.read Ptr.mosseNum k = valuePair strtod (numLines.getD k "")
          ∧ g0.mem.read Ptr.mosseDen k = valuePair strtod (denLines.getD k "")
          ∧ g0.create.mem.read Ptr.mosseNum k = valuePair strtod (numLines.getD k "")
          ∧ g0.create.mem.read Ptr.mosseDen k = valuePair strtod (denLines.getD k "") := by
  refine ⟨loadedFilter f strtod name h w numLines denLines,
    Filter.loadFilter_sections f atoi strtod name sizeLine th tw h w numLines denLines trailer
      ht hh hw hne hlt hnum hden (le_of_eq hnlen) (le_of_eq hdlen) htr,
    rfl, rfl, rfl, rfl, rfl, ?_⟩
  intro k hk
  have hr := loadedFilter_read f strtod name h w numLines denLines k hk
  rw [if_pos (by omega), if_pos (by omega)] at hr
  have hc := Filter.create_keeps_terms (loadedFilter f strtod name h w numLines denLines) k
  exact ⟨hr.1, hr.2, hc.1.trans hr.1, hc.2.trans hr.2⟩

theorem Filter.loadFilter_well_formed_witness :
    ∃ g0 : Filter,
      (Filter.blank sampleMem).loadFilter digitsValue digitsDbl (some sampleFile) = some g0.create
      ∧ g0.height = 1 ∧ g0.width = 2
      ∧ g0.create.hasFilter = true ∧ g0.create.height = 1 ∧ g0.create.width = 2
      ∧ ∀ k, k < 1 * (2 / 2 + 1) →
          g0.mem.read Ptr.mosseNum k = valuePair digitsDbl (["1 2", "3 4"].getD k "")
          ∧ g0.mem.read Ptr.mosseDen k = valuePair digitsDbl (["5 0", "6 0"].getD k "")
          ∧ g0.create.mem.read Ptr.mosseNum k = valuePair digitsDbl (["1 2", "3 4"].getD k "")
          ∧ g0.create.mem.read Ptr.mosseDen k
              = valuePair digitsDbl (["5 0", "6 0"].getD k "") :=
  Filter.loadFilter_well_formed (Filter.blank sampleMem) digitsValue digitsDbl "MOSSE_LeftEye"
    "1 2" "1" "2" 1 2 ["1 2", "3 4"] ["5 0", "6 0"] [] (by decide) (by decide) (by decide)
    (by decide) (by decide) (by decide) (by decide) (by decide) (by decide) (by decide)

/-- C16 (counterexample). A file for height 1 and width 2 (two entries per
array) that is cut after its first numerator line loads without any failure:
`loadFilter` returns, the derived filter is non-null, the numerator holds the
pair read followed by 0 and the denominator is 0 throughout. -/
theorem Filter.loadFilter_truncated_file_loads :
    ∃ g : Filter,
      (Filter.blank sampleMem).loadFilter digitsValue digitsDbl (some truncatedFile) = some g
      ∧ g.hasFilter = true
      ∧ g.mem.read Ptr.mosseNum 0 = ⟨Dbl.fin 1, Dbl.fin 2⟩
      ∧ g.mem.read Ptr.mosseNum 1 = ⟨Dbl.fin 0, Dbl.fin 0⟩
      ∧ g.mem.read Ptr.mosseDen 0 = ⟨Dbl.fin 0, Dbl.fin 0⟩
      ∧ g.mem.read Ptr.mosseDen 1 = ⟨Dbl.fin 0, Dbl.fin 0⟩ := by
  have hl := Filter.loadFilter_numerator_only (Filter.blank sampleMem) digitsValue digitsDbl
    "MOSSE_LeftEye" "1 2" "1" "2" 1 2 ["1 2"] [] (by decide) (by decide) (by decide)
    (by decide) (by decide) (by decide) (by decide) (by decide)
  have h0 := loadedFilter_read (Filter.blank sampleMem) digitsDbl "MOSSE_LeftEye" 1 2 ["1 2"] []
    0 (by decide)
  have h1 := loadedFilter_read (Filter.blank sampleMem) digitsDbl "MOSSE_LeftEye" 1 2 ["1 2"] []
    1 (by decide)
  have c0 := Filter.create_keeps_terms
    (loadedFilter (Filter.blank sampleMem) digitsDbl "MOSSE_LeftEye" 1 2 ["1 2"] []) 0
  have c1 := Filter.create_keeps_terms
    (loadedFilter (Filter.blank sampleMem) digitsDbl "MOSSE_LeftEye" 1 2 ["1 2"] []) 1
  refine ⟨_, hl, rfl, ?_, ?_, ?_, ?_⟩
  · rw [c0.1, h0.1]; rfl
  · rw [c1.1, h1.1]; rfl
  · rw [c0.2, h0.2]; rfl
  · rw [c1.2, h1.2]; rfl

/-- C16 (amended). Filter::loadFilter reports no failure for a truncated file:
on a file with a name line, a size line read as positive h and w, and at most
n = h * (w / 2 + 1) value lines after each marker, it returns; the derived
filter is non-null, the entries present in the file are stored and the entries
missing from it are 0. -/
theorem Filter.loadFilter_truncated (f : Filter) (atoi : String → Int)
    (strtod : String → Dbl) (name sizeLine th tw : String) (h w : Nat)
    (numLines denLines trailer : List String)
    (ht : tokens sizeLine = [th, tw]) (hh : atoi th = (h : Int)) (hw : atoi tw = (w : Int))
    (hne : h * w ≠ 0) (hlt : h * w < 2 ^ 31)
    (hnum : ∀ l ∈ numLines, isValueLine l = true)
    (hden : ∀ l ∈ denLines, isValueLine l = true)
    (hnlen : numLines.length ≤ h * (w / 2 + 1))
    (hdlen : denLines.length ≤ h * (w / 2 + 1))
    (htr : trailer.headD "" = "") :
    ∃ g : Filter,
      f.loadFilter atoi strtod
          (some (name :: sizeLine :: "Numerator"
            :: (numLines ++ "Denominator" :: (denLines ++ trailer))))
        = some g
      ∧ g.hasFilter = true
      ∧ ∀ k, k < h * (w / 2 + 1) →
          g.mem.read Ptr.mosseNum k
              = (if k < numLines.length then valuePair strtod (numLines.getD k "")
                  else ⟨Dbl.fin 0, Dbl.fin 0⟩)
          ∧ g.mem.read Ptr.mosseDen k
              = (if k < denLines.length then valuePair strtod (denLines.getD k "")
                  else ⟨Dbl.fin 0, Dbl.fin 0⟩) := by
  refine ⟨_, Filter.loadFilter_sections f atoi strtod name sizeLine th tw h w numLines denLines
    trailer ht hh hw hne hlt hnum hden hnlen hdlen htr, rfl, ?_⟩
  intro k hk
  have hr := loadedFilter_read f strtod name h w numLines denLines k hk
  have hc := Filter.create_keeps_terms (loadedFilter f strtod name h w numLines denLines) k
  exact ⟨hc.1.trans hr.1, hc.2.trans hr.2⟩

theorem Filter.loadFilter_truncated_witness :
    ∃ g : Filter,
      (Filter.blank sampleMem).loadFilter digitsValue digitsDbl (some shortFile) = some g
      ∧ g.hasFilter = true
      ∧ ∀ k, k < 1 * (2 / 2 + 1) →
          g.mem.read Ptr.mosseNum k
              = (if k < ["1 2", "3 4"].length then valuePair digitsDbl (["1 2", "3 4"].getD k "")
                  else ⟨Dbl.fin 0, Dbl.fin 0⟩)
          ∧ g.mem.read Ptr.mosseDen k
              = (if k < ["5 0"].length then valuePair digitsDbl (["5 0"].getD k "")
                  else ⟨Dbl.fin 0, Dbl.fin 0⟩) :=
  Filter.loadFilter_truncated (Filter.blank sampleMem) digitsValue digitsDbl "MOSSE_LeftEye"
    "1 2" "1" "2" 1 2 ["1 2", "3 4"] ["5 0"] [] (by decide) (by decide) (by decide)
    (by decide) (by decide) (by decide) (by decide) (by decide) (by decide) (by decide)

/-- C17. Whenever Filter::loadFilter returns, the tag of the filter is decided
by the first line of the file alone, whatever the tag was before: LeftEye when
the text LeftEye occurs in it; otherwise RightEye when RightEye occurs in it;
otherwise Face when Face occurs in it; otherwise Nose. -/
theorem Filter.loadFilter_tag (f g : Filter) (atoi : String → Int) (strtod : String → Dbl)
    (lines : List String) (h : f.loadFilter atoi strtod (some lines) = some g) :
    (occursIn "LeftEye" (lines.headD "") → g.xmlTag = Tag.LeftEye)
      ∧ (¬ occursIn "LeftEye" (lines.headD "") → occursIn "RightEye" (lines.headD "") →
          g.xmlTag = Tag.RightEye)
      ∧ (¬ occursIn "LeftEye" (lines.headD "") → ¬ occursIn "RightEye" (lines.headD "") →
          occursIn "Face" (lines.headD "") → g.xmlTag = Tag.Face)
      ∧ (¬ occursIn "LeftEye" (lines.headD "") → ¬ occursIn "RightEye" (lines.headD "") →
          ¬ occursIn "Face" (lines.headD "") → g.xmlTag = Tag.Nose) := by
  rw [(Filter.loadFilter_result f g atoi strtod lines h).2]
  exact tagOfLine_cases _

theorem Filter.loadFilter_tag_witness :
    ∃ g : Filter,
      ({ Filter.blank sampleMem with xmlTag := Tag.Face } : Filter).loadFilter digitsValue
          digitsDbl (some unnamedFile) = some g
      ∧ ¬ occursIn "LeftEye" "MOSSE_Mouth" ∧ ¬ occursIn "RightEye" "MOSSE_Mouth"
      ∧ ¬ occursIn "Face" "MOSSE_Mouth"
      ∧ g.xmlTag = Tag.Nose := by
  have hl := Filter.loadFilter_sections { Filter.blank sampleMem with xmlTag := Tag.Face }
    digitsValue digitsDbl "MOSSE_Mouth" "1 2" "1" "2" 1 2 ["1 2", "3 4"] ["5 0", "6 0"] []
    (by decide) (by decide) (by decide) (by decide) (by decide) (by decide) (by decide)
    (by decide) (by decide) (by decide)
  have h1 : ¬ occursIn "LeftEye" "MOSSE_Mouth" := by rw [← containsSub_iff]; decide
  have h2 : ¬ occursIn "RightEye" "MOSSE_Mouth" := by rw [← containsSub_iff]; decide
  have h3 : ¬ occursIn "Face" "MOSSE_Mouth" := by rw [← containsSub_iff]; decide
  exact ⟨_, hl, h1, h2, h3,
    (Filter.loadFilter_tag _ _ digitsValue digitsDbl unnamedFile hl).2.2.2 h1 h2 h3⟩

/-! ## The derived filter and the operations that need it -/

theorem Filter.apply_invalid_iff (f : Filter) (p : Ptr) :
    f.apply (some p) = Except.error "Filter::apply. Invalid filter (NULL)."
      ↔ f.hasFilter = false := by
  unfold Filter.apply
  cases h : f.hasFilter <;> simp

theorem Filter.save_invalid_iff (f : Filter) (names : Tag → Option String)
    (fmt : Dbl → String) :
    f.save names fmt = Except.error "Filter::saveFilter. filter not created."
      ↔ f.hasFilter = false := by
  unfold Filter.save
  cases h : f.hasFilter
  · simp
  · cases hn : names f.xmlTag <;> simp

theorem Filter.perform_hasFilter (f : Filter) (op : FilterOp) :
    (f.perform op).hasFilter = (f.hasFilter || op.isCreate) := by
  cases op with
  | update size X T =>
    simp only [Filter.perform, FilterOp.isCreate, Bool.or_false]
    cases h : f.update size X T with
    | error e => rfl
    | ok g => exact (Filter.update_ok_size f g size X T h).2.2.2.1
  | create => simp [Filter.perform, FilterOp.isCreate, Filter.create]
  | setAffineTransforms => simp [Filter.perform, FilterOp.isCreate, Filter.setAffineTransforms]
  | preprocessImage X => simp [Filter.perform, FilterOp.isCreate, Filter.preprocessImage]
  | apply fft =>
    simp only [Filter.perform, FilterOp.isCreate, Bool.or_false]
    cases fft with
    | none => rfl
    | some p =>
      cases hf : f.hasFilter with
      | false => simp [Filter.apply, hf]
      | true => simp [Filter.apply, hf, Filter.convolve]

theorem Filter.performAll_hasFilter (ops : List FilterOp) :
    ∀ f : Filter, (f.performAll ops).hasFilter = (f.hasFilter || ops.any FilterOp.isCreate) := by
  induction ops with
  | nil => intro f; simp [Filter.performAll]
  | cons op ops ih =>
    intro f
    have h := ih (f.perform op)
    simp only [Filter.performAll, List.foldl_cons] at h ⊢
    rw [h, Filter.perform_hasFilter, List.any_cons, Bool.or_assoc]

/-- C18. After the training constructor and any sequence of operations,
Filter::apply on a non-null spectrum throws its invalid-filter message exactly
when `create()` is not among the operations, and Filter::save throws its
message under the same condition; after Filter::loadFilter has returned and any
sequence of operations, neither throws that message. -/
theorem Filter.apply_invalid_filter (height width : Nat) (m : Mem) (rate : Dbl)
    (ops : List FilterOp) (p : Ptr) (names : Tag → Option String) (fmt : Dbl → String)
    (f g : Filter) (atoi : String → Int) (strtod : String → Dbl) (lines : List String)
    (hload : f.loadFilter atoi strtod (some lines) = some g) :
    (((Filter.init height width m rate).performAll ops).apply (some p)
        = Except.error "Filter::apply. Invalid filter (NULL)."
      ↔ ops.any FilterOp.isCreate = false)
    ∧ (((Filter.init height width m rate).performAll ops).save names fmt
        = Except.error "Filter::saveFilter. filter not created."
      ↔ ops.any FilterOp.isCreate = false)
    ∧ (g.performAll ops).apply (some p) ≠ Except.error "Filter::apply. Invalid filter (NULL)."
    ∧ (g.performAll ops).save names fmt
        ≠ Except.error "Filter::saveFilter. filter not created." := by
  have h1 : ((Filter.init height width m rate).performAll ops).hasFilter
      = ops.any FilterOp.isCreate := by
    rw [Filter.performAll_hasFilter]
    rfl
  have h2 : (g.performAll ops).hasFilter = true := by
    rw [Filter.performAll_hasFilter, (Filter.loadFilter_result f g atoi strtod lines hload).1]
    rfl
  refine ⟨?_, ?_, ?_, ?_⟩
  · rw [Filter.apply_invalid_iff, h1]
  · rw [Filter.save_invalid_iff, h1]
  · rw [Ne, Filter.apply_invalid_iff, h2]
    simp
  · rw [Ne, Filter.save_invalid_iff, h2]
    simp

theorem Filter.apply_invalid_filter_witness :
    ∃ g : Filter,
      (Filter.blank sampleMem).loadFilter digitsValue digitsDbl (some sampleFile) = some g
      ∧ (((Filter.init 1 2 sampleMem 0).performAll
            [FilterOp.update (1, 2) sampleX sampleT, FilterOp.setAffineTransforms]).apply
              (some (Ptr.ext 0))
          = Except.error "Filter::apply. Invalid filter (NULL)."
        ↔ [FilterOp.update (1, 2) sampleX sampleT, FilterOp.setAffineTransforms].any
            FilterOp.isCreate = false)
      ∧ (((Filter.init 1 2 sampleMem 0).performAll
            [FilterOp.update (1, 2) sampleX sampleT, FilterOp.setAffineTransforms]).save
              sampleNames (fun _ => "0")
          = Except.error "Filter::saveFilter. filter not created."
        ↔ [FilterOp.update (1, 2) sampleX sampleT, FilterOp.setAffineTransforms].any
            FilterOp.isCreate = false)
      ∧ (g.performAll [FilterOp.update (1, 2) sampleX sampleT,
            FilterOp.setAffineTransforms]).apply (some (Ptr.ext 0))
          ≠ Except.error "Filter::apply. Invalid filter (NULL)."
      ∧ (g.performAll [FilterOp.update (1, 2) sampleX sampleT,
            FilterOp.setAffineTransforms]).save sampleNames (fun _ => "0")
          ≠ Except.error "Filter::saveFilter. filter not created." := by
  have hl := Filter.loadFilter_sections (Filter.blank sampleMem) digitsValue digitsDbl
    "MOSSE_LeftEye" "1 2" "1" "2" 1 2 ["1 2", "3 4"] ["5 0", "6 0"] []
    (by decide) (by decide) (by decide) (by decide) (by decide) (by decide) (by decide)
    (by decide) (by decide) (by decide)
  exact ⟨_, hl, Filter.apply_invalid_filter 1 2 sampleMem 0
    [FilterOp.update (1, 2) sampleX sampleT, FilterOp.setAffineTransforms] (Ptr.ext 0)
    sampleNames (fun _ => "0") (Filter.blank sampleMem) _ digitsValue digitsDbl sampleFile hl⟩

/-! ## OnlineFilter::apply and the scratch pool -/

theorem OnlineFilter.apply_eq (f : Filter) (p : Ptr) (peak : (Nat → Cplx) → CvPoint)
    (T : CvPoint → Nat → Cplx) :
    OnlineFilter.apply f (some p) peak T = Except.ok
      ((onlineApplyMem f p (Ptr.pool f.storageIndex)).read Ptr.fftBuffer,
        peak ((onlineApplyMem f p (Ptr.pool f.storageIndex)).read Ptr.fftBuffer),
        Filter.onlineUpdate
          { f with
            hasFilter := true
            storageIndex := (f.storageIndex + 1) % 8
            mem := onlineApplyMem f p (Ptr.pool f.storageIndex) }
          (Ptr.pool f.storageIndex)
          (T (peak ((onlineApplyMem f p (Ptr.pool f.storageIndex)).read Ptr.fftBuffer)))) := by
  rfl

/-- The memory of the product, element by element: outside `fftBuffer` it is
the memory after `create()` with the copy made. -/
theorem onlineApplyMem_frame (f : Filter) (p c q : Ptr) (k : Nat) (hq : q ≠ Ptr.fftBuffer) :
    (onlineApplyMem f p c).read q k = (f.create.mem.memcpy c p f.nElements).read q k := by
  simp only [onlineApplyMem, convolveLoops_mem]
  split_ifs <;> simp [convolveStep, Mem.set0, Mem.set1, hq]

theorem onlineApplyMem_copy (f : Filter) (p : Ptr) (s k : Nat) (hk : k < f.nElements)
    (hp : p ≠ Ptr.filter) :
    (onlineApplyMem f p (Ptr.pool s)).read (Ptr.pool s) k = f.mem.read p k := by
  rw [onlineApplyMem_frame f p _ _ k (by simp)]
  simp only [Mem.memcpy, true_and, hk, if_true]
  rw [Filter.create_mem, if_pos hk]
  simp [createStep, Mem.set0, Mem.set1, hp]

theorem onlineApplyMem_terms (f : Filter) (p : Ptr) (s k : Nat) :
    (onlineApplyMem f p (Ptr.pool s)).read Ptr.mosseNum k = f.mem.read Ptr.mosseNum k
      ∧ (onlineApplyMem f p (Ptr.pool s)).read Ptr.mosseDen k = f.mem.read Ptr.mosseDen k := by
  rw [onlineApplyMem_frame f p _ _ k (by simp), onlineApplyMem_frame f p _ _ k (by simp)]
  simp only [Mem.memcpy]
  have h := Filter.create_keeps_terms f k
  simp [h.1, h.2]

/-- The product OnlineFilter::apply hands to the inverse transform when the
spectrum is held outside `fftBuffer` and outside `filter`. -/
theorem onlineApplyMem_product (f : Filter) (p : Ptr) (s k : Nat) (hk : k < f.nElements)
    (hp : p ≠ Ptr.filter) (hb : p ≠ Ptr.fftBuffer) :
    (onlineApplyMem f p (Ptr.pool s)).read Ptr.fftBuffer k
      = Cplx.mul (f.mem.read p k) (f.create.mem.read Ptr.filter k) := by
  have hk1 : k < f.height * (f.width / 2 + 1) := hk
  have e : f.create.mem.read p k = f.mem.read p k := by
    rw [Filter.create_mem, if_pos hk]
    simp [createStep, Mem.set0, Mem.set1, hp]
  simp only [onlineApplyMem, convolveLoops_mem, hk1, if_true]
  by_cases hps : p = Ptr.pool s
  · subst hps
    simp [convolveStep, Mem.set0, Mem.set1, Mem.memcpy, hk, Cplx.mul, e]
  · simp [convolveStep, Mem.set0, Mem.set1, Mem.memcpy, hb, hps, hk, Cplx.mul, e]

/-- C23. OnlineFilter::apply on a spectrum X held in `fftBuffer` or in a
buffer of the caller: it returns; the product handed to the inverse transform is taken in the memory
`create()` leaves from the numerator and denominator at entry (for a buffer of
the caller it is X[k] times that derived filter at every index k); the update
uses the location `peak` reports for this product; afterwards numerator[k] is
a * (T[k] * conj(X[k])) + (1 - a) * old numerator[k] and denominator[k] is
a * (X[k] * conj(X[k])) + (1 - a) * old denominator[k], with X as it was at
entry, the old values those at entry and T the Gaussian at that location: one
blend; and the product is the same whatever the learning rate and the Gaussian
of the update are. -/
theorem OnlineFilter.apply_then_update (f : Filter) (p : Ptr)
    (peak : (Nat → Cplx) → CvPoint) (T : CvPoint → Nat → Cplx)
    (hp : p = Ptr.fftBuffer ∨ ∃ i, p = Ptr.ext i) :
    ∃ response maxLoc g,
      OnlineFilter.apply f (some p) peak T = Except.ok (response, maxLoc, g)
      ∧ response = (onlineApplyMem f p (Ptr.pool f.storageIndex)).read Ptr.fftBuffer
      ∧ (p ≠ Ptr.fftBuffer → ∀ k, k < f.nElements →
          response k = Cplx.mul (f.mem.read p k) (f.create.mem.read Ptr.filter k))
      ∧ maxLoc = peak response
      ∧ (∀ k, k < f.nElements →
          g.mem.read Ptr.mosseNum k
            = { re := f.learningRate * (Cplx.mul (T maxLoc k) (Cplx.conj (f.mem.read p k))).re
                        + (1 - f.learningRate) * (f.mem.read Ptr.mosseNum k).re,
                im := f.learningRate * (Cplx.mul (T maxLoc k) (Cplx.conj (f.mem.read p k))).im
                        + (1 - f.learningRate) * (f.mem.read Ptr.mosseNum k).im }
          ∧ g.mem.read Ptr.mosseDen k
            = { re := f.learningRate
                          * (Cplx.mul (f.mem.read p k) (Cplx.conj (f.mem.read p k))).re
                        + (1 - f.learningRate) * (f.mem.read Ptr.mosseDen k).re,
                im := f.learningRate
                          * (Cplx.mul (f.mem.read p k) (Cplx.conj (f.mem.read p k))).im
                        + (1 - f.learningRate) * (f.mem.read Ptr.mosseDen k).im })
      ∧ ∀ (rate : Dbl) (T1 : CvPoint → Nat → Cplx), ∃ g1,
          OnlineFilter.apply { f with learningRate := rate } (some p) peak T1
            = Except.ok (response, maxLoc, g1) := by
  have hpf : p ≠ Ptr.filter := by
    rcases hp with h | ⟨i, h⟩ <;> simp [h]
  refine ⟨_, _, _, OnlineFilter.apply_eq f p peak T, rfl, ?_, rfl, ?_, ?_⟩
  · intro hb k hk
    exact onlineApplyMem_product f p _ k hk hpf hb
  · intro k hk
    have h := Filter.onlineUpdate_terms
      { f with
        hasFilter := true
        storageIndex := (f.storageIndex + 1) % 8
        mem := onlineApplyMem f p (Ptr.pool f.storageIndex) }
      (Ptr.pool f.storageIndex)
      (T (peak ((onlineApplyMem f p (Ptr.pool f.storageIndex)).read Ptr.fftBuffer)))
      (by simp only [nComplexVectors]; omega) (by simp)
      (by
        intro i hi
        simp only [nComplexVectors, ne_eq, Ptr.pool.injEq]
        omega)
      k hk
    simp only at h
    rw [onlineApplyMem_copy f p _ k hk hpf, (onlineApplyMem_terms f p _ k).1,
      (onlineApplyMem_terms f p _ k).2] at h
    exact h
  · intro rate T1
    exact ⟨_, OnlineFilter.apply_eq { f with learningRate := rate } p peak T1⟩

theorem OnlineFilter.apply_then_update_witness :
    ∃ response maxLoc g,
      OnlineFilter.apply (sampleFilter (Dbl.fin (1 / 2))) (some (Ptr.ext 0))
          (fun _ => ⟨0, 0⟩) (fun _ => sampleT) = Except.ok (response, maxLoc, g)
      ∧ maxLoc = ⟨0, 0⟩
      ∧ ∀ rate, ∃ g1,
          OnlineFilter.apply { sampleFilter (Dbl.fin (1 / 2)) with learningRate := rate }
            (some (Ptr.ext 0)) (fun _ => ⟨0, 0⟩) (fun _ => sampleX)
            = Except.ok (response, maxLoc, g1) := by
  obtain ⟨response, maxLoc, g, h1, _, _, h4, _, h6⟩ :=
    OnlineFilter.apply_then_update (sampleFilter (Dbl.fin (1 / 2))) (Ptr.ext 0)
      (fun _ => ⟨0, 0⟩) (fun _ => sampleT) (Or.inr ⟨0, rfl⟩)
  exact ⟨response, maxLoc, g, h1, h4, fun rate => h6 rate (fun _ => sampleX)⟩

/-- C29. For every pool index at entry, one pass of the loop of Filter::update
on a sample of the filter's size works on four pool buffers (copy of the
spectrum, conjugate, numerator term, denominator term) that are pairwise
distinct and different from `fftBuffer`, which holds the target spectrum; and
so does one OnlineFilter::apply with its onlineUpdate (copy of the spectrum,
conjugate, numerator term, denominator term). -/
theorem Filter.update_buffers_distinct (f : Filter) (X Tu : Nat → Cplx) (p : Ptr)
    (peak : (Nat → Cplx) → CvPoint) (T : CvPoint → Nat → Cplx) :
    (∃ p0 p1 p2 p3 : Ptr, ∃ s : Nat,
      f.update (f.height, f.width) X Tu = Except.ok
        { f with storageIndex := s, mem := updateMem f.height f.width X Tu p0 p1 p2 p3 f.mem }
      ∧ p0 = f.nthBuffer 1
      ∧ [p0, p1, p2, p3].Nodup ∧ Ptr.fftBuffer ∉ [p0, p1, p2, p3]
      ∧ ∀ q ∈ [p0, p1, p2, p3], ∃ i, q = Ptr.pool i)
    ∧ (∃ q0 q1 q2 q3 : Ptr, ∃ s : Nat, ∃ response maxLoc,
      OnlineFilter.apply f (some p) peak T = Except.ok
        (response, maxLoc,
          { f with
            hasFilter := true
            storageIndex := s
            mem := onlineUpdateMem f.height f.width f.learningRate (T maxLoc) q0 q1 q2 q3
              (onlineApplyMem f p q0) })
      ∧ q0 = f.nthBuffer 1
      ∧ [q0, q1, q2, q3].Nodup ∧ Ptr.fftBuffer ∉ [q0, q1, q2, q3]
      ∧ ∀ q ∈ [q0, q1, q2, q3], ∃ i, q = Ptr.pool i) := by
  constructor
  · refine ⟨_, _, _, _, _, Filter.update_eq f X Tu, rfl, ?_, ?_, ?_⟩
    · simp only [List.nodup_cons, List.mem_cons, Ptr.pool.injEq, List.mem_singleton,
        List.not_mem_nil, List.nodup_nil, not_or, or_false, not_false_eq_true, and_true]
      omega
    · simp
    · simp
  · refine ⟨Ptr.pool f.storageIndex, Ptr.pool ((f.storageIndex + 1) % 8),
      Ptr.pool (((f.storageIndex + 1) % 8 + 1) % 8),
      Ptr.pool ((((f.storageIndex + 1) % 8 + 1) % 8 + 1) % 8),
      ((((f.storageIndex + 1) % 8 + 1) % 8 + 1) % 8 + 1) % 8,
      (onlineApplyMem f p (Ptr.pool f.storageIndex)).read Ptr.fftBuffer,
      peak ((onlineApplyMem f p (Ptr.pool f.storageIndex)).read Ptr.fftBuffer),
      (OnlineFilter.apply_eq f p peak T).trans ?_, rfl, ?_, ?_, ?_⟩
    · rw [Filter.onlineUpdate_eq]
    · simp only [List.nodup_cons, List.mem_cons, Ptr.pool.injEq, List.mem_singleton,
        List.not_mem_nil, List.nodup_nil, not_or, or_false, not_false_eq_true, and_true]
      omega
    · simp
    · simp

/-! ## Location::apply on a stored frame -/

/-- Location::apply on a raw frame whose preprocessing yields `X`, with a
created filter. -/
theorem Location.apply_raw_eq (l : Location) (filter : Filter)
    (cv : Img → Except String (Nat → Cplx)) (ifft : (Nat → Cplx) → Image) (image : Img)
    (X : Nat → Cplx) (hfft : l.imageFFT = none) (himg : l.inputImg = some image)
    (hcv : cv image = Except.ok X) (hf : filter.hasFilter = true) :
    l.apply filter cv ifft = Except.ok
      (true,
        { l with postFilterImg := some (ifft ((rawApplyMem filter X).read Ptr.fftBuffer)) },
        { filter with mem := rawApplyMem filter X }) := by
  simp only [Location.apply, hfft, himg, Filter.preprocessImagePtr, hcv, Filter.preprocessImage,
    Filter.apply, hf, Filter.convolve]
  simp only [Bool.not_true, Bool.false_eq_true, if_false]
  rw [← hfft]
  rfl

/-- Location::apply on a raw frame on which the OpenCV calls of the
preprocessing raise an error. -/
theorem Location.apply_raw_error (l : Location) (filter : Filter)
    (cv : Img → Except String (Nat → Cplx)) (ifft : (Nat → Cplx) → Image) (image : Img)
    (err : String) (hfft : l.imageFFT = none) (himg : l.inputImg = some image)
    (hcv : cv image = Except.error err) :
    l.apply filter cv ifft = Except.error err := by
  simp only [Location.apply, hfft, himg, Filter.preprocessImagePtr, hcv]

/-- One entry of the product taken in place. -/
theorem rawApplyMem_entry (f : Filter) (X : Nat → Cplx) (k : Nat) (hk : k < f.nElements) :
    (rawApplyMem f X).read Ptr.fftBuffer k
      = { re := (X k).re * (f.mem.read Ptr.filter k).re
                  - (X k).im * (f.mem.read Ptr.filter k).im
          im := ((X k).re * (f.mem.read Ptr.filter k).re
                    - (X k).im * (f.mem.read Ptr.filter k).im) * (f.mem.read Ptr.filter k).im
                  + (X k).im * (f.mem.read Ptr.filter k).re } := by
  have hk1 : k < f.height * (f.width / 2 + 1) := hk
  simp [rawApplyMem, convolveLoops_mem, hk1, convolveStep, Mem.set0, Mem.set1, Mem.load, hk]

/-- C22 (code evaluated on the raw-frame path). Location::apply on a stored
frame whose preprocessing yields the spectrum X, with a created filter F: it
returns, and at every spectral index k the value handed to the inverse
transform has the real part X_re*F_re - X_im*F_im of the product, but its
imaginary part is (X_re*F_re - X_im*F_im)*F_im + X_im*F_re: the product is
written into the buffer that holds X, and the imaginary part reads the real
part after it has been overwritten. -/
theorem Location.apply_raw_frame (l : Location) (filter : Filter)
    (cv : Img → Except String (Nat → Cplx)) (ifft : (Nat → Cplx) → Image) (image : Img)
    (X : Nat → Cplx) (hfft : l.imageFFT = none) (himg : l.inputImg = some image)
    (hcv : cv image = Except.ok X) (hf : filter.hasFilter = true) :
    ∃ l1 g, l.apply filter cv ifft = Except.ok (true, l1, g)
      ∧ l1.postFilterImg = some (ifft (g.mem.read Ptr.fftBuffer))
      ∧ ∀ k, k < filter.nElements →
          g.mem.read Ptr.fftBuffer k
            = { re := (X k).re * (filter.mem.read Ptr.filter k).re
                        - (X k).im * (filter.mem.read Ptr.filter k).im
                im := ((X k).re * (filter.mem.read Ptr.filter k).re
                          - (X k).im * (filter.mem.read Ptr.filter k).im)
                        * (filter.mem.read Ptr.filter k).im
                      + (X k).im * (filter.mem.read Ptr.filter k).re } :=
  ⟨_, _, Location.apply_raw_eq l filter cv ifft image X hfft himg hcv hf, rfl,
    fun k hk => rawApplyMem_entry filter X k hk⟩

theorem Location.apply_raw_frame_witness :
    ∃ l1 g,
      ({ Location.init 3 1 2 with inputImg := some tinyImage } : Location).apply readyFilter
          (readyFilter.cvCalls allGray (fun _ => sampleX)) sampleIfft = Except.ok (true, l1, g)
      ∧ g.mem.read Ptr.fftBuffer 0 = ⟨Dbl.fin (-7), Dbl.fin (-32)⟩
      ∧ Cplx.mul (sampleX 0) (readyFilter.mem.read Ptr.filter 0) = ⟨Dbl.fin (-7), Dbl.fin 16⟩ := by
  obtain ⟨l1, g, h1, _, h3⟩ := Location.apply_raw_frame
    { Location.init 3 1 2 with inputImg := some tinyImage } readyFilter
    (readyFilter.cvCalls allGray (fun _ => sampleX)) sampleIfft tinyImage sampleX rfl rfl
    (Filter.cvCalls_same_size readyFilter allGray (fun _ => sampleX) tinyImage (by decide)) rfl
  refine ⟨l1, g, h1, ?_, ?_⟩
  · rw [h3 0 (by decide)]
    simp only [readyFilter, sampleFilter, sampleMem, sampleX, Dbl.fin_mul, Dbl.fin_sub,
      Dbl.fin_add]
    norm_num
  · simp only [readyFilter, sampleFilter, sampleMem, sampleX, Cplx.mul, Dbl.fin_mul, Dbl.fin_sub,
      Dbl.fin_add]
    norm_num

/-- C30 (code evaluated on a rejected frame). When Location::setImage rejects
a frame because its size differs from the size of the filter, the extractor it
leaves holds the rejected frame as input frame, the size of the rejected frame
as image size and no response. A later apply(), with no spectrum set, hands
the rejected frame to the preprocessing: it fails with the error the OpenCV
calls raise on that frame (the error of their size tests, as the library makes
them), and where those calls go through it stores a response computed from the
spectrum of the rejected frame. -/
theorem Location.setImage_keeps_rejected_frame (l : Location) (filter : Filter) (img : Img)
    (cv : Img → Except String (Nat → Cplx)) (ifft : (Nat → Cplx) → Image)
    (hs : img.size ≠ (filter.height, filter.width)) (hfft : l.imageFFT = none)
    (hf : filter.hasFilter = true) :
    ∃ l1, l.setImage filter (some img)
        = (some "Location::setImage. filter size and image sizes do not match!", l1)
      ∧ l1.inputImg = some img
      ∧ l1.postFilterImg = none
      ∧ (l1.imgHeight, l1.imgWidth) = ((img.size.1 : Int), (img.size.2 : Int))
      ∧ (∀ err, cv img = Except.error err → l1.apply filter cv ifft = Except.error err)
      ∧ (∀ gray spectrum, l1.apply filter (filter.cvCalls gray spectrum) ifft
          = Except.error "OpenCV: sizes of input arguments do not match")
      ∧ (∀ X, cv img = Except.ok X →
          ∃ l2 g, l1.apply filter cv ifft = Except.ok (true, l2, g)
            ∧ g.mem = rawApplyMem filter X
            ∧ l2.postFilterImg = some (ifft ((rawApplyMem filter X).read Ptr.fftBuffer))) := by
  have h2 : ¬ (img.size.1 = filter.height ∧ img.size.2 = filter.width) :=
    fun hc => hs (Prod.ext hc.1 hc.2)
  have h3 : ¬ img.size.1 = filter.height ∨ ¬ img.size.2 = filter.width := by
    by_contra hc
    push_neg at hc
    exact h2 hc
  refine ⟨{ l with
      inputImg := some img
      postFilterImg := none
      imgHeight := (img.size.1 : Int)
      imgWidth := (img.size.2 : Int) }, ?_, rfl, rfl, rfl, ?_, ?_, ?_⟩
  · simp [Location.setImage, h3]
  · intro err hcv
    exact Location.apply_raw_error _ filter cv ifft img err hfft rfl hcv
  · intro gray spectrum
    exact Location.apply_raw_error _ filter _ ifft img _ hfft rfl
      (Filter.cvCalls_other_size filter gray spectrum img hs)
  · intro X hcv
    exact ⟨_, _, Location.apply_raw_eq _ filter cv ifft img X hfft rfl hcv hf, rfl, rfl⟩

theorem Location.setImage_keeps_rejected_frame_witness :
    smallImage.size ≠ (readyFilter.height, readyFilter.width)
      ∧ ∃ l1,
        ({ Location.init 3 1 2 with
            inputImg := some tinyImage, postFilterImg := some sampleImage } : Location).setImage
          readyFilter (some smallImage)
          = (some "Location::setImage. filter size and image sizes do not match!", l1)
        ∧ l1.inputImg = some smallImage
        ∧ l1.postFilterImg = none
        ∧ (l1.imgHeight, l1.imgWidth) = (32, 32)
        ∧ l1.apply readyFilter (readyFilter.cvCalls allGray sampleSpectra) sampleIfft
            = Except.error "OpenCV: sizes of input arguments do not match" := by
  obtain ⟨l1, h1, h2, h3, h4, _, h6, _⟩ := Location.setImage_keeps_rejected_frame
      { Location.init 3 1 2 with inputImg := some tinyImage, postFilterImg := some sampleImage }
      readyFilter smallImage (readyFilter.cvCalls allGray sampleSpectra) sampleIfft
      (by decide) rfl rfl
  exact ⟨by decide, l1, h1, h2, h3, h4, h6 allGray sampleSpectra⟩

/-! ## Location::computePSR: half width and boundary count -/

/-- Location::computePSR divides the boundary sum by the count of
`psrBoundary`. -/
theorem Location.computePSR_eq_boundary (W : Int) (l : Location) (img : Image) (max : Dbl)
    (p : CvPoint) (himg : l.postFilterImg = some img) :
    l.computePSR W max p
      = if psrHalfWidth W p < 0 then 0
        else if (cvAvgROI img (p.x - psrHalfWidth W p) (p.y - psrHalfWidth W p)
            (psrHalfWidth W p * 2) (psrHalfWidth W p * 2)).lt 0 then 0
        else (max - cvAvgROI img (p.x - psrHalfWidth W p) (p.y - psrHalfWidth W p)
            (psrHalfWidth W p * 2) (psrHalfWidth W p * 2))
          / (max - (l.psrBoundary img (p.x - psrHalfWidth W p) (p.y - psrHalfWidth W p)
                (psrHalfWidth W p * 2)).1
              / Dbl.ofInt (l.psrBoundary img (p.x - psrHalfWidth W p) (p.y - psrHalfWidth W p)
                (psrHalfWidth W p * 2)).2) := by
  simp only [Location.computePSR, himg, Location.psrBoundary]

theorem psrHalfWidth_eq_min (W : Int) (p : CvPoint) :
    psrHalfWidth W p = min (Int.tdiv W 2) (min p.x p.y) := by
  simp only [psrHalfWidth]
  split_ifs <;> omega

/-- The count of the boundary loops. -/
theorem Location.psrBoundary_count (l : Location) (img : Image) (x y w : Int) :
    (l.psrBoundary img x y w).2
      = ((((List.range w.toNat).filter
            (fun (k : Nat) => decide (y + (k : Int) < l.imgHeight))).length : Nat) : Int)
        + ((((List.range w.toNat).filter
            (fun (k : Nat) => decide (x + (k : Int) < l.imgWidth))).length : Nat) : Int) := by
  have e1 := boundary_loop w.toNat (fun k => decide (y + (k : Int) < l.imgHeight))
    (fun k => img.pix (y + (k : Int)) x) (0, 0)
  simp only [decide_eq_true_eq] at e1
  have e2 := boundary_loop w.toNat (fun k => decide (x + (k : Int) < l.imgWidth))
    (fun k => img.pix y (x + (k : Int)))
  simp only [decide_eq_true_eq] at e2
  simp only [Location.psrBoundary, e1, e2, List.length_map, zero_add]

/-- C24. Location::computePSR, for a configured width W that is not negative:
the half width it uses is min(W/2, x, y) for every peak (x, y), so the top-left
corner (x - h, y - h) of the window has non-negative coordinates whenever the
peak has; the half width is below zero, and the early return of 0 taken,
exactly when a coordinate of the peak is negative. -/
theorem Location.computePSR_half_width (W : Int) (l : Location) (max : Dbl) (p : CvPoint)
    (hW : 0 ≤ W) :
    psrHalfWidth W p = min (W / 2) (min p.x p.y)
      ∧ (0 ≤ p.x → 0 ≤ p.y →
          0 ≤ psrHalfWidth W p ∧ 0 ≤ p.x - psrHalfWidth W p ∧ 0 ≤ p.y - psrHalfWidth W p)
      ∧ (psrHalfWidth W p < 0 ↔ p.x < 0 ∨ p.y < 0)
      ∧ (p.x < 0 ∨ p.y < 0 → l.computePSR W max p = 0) := by
  have h0 : Int.tdiv W 2 = W / 2 := Int.tdiv_eq_ediv hW (by decide)
  have hm := psrHalfWidth_eq_min W p
  rw [h0] at hm
  have hlt : psrHalfWidth W p < 0 ↔ p.x < 0 ∨ p.y < 0 := by
    rw [hm]
    omega
  refine ⟨hm, ?_, hlt, ?_⟩
  · intro hx hy
    rw [hm]
    omega
  · intro hneg
    cases himg : l.postFilterImg with
    | none => simp [Location.computePSR, himg]
    | some img =>
      rw [Location.computePSR_eq_boundary W l img max p himg, if_pos (hlt.mpr hneg)]

theorem Location.computePSR_half_width_witness :
    (0 : Int) ≤ 6
      ∧ psrHalfWidth 6 ⟨1, 5⟩ = min (6 / 2) (min 1 5)
      ∧ psrHalfWidth 6 ⟨1, 5⟩ = 1
      ∧ (psrHalfWidth 6 ⟨-1, 5⟩ < 0 ↔ (-1 : Int) < 0 ∨ (5 : Int) < 0)
      ∧ sampleLocation.computePSR 6 1 ⟨-1, 5⟩ = 0 :=
  ⟨by decide,
    (Location.computePSR_half_width 6 sampleLocation 1 ⟨1, 5⟩ (by decide)).1,
    by decide,
    (Location.computePSR_half_width 6 sampleLocation 1 ⟨-1, 5⟩ (by decide)).2.2.1,
    (Location.computePSR_half_width 6 sampleLocation 1 ⟨-1, 5⟩ (by decide)).2.2.2
      (Or.inl (by decide))⟩

/-- C27 (code evaluated on peaks inside the image). For a configured width W
that is not negative and a peak (x, y) with non-negative coordinates and y
below the image height, as every peak inside the image has, the count
Location::computePSR divides the boundary sum by is 0 exactly when the half
width is 0, that is when W is below 2 or the peak lies on the left column or on
the top row; in that case, with a response image present, the confidence
computed is not a number. -/
theorem Location.computePSR_zero_count (W : Int) (l : Location) (img : Image) (max : Dbl)
    (p : CvPoint) (hW : 0 ≤ W) (hx : 0 ≤ p.x) (hy : 0 ≤ p.y) (hyh : p.y < l.imgHeight)
    (himg : l.postFilterImg = some img) :
    ((l.psrBoundary img (p.x - psrHalfWidth W p) (p.y - psrHalfWidth W p)
        (psrHalfWidth W p * 2)).2 = 0 ↔ psrHalfWidth W p = 0)
      ∧ (psrHalfWidth W p = 0 ↔ W < 2 ∨ p.x = 0 ∨ p.y = 0)
      ∧ (psrHalfWidth W p = 0 → l.computePSR W max p = Dbl.nan) := by
  have h0 : Int.tdiv W 2 = W / 2 := Int.tdiv_eq_ediv hW (by decide)
  have hm := psrHalfWidth_eq_min W p
  rw [h0] at hm
  have hnn : 0 ≤ psrHalfWidth W p := psrHalfWidth_nonneg W p hW hx hy
  refine ⟨?_, ?_, ?_⟩
  · rw [Location.psrBoundary_count]
    constructor
    · intro hc
      by_contra hne
      have hpos : 0 < (psrHalfWidth W p * 2).toNat := by omega
      have hmem : 0 ∈ (List.range (psrHalfWidth W p * 2).toNat).filter
          (fun (k : Nat) => decide (p.y - psrHalfWidth W p + (k : Int) < l.imgHeight)) := by
        rw [List.mem_filter, List.mem_range]
        refine ⟨hpos, ?_⟩
        simp only [Nat.cast_zero, add_zero, decide_eq_true_eq]
        omega
      have hlen := List.length_pos_of_mem hmem
      omega
    · intro hz
      simp [hz]
  · rw [hm]
    omega
  · intro hz
    rw [Location.computePSR_eq_boundary W l img max p himg, if_neg (by omega)]
    have hc : (l.psrBoundary img (p.x - psrHalfWidth W p) (p.y - psrHalfWidth W p)
        (psrHalfWidth W p * 2)).2 = 0 := by
      rw [Location.psrBoundary_count]
      simp [hz]
    rw [hc, hz]
    simp [cvAvgROI_empty, Dbl.lt, Dbl.ofInt, Dbl.div_zero_eq_nan, Dbl.sub_nan, Dbl.div_nan]

theorem Location.computePSR_zero_count_witness :
    (0 : Int) ≤ 6 ∧ (0 : Int) ≤ 0 ∧ (0 : Int) ≤ 1 ∧ (1 : Int) < sampleLocation.imgHeight
      ∧ (sampleLocation.psrBoundary sampleImage (0 - psrHalfWidth 6 ⟨0, 1⟩)
          (1 - psrHalfWidth 6 ⟨0, 1⟩) (psrHalfWidth 6 ⟨0, 1⟩ * 2)).2 = 0
      ∧ sampleLocation.computePSR 6 1 ⟨0, 1⟩ = Dbl.nan :=
  ⟨by decide, by decide, by decide, by decide,
    (Location.computePSR_zero_count 6 sampleLocation sampleImage 1 ⟨0, 1⟩ (by decide)
      (by decide) (by decide) (by decide) rfl).1.mpr (by decide),
    (Location.computePSR_zero_count 6 sampleLocation sampleImage 1 ⟨0, 1⟩ (by decide)
      (by decide) (by decide) (by decide) rfl).2.2 (by decide)⟩

/-! ## Sums of samples -/

theorem Dbl.add_swap (a b : Dbl) : a + b = b + a := by
  cases a <;> cases b
  · rw [Dbl.fin_add, Dbl.fin_add, Rat.add_comm]
  · rfl
  · rfl
  · rfl

theorem Dbl.add_assoc3 (a b c : Dbl) : a + b + c = a + (b + c) := by
  cases a <;> cases b <;> cases c
  · rw [Dbl.fin_add, Dbl.fin_add, Dbl.fin_add, Dbl.fin_add, Rat.add_assoc]
  all_goals rfl

theorem Dbl.add_fin_zero (a : Dbl) : a + Dbl.fin 0 = a := by
  cases a
  · rw [Dbl.fin_add, Rat.add_zero]
  · rfl

theorem Cplx.sum_swap (u v : Cplx) : Cplx.add u v = Cplx.add v u := by
  simp only [Cplx.add, Dbl.add_swap u.re, Dbl.add_swap u.im]

theorem Cplx.sum_assoc (u v w : Cplx) :
    Cplx.add (Cplx.add u v) w = Cplx.add u (Cplx.add v w) := by
  simp only [Cplx.add, Dbl.add_assoc3]

theorem Cplx.add_zero_right (u : Cplx) : Cplx.add u ⟨Dbl.fin 0, Dbl.fin 0⟩ = u := by
  simp only [Cplx.add, Dbl.add_fin_zero]

theorem Cplx.add_right_swap (u v w : Cplx) :
    Cplx.add (Cplx.add u v) w = Cplx.add (Cplx.add u w) v := by
  rw [Cplx.sum_assoc, Cplx.sum_swap v w, ← Cplx.sum_assoc]

theorem sumFrom_perm (start : Cplx) (l1 l2 : List Cplx) (h : l1.Perm l2) :
    sumFrom start l1 = sumFrom start l2 :=
  List.Perm.foldl_eq' h (fun x _ y _ z => Cplx.add_right_swap z x y) start

theorem sumFrom_start (start : Cplx) (l : List Cplx) :
    sumFrom start l = Cplx.add start (sumFrom ⟨Dbl.fin 0, Dbl.fin 0⟩ l) := by
  induction l generalizing start with
  | nil => simp only [sumFrom, List.foldl_nil, Cplx.add_zero_right]
  | cons t ts ih =>
    simp only [sumFrom, List.foldl_cons] at ih ⊢
    rw [ih (Cplx.add start t), ih (Cplx.add ⟨Dbl.fin 0, Dbl.fin 0⟩ t), ← Cplx.sum_assoc,
      ← Cplx.sum_assoc, Cplx.add_zero_right]

theorem sumFrom_append (start : Cplx) (l1 l2 : List Cplx) :
    sumFrom start (l1 ++ l2) = sumFrom (sumFrom start l1) l2 := by
  simp only [sumFrom, List.foldl_append]

/-- The numerator and denominator after the loop of Filter::update over pairs
of the filter's size: at every index the old value plus the terms of the
pairs, added in the order of the pairs. -/
theorem Filter.updateLoop_terms (X : Img → Nat → Cplx) (T : CvPoint → Nat → Cplx)
    (pairs : List ImgLocPairT) :
    ∀ (f : Filter), (∀ p ∈ pairs, p.1.size = (f.height, f.width)) →
      ∃ g, Filter.updateLoop X T f pairs = (none, g)
        ∧ g.height = f.height ∧ g.width = f.width
        ∧ ∀ k, k < f.nElements →
            g.mem.read Ptr.mosseNum k
                = sumFrom (f.mem.read Ptr.mosseNum k) (pairs.map (numTerm X T k))
            ∧ g.mem.read Ptr.mosseDen k
                = sumFrom (f.mem.read Ptr.mosseDen k) (pairs.map (denTerm X k)) := by
  induction pairs with
  | nil =>
    intro f _
    exact ⟨f, rfl, rfl, rfl, fun k _ => ⟨rfl, rfl⟩⟩
  | cons p pairs ih =>
    intro f hsize
    obtain ⟨im, loc⟩ := p
    have hp : im.size = (f.height, f.width) := hsize (im, loc) (List.mem_cons_self _ _)
    obtain ⟨f1, hf1, hterms⟩ := Filter.update_sample_terms f (X im) (T loc)
    have hsz := Filter.update_ok_size f f1 _ _ _ hf1
    obtain ⟨g, hg, hgh, hgw, hgk⟩ := ih f1 (fun q hq => by
      rw [hsz.2.1, hsz.2.2.1]
      exact hsize q (List.mem_cons_of_mem _ hq))
    refine ⟨g, ?_, hgh.trans hsz.2.1, hgw.trans hsz.2.2.1, ?_⟩
    · simp only [Filter.updateLoop, hp, hf1]
      exact hg
    · intro k hk
      have hk1 : k < f1.nElements := by
        simp only [Filter.nElements, hsz.2.1, hsz.2.2.1]
        exact hk
      have h1 := hgk k hk1
      have h0 := hterms k hk
      simp only [List.map_cons, sumFrom, List.foldl_cons] at h1 ⊢
      rw [h1.1, h1.2, h0.1, h0.2]
      exact ⟨rfl, rfl⟩

/-- C21. Batch accumulation by Filter::update does not depend on the order of
the samples: from every filter state, two sequences of samples of the filter's
size that are permutations of each other are both accepted and leave the same
numerator and the same denominator at every spectral index; and for three
filters fresh from the training constructor for one size, the numerator and
the denominator accumulated from the samples A followed by the samples B are,
at every index, the sum of those accumulated from A alone and from B alone. -/
theorem Filter.updateLoop_order_independent (X : Img → Nat → Cplx)
    (T : CvPoint → Nat → Cplx) (f : Filter) (pairs1 pairs2 A B : List ImgLocPairT)
    (h w : Nat) (mA mB mAB : Mem) (rate : Dbl)
    (hperm : pairs1.Perm pairs2)
    (hsize : ∀ p ∈ pairs1, p.1.size = (f.height, f.width))
    (hA : ∀ p ∈ A, p.1.size = (h, w)) (hB : ∀ p ∈ B, p.1.size = (h, w)) :
    (∃ g1 g2, Filter.updateLoop X T f pairs1 = (none, g1)
        ∧ Filter.updateLoop X T f pairs2 = (none, g2)
        ∧ ∀ k, k < f.nElements →
            g1.mem.read Ptr.mosseNum k = g2.mem.read Ptr.mosseNum k
            ∧ g1.mem.read Ptr.mosseDen k = g2.mem.read Ptr.mosseDen k)
      ∧ ∃ gA gB gAB, Filter.updateLoop X T (Filter.init h w mA rate) A = (none, gA)
          ∧ Filter.updateLoop X T (Filter.init h w mB rate) B = (none, gB)
          ∧ Filter.updateLoop X T (Filter.init h w mAB rate) (A ++ B) = (none, gAB)
          ∧ ∀ k, k < h * (w / 2 + 1) →
              gAB.mem.read Ptr.mosseNum k
                  = Cplx.add (gA.mem.read Ptr.mosseNum k) (gB.mem.read Ptr.mosseNum k)
              ∧ gAB.mem.read Ptr.mosseDen k
                  = Cplx.add (gA.mem.read Ptr.mosseDen k) (gB.mem.read Ptr.mosseDen k) := by
  constructor
  · obtain ⟨g1, h1, _, _, t1⟩ := Filter.updateLoop_terms X T pairs1 f hsize
    obtain ⟨g2, h2, _, _, t2⟩ := Filter.updateLoop_terms X T pairs2 f
      (fun p hp => hsize p (hperm.mem_iff.mpr hp))
    refine ⟨g1, g2, h1, h2, fun k hk => ?_⟩
    rw [(t1 k hk).1, (t1 k hk).2, (t2 k hk).1, (t2 k hk).2]
    exact ⟨sumFrom_perm _ _ _ (hperm.map _), sumFrom_perm _ _ _ (hperm.map _)⟩
  · obtain ⟨gA, hgA, _, _, tA⟩ := Filter.updateLoop_terms X T A (Filter.init h w mA rate) hA
    obtain ⟨gB, hgB, _, _, tB⟩ := Filter.updateLoop_terms X T B (Filter.init h w mB rate) hB
    obtain ⟨gAB, hgAB, _, _, tAB⟩ := Filter.updateLoop_terms X T (A ++ B)
      (Filter.init h w mAB rate) (fun p hp => by
        rcases List.mem_append.mp hp with hp | hp
        · exact hA p hp
        · exact hB p hp)
    refine ⟨gA, gB, gAB, hgA, hgB, hgAB, fun k hk => ?_⟩
    have zA := Filter.init_zero h w mA rate k hk
    have zB := Filter.init_zero h w mB rate k hk
    have zAB := Filter.init_zero h w mAB rate k hk
    rw [(tA k hk).1, (tA k hk).2, (tB k hk).1, (tB k hk).2, (tAB k hk).1, (tAB k hk).2,
      zA.1, zA.2, zB.1, zB.2, zAB.1, zAB.2, List.map_append, List.map_append,
      sumFrom_append, sumFrom_append]
    exact ⟨sumFrom_start _ _, sumFrom_start _ _⟩

theorem Filter.updateLoop_order_independent_witness :
    (∃ g1 g2,
        Filter.updateLoop sampleSpectra sampleTargets (sampleFilter 0)
            [(Img.loaded 0 1 2, ⟨0, 0⟩), (Img.loaded 1 1 2, ⟨1, 0⟩)] = (none, g1)
        ∧ Filter.updateLoop sampleSpectra sampleTargets (sampleFilter 0)
            [(Img.loaded 1 1 2, ⟨1, 0⟩), (Img.loaded 0 1 2, ⟨0, 0⟩)] = (none, g2)
        ∧ ∀ k, k < (sampleFilter 0).nElements →
            g1.mem.read Ptr.mosseNum k = g2.mem.read Ptr.mosseNum k
            ∧ g1.mem.read Ptr.mosseDen k = g2.mem.read Ptr.mosseDen k)
      ∧ ∃ gA gB gAB,
          Filter.updateLoop sampleSpectra sampleTargets (Filter.init 1 2 sampleMem 0)
              [(Img.loaded 0 1 2, ⟨0, 0⟩)] = (none, gA)
          ∧ Filter.updateLoop sampleSpectra sampleTargets
              (Filter.init 1 2 sampleMem 0) [(Img.loaded 1 1 2, ⟨1, 0⟩)] = (none, gB)
          ∧ Filter.updateLoop sampleSpectra sampleTargets
              (Filter.init 1 2 sampleMem 0)
              ([(Img.loaded 0 1 2, ⟨0, 0⟩)] ++ [(Img.loaded 1 1 2, ⟨1, 0⟩)]) = (none, gAB)
          ∧ ∀ k, k < 1 * (2 / 2 + 1) →
              gAB.mem.read Ptr.mosseNum k
                  = Cplx.add (gA.mem.read Ptr.mosseNum k) (gB.mem.read Ptr.mosseNum k)
              ∧ gAB.mem.read Ptr.mosseDen k
                  = Cplx.add (gA.mem.read Ptr.mosseDen k) (gB.mem.read Ptr.mosseDen k) :=
  Filter.updateLoop_order_independent sampleSpectra sampleTargets (sampleFilter 0)
    [(Img.loaded 0 1 2, ⟨0, 0⟩), (Img.loaded 1 1 2, ⟨1, 0⟩)]
    [(Img.loaded 1 1 2, ⟨1, 0⟩), (Img.loaded 0 1 2, ⟨0, 0⟩)]
    [(Img.loaded 0 1 2, ⟨0, 0⟩)] [(Img.loaded 1 1 2, ⟨1, 0⟩)] 1 2 sampleMem sampleMem sampleMem 0
    (List.Perm.swap _ _ _) (by simp [Img.size, sampleFilter]) (by simp [Img.size])
    (by simp [Img.size])

theorem Cplx.mul_conj_finite (u : Cplx) (h : u.isFinite = true) :
    Cplx.mul u (Cplx.conj u) = ⟨Dbl.fin u.sqNorm, Dbl.fin 0⟩ := by
  obtain ⟨re, im⟩ := u
  cases re <;> cases im <;> simp [Cplx.isFinite, Dbl.isFinite] at h
  simp only [Cplx.mul, Cplx.conj, Cplx.sqNorm, Dbl.fin_neg, Dbl.fin_mul, Dbl.fin_sub,
    Dbl.fin_add]
  congr 2 <;> ring

theorem Cplx.sqNorm_nonneg (u : Cplx) : 0 ≤ u.sqNorm := by
  obtain ⟨re, im⟩ := u
  cases re with
  | fin a =>
    cases im with
    | fin b => exact add_nonneg (mul_self_nonneg a) (mul_self_nonneg b)
    | nan => exact le_refl 0
  | nan => cases im <;> exact le_refl 0

theorem Cplx.sqNorm_pos (u : Cplx) (h : u.isFinite = true) (hne : u ≠ ⟨Dbl.fin 0, Dbl.fin 0⟩) :
    0 < u.sqNorm := by
  obtain ⟨re, im⟩ := u
  cases re <;> cases im <;> simp [Cplx.isFinite, Dbl.isFinite] at h
  rename_i a b
  simp only [Cplx.sqNorm]
  have hab : a ≠ 0 ∨ b ≠ 0 := by
    by_contra hc
    push_neg at hc
    exact hne (by rw [hc.1, hc.2])
  rcases hab with ha | hb
  · have := mul_self_pos.mpr ha
    have := mul_self_nonneg b
    linarith
  · have := mul_self_pos.mpr hb
    have := mul_self_nonneg a
    linarith

theorem sumFrom_real (r : ℚ) (qs : List ℚ) :
    sumFrom ⟨Dbl.fin r, Dbl.fin 0⟩ (qs.map (fun q => (⟨Dbl.fin q, Dbl.fin 0⟩ : Cplx)))
      = ⟨Dbl.fin (r + qs.sum), Dbl.fin 0⟩ := by
  induction qs generalizing r with
  | nil => simp [sumFrom]
  | cons q qs ih =>
    simp only [sumFrom, List.map_cons, List.foldl_cons, List.sum_cons] at ih ⊢
    simp only [Cplx.add, Dbl.fin_add, add_zero]
    rw [ih (r + q), add_assoc]

theorem sum_pos_of_mem (qs : List ℚ) (hnn : ∀ q ∈ qs, 0 ≤ q) (q : ℚ) (hq : q ∈ qs)
    (hpos : 0 < q) : 0 < qs.sum := by
  induction qs with
  | nil => cases hq
  | cons a as ih =>
    rw [List.sum_cons]
    have ha : 0 ≤ a := hnn a (List.mem_cons_self _ _)
    have has : 0 ≤ as.sum := List.sum_nonneg (fun x hx => hnn x (List.mem_cons_of_mem _ hx))
    rcases List.mem_cons.mp hq with h | h
    · rw [← h]
      linarith
    · have := ih (fun x hx => hnn x (List.mem_cons_of_mem _ hx)) h
      linarith

/-! ## The warning of Filter::loadFilter -/

theorem countWarnings_step (atoi : String → Int) (strtod : String → Dbl) (s s1 : LoadState)
    (line : String) (rest : List String) (hne : line ≠ "")
    (h : processLine atoi strtod s line = some s1) :
    countWarnings atoi strtod s (line :: rest)
      = (if warnsOn strtod s line then 1 else 0) + countWarnings atoi strtod s1 rest := by
  rw [countWarnings, if_neg hne, h]

theorem countWarnings_stop (atoi : String → Int) (strtod : String → Dbl) (s : LoadState)
    (trailer : List String) (h : trailer.headD "" = "") :
    countWarnings atoi strtod s trailer = 0 := by
  cases trailer with
  | nil => rfl
  | cons l ls =>
    simp only [List.headD_cons] at h
    simp [countWarnings, h]

theorem warnsOn_value (strtod : String → Dbl) (s : LoadState) (line : String)
    (hlen : s.length ≠ 0) (hv : isValueLine line = true) :
    warnsOn strtod s line
      = (if s.isNumeratorTerm then false
          else decide ((valuePair strtod line).im ≠ Dbl.fin 0)) := by
  obtain ⟨t0, t1, ht⟩ := isValueLine_tokens line hv
  simp only [isValueLine, Bool.and_eq_true, decide_eq_true_eq, Bool.not_eq_true'] at hv
  simp only [warnsOn, if_neg hlen, hv.1.2, hv.2, ht, valuePair]
  simp

theorem countWarnings_values (atoi : String → Int) (strtod : String → Dbl)
    (vls rest : List String) :
    ∀ (s : LoadState), s.length ≠ 0 → (∀ l ∈ vls, isValueLine l = true) →
      s.index + vls.length ≤ s.filter.nElements →
      countWarnings atoi strtod s (vls ++ rest)
        = (if s.isNumeratorTerm then 0 else nonRealLines strtod vls)
          + countWarnings atoi strtod { s with
              filter := { s.filter with
                mem := writeValues strtod
                  (if s.isNumeratorTerm then Ptr.mosseNum else Ptr.mosseDen)
                  s.index vls s.filter.mem }
              index := s.index + vls.length } rest := by
  induction vls with
  | nil =>
    intro s _ _ _
    have e : (if s.isNumeratorTerm then 0 else nonRealLines strtod []) = 0 := by
      cases s.isNumeratorTerm <;> rfl
    rw [e, Nat.zero_add]
    rfl
  | cons l vls ih =>
    intro s hlen hv hi
    have hl := hv l (List.mem_cons_self _ _)
    simp only [List.length_cons] at hi
    rw [List.cons_append, countWarnings_step atoi strtod s _ l _ (isValueLine_ne_empty l hl)
      (processLine_value atoi strtod s l hlen hl (by omega)), warnsOn_value strtod s l hlen hl]
    refine (congrArg _ (ih _ ?_ ?_ ?_)).trans ?_
    · exact hlen
    · exact fun q hq => hv q (List.mem_cons_of_mem _ hq)
    · simp only [Filter.nElements] at hi ⊢
      omega
    · simp only [writeValues, List.length_cons, nonRealLines, List.countP_cons]
      have e : s.index + 1 + vls.length = s.index + (vls.length + 1) := by omega
      rw [e]
      cases hn : s.isNumeratorTerm <;> simp
      all_goals omega

theorem countWarnings_sized_values (atoi : String → Int) (strtod : String → Dbl) (f0 : Filter)
    (h w : Nat) (isNum : Bool) (index : Nat) (m : Mem) (vls rest : List String)
    (hne : h * w ≠ 0) (hv : ∀ l ∈ vls, isValueLine l = true)
    (hi : index + vls.length ≤ h * (w / 2 + 1)) :
    countWarnings atoi strtod (sizedState f0 h w isNum index m) (vls ++ rest)
      = (if isNum then 0 else nonRealLines strtod vls)
        + countWarnings atoi strtod
          (sizedState f0 h w isNum (index + vls.length)
            (writeValues strtod (if isNum then Ptr.mosseNum else Ptr.mosseDen) index vls m))
          rest := by
  have h1 : ¬ ((h : Int) * (w : Int) = 0) := by exact_mod_cast hne
  exact countWarnings_values atoi strtod vls rest (sizedState f0 h w isNum index m) h1 hv hi

theorem warnsOn_size (strtod : String → Dbl) (f0 : Filter) (line : String) :
    warnsOn strtod
        { filter := f0, length := 0, height := 0, width := 0, isNumeratorTerm := true,
          index := 0, sized := false } line = false := by
  simp [warnsOn]

theorem warnsOn_numerator (strtod : String → Dbl) (s : LoadState) :
    warnsOn strtod s "Numerator" = false := by
  have h2 : containsSub "Numerator" "Numerator" = true := by decide
  simp [warnsOn, h2]

theorem warnsOn_denominator (strtod : String → Dbl) (s : LoadState) :
    warnsOn strtod s "Denominator" = false := by
  have h3 : containsSub "Denominator" "Denominator" = true := by decide
  simp [warnsOn, h3]

/-- The warnings of Filter::loadFilter on a file made of a name, a size line,
the numerator marker and value lines, the denominator marker and value lines,
with no more value lines in either section than the arrays hold: one for each
denominator line whose imaginary part is not 0. -/
theorem Filter.loadWarnings_sections (f : Filter) (atoi : String → Int)
    (strtod : String → Dbl) (name sizeLine th tw : String) (h w : Nat)
    (numLines denLines trailer : List String)
    (ht : tokens sizeLine = [th, tw]) (hh : atoi th = (h : Int)) (hw : atoi tw = (w : Int))
    (hne : h * w ≠ 0) (hlt : h * w < 2 ^ 31)
    (hnum : ∀ l ∈ numLines, isValueLine l = true)
    (hden : ∀ l ∈ denLines, isValueLine l = true)
    (hnlen : numLines.length ≤ h * (w / 2 + 1))
    (hdlen : denLines.length ≤ h * (w / 2 + 1))
    (htr : trailer.headD "" = "") :
    f.loadWarnings atoi strtod
        (some (name :: sizeLine :: "Numerator"
          :: (numLines ++ "Denominator" :: (denLines ++ trailer))))
      = some (nonRealLines strtod denLines) := by
  have hpos : 0 < h := Nat.pos_of_ne_zero (fun hc => hne (by rw [hc, Nat.zero_mul]))
  simp only [Filter.loadWarnings, List.headD_cons, List.tail_cons]
  rw [loadLines_step atoi strtod _ _ sizeLine _ (tokens_ne_empty _ _ _ ht)
      (processLine_size atoi strtod _ sizeLine th tw h w ht hh hw hpos hlt),
    loadLines_step atoi strtod _ _ "Numerator" _ (by decide)
      (processLine_numerator atoi strtod _ h w true 0 _ hne),
    loadLines_sized_values atoi strtod _ h w true 0 _ numLines _ hne hnum (by omega),
    loadLines_step atoi strtod _ _ "Denominator" _ (by decide)
      (processLine_denominator atoi strtod _ h w true _ _ hne),
    loadLines_sized_values atoi strtod _ h w false 0 _ denLines trailer hne hden (by omega),
    loadLines_stop atoi strtod _ trailer htr]
  rw [countWarnings_step atoi strtod _ _ sizeLine _ (tokens_ne_empty _ _ _ ht)
      (processLine_size atoi strtod _ sizeLine th tw h w ht hh hw hpos hlt),
    countWarnings_step atoi strtod _ _ "Numerator" _ (by decide)
      (processLine_numerator atoi strtod _ h w true 0 _ hne),
    countWarnings_sized_values atoi strtod _ h w true 0 _ numLines _ hne hnum (by omega),
    countWarnings_step atoi strtod _ _ "Denominator" _ (by decide)
      (processLine_denominator atoi strtod _ h w true _ _ hne),
    countWarnings_sized_values atoi strtod _ h w false 0 _ denLines trailer hne hden (by omega),
    countWarnings_stop atoi strtod _ trailer htr, warnsOn_size, warnsOn_numerator,
    warnsOn_denominator]
  simp [sizedState]

theorem Filter.save_lines (g : Filter) (names : Tag → Option String) (fmt : Dbl → String)
    (name : String) (hf : g.hasFilter = true) (hn : names g.xmlTag = some name) :
    g.save names fmt
      = Except.ok (name :: (toString g.height ++ " " ++ toString g.width) :: "Numerator"
          :: (savedLines g fmt Ptr.mosseNum
            ++ "Denominator" :: (savedLines g fmt Ptr.mosseDen ++ []))) := by
  simp [Filter.save, hf, hn, savedLines]

theorem length_flatMap_const {α β : Type} (l : List α) (F : α → List β) (c : Nat)
    (h : ∀ a, (F a).length = c) : (l.flatMap F).length = l.length * c := by
  induction l with
  | nil => simp
  | cons a l ih => simp [List.flatMap_cons, h, ih, Nat.succ_mul, Nat.add_comm]

theorem savedLines_length (g : Filter) (fmt : Dbl → String) (p : Ptr) :
    (savedLines g fmt p).length = g.height * (g.width / 2 + 1) := by
  rw [savedLines, length_flatMap_const _ _ (g.width / 2 + 1) (fun i => by simp),
    List.length_range]

theorem savedLines_mem (g : Filter) (fmt : Dbl → String) (p : Ptr) (l : String)
    (h : l ∈ savedLines g fmt p) :
    ∃ k, k < g.nElements ∧ l = fmt (g.mem.read p k).re ++ " " ++ fmt (g.mem.read p k).im := by
  simp only [savedLines, List.mem_flatMap, List.mem_map, List.mem_range] at h
  obtain ⟨i, hi, j, hj, rfl⟩ := h
  refine ⟨i * (g.width / 2 + 1) + j, ?_, rfl⟩
  simp only [Filter.nElements]
  calc i * (g.width / 2 + 1) + j < i * (g.width / 2 + 1) + (g.width / 2 + 1) := by omega
    _ = (i + 1) * (g.width / 2 + 1) := by ring
    _ ≤ g.height * (g.width / 2 + 1) := Nat.mul_le_mul_right _ hi

theorem nonRealLines_zero (strtod : String → Dbl) (ls : List String)
    (h : ∀ l ∈ ls, (valuePair strtod l).im = Dbl.fin 0) : nonRealLines strtod ls = 0 := by
  simp only [nonRealLines, List.countP_eq_zero]
  intro l hl
  simp [h l hl]

/-- A filter whose denominator entries all have imaginary part 0 is saved to a
file on which loadFilter prints no warning, when the text written for a double
is one token that holds neither marker, and the text written for 0 is read back
as 0. -/
theorem Filter.save_load_no_warning (g f0 : Filter) (names : Tag → Option String)
    (fmt : Dbl → String) (atoi : String → Int) (strtod : String → Dbl) (name : String)
    (hf : g.hasFilter = true) (hn : names g.xmlTag = some name)
    (hne : g.height * g.width ≠ 0) (hlt : g.height * g.width < 2 ^ 31)
    (hsize : tokens (toString g.height ++ " " ++ toString g.width)
      = [toString g.height, toString g.width])
    (hh : atoi (toString g.height) = (g.height : Int))
    (hw : atoi (toString g.width) = (g.width : Int))
    (hfmt : ∀ a b : Dbl, isValueLine (fmt a ++ " " ++ fmt b) = true
      ∧ tokens (fmt a ++ " " ++ fmt b) = [fmt a, fmt b])
    (hzero : strtod (fmt (Dbl.fin 0)) = Dbl.fin 0)
    (hden : ∀ k, k < g.nElements → (g.mem.read Ptr.mosseDen k).im = Dbl.fin 0) :
    ∃ lines, g.save names fmt = Except.ok lines
      ∧ f0.loadWarnings atoi strtod (some lines) = some 0 := by
  refine ⟨_, Filter.save_lines g names fmt name hf hn, ?_⟩
  have hval : ∀ p, ∀ l ∈ savedLines g fmt p, isValueLine l = true := by
    intro p l hl
    obtain ⟨k, _, rfl⟩ := savedLines_mem g fmt p l hl
    exact (hfmt _ _).1
  rw [Filter.loadWarnings_sections f0 atoi strtod name _ _ _ g.height g.width _ _ []
    hsize hh hw hne hlt (hval _) (hval _) (le_of_eq (savedLines_length _ _ _))
    (le_of_eq (savedLines_length _ _ _)) rfl]
  rw [nonRealLines_zero]
  intro l hl
  obtain ⟨k, hk, rfl⟩ := savedLines_mem g fmt Ptr.mosseDen l hl
  simp only [valuePair, (hfmt _ _).2, hden k hk, hzero]

/-- On a file whose second denominator line has the imaginary part 1,
loadFilter prints its warning once. -/
theorem Filter.loadWarnings_counts :
    (Filter.blank sampleMem).loadWarnings digitsValue digitsDbl
        (some ["MOSSE_LeftEye", "1 2", "Numerator", "1 2", "3 4", "Denominator", "5 0", "6 1"])
      = some 1 := by
  decide!

/-! ## The denominator -/

/-- C28 (counterexample). The invariant does not hold after any sequence of
updates: one step of Filter::update from the empty state on a sample whose
spectrum is not finite (as the preprocessing yields for a constant frame, whose
sum of squares is 0) is accepted and leaves a denominator entry whose imaginary
part is not 0. -/
theorem Filter.denominator_nonfinite_sample :
    ∃ g, Filter.updateLoop (fun _ => nanSpectrum) sampleTargets (Filter.init 1 2 sampleMem 0)
          [(Img.loaded 0 1 2, ⟨0, 0⟩)] = (none, g)
      ∧ g.mem.read Ptr.mosseDen 1 = ⟨Dbl.nan, Dbl.nan⟩
      ∧ (g.mem.read Ptr.mosseDen 1).im ≠ Dbl.fin 0 := by
  obtain ⟨g, hg, _, _, tg⟩ := Filter.updateLoop_terms (fun _ => nanSpectrum) sampleTargets
    [(Img.loaded 0 1 2, ⟨0, 0⟩)] (Filter.init 1 2 sampleMem 0) (by simp [Img.size, Filter.init])
  have h : g.mem.read Ptr.mosseDen 1 = ⟨Dbl.nan, Dbl.nan⟩ := by
    rw [(tg 1 (by decide)).2]
    rfl
  refine ⟨g, hg, h, ?_⟩
  rw [h]
  decide

/-- C28 (amended). Denominator invariant.  From the training constructor, after the loop
of Filter::update over any samples of the filter's size with finite spectra,
every denominator entry is real: its imaginary part is 0 and its real part is
the sum over the samples of X_re^2 + X_im^2 at that index, which is not
negative, and positive as soon as the spectrum of one sample is not zero
there.  OnlineFilter::onlineUpdate with a learning rate a between 0 and 1, on
a finite spectrum held outside `fftBuffer` and outside the pool buffers it
acquires, turns an entry r + 0i with r not negative into
(a * (X_re^2 + X_im^2) + (1 - a) * r) + 0i, which is not negative, and
positive when r is positive and a below 1, or a positive and X not zero.
A created filter whose denominator entries all have imaginary part 0 is saved
by Filter::save to a file on which Filter::loadFilter prints its warning about
a non-zero imaginary part in the denominator not once, when the text written
for a double is one token that holds neither marker, the text written for 0 is
read back as 0, and the size line is read back as the size. -/
theorem Filter.denominator_real (X : Img → Nat → Cplx) (T : CvPoint → Nat → Cplx)
    (h w : Nat) (m : Mem) (rate : Dbl) (pairs : List ImgLocPairT)
    (f : Filter) (p : Ptr) (Tg : Nat → Cplx) (a : ℚ)
    (hsize : ∀ q ∈ pairs, q.1.size = (h, w))
    (hfin : ∀ q ∈ pairs, ∀ k, (X q.1 k).isFinite = true)
    (hs : f.storageIndex < nComplexVectors) (hf : p ≠ Ptr.fftBuffer)
    (hpool : ∀ i, i < 3 → p ≠ Ptr.pool ((f.storageIndex + i) % nComplexVectors))
    (hrate : f.learningRate = Dbl.fin a) (ha0 : 0 ≤ a) (ha1 : a ≤ 1) :
    (∃ g, Filter.updateLoop X T (Filter.init h w m rate) pairs = (none, g)
      ∧ ∀ k, k < h * (w / 2 + 1) →
          g.mem.read Ptr.mosseDen k
              = ⟨Dbl.fin ((pairs.map (fun q => (X q.1 k).sqNorm)).sum), Dbl.fin 0⟩
          ∧ 0 ≤ (pairs.map (fun q => (X q.1 k).sqNorm)).sum
          ∧ ((∃ q ∈ pairs, X q.1 k ≠ ⟨Dbl.fin 0, Dbl.fin 0⟩) →
              0 < (pairs.map (fun q => (X q.1 k).sqNorm)).sum))
    ∧ (∀ k, k < f.nElements → ∀ r : ℚ, f.mem.read Ptr.mosseDen k = ⟨Dbl.fin r, Dbl.fin 0⟩ →
        0 ≤ r → (f.mem.read p k).isFinite = true →
        (f.onlineUpdate p Tg).mem.read Ptr.mosseDen k
            = ⟨Dbl.fin (a * (f.mem.read p k).sqNorm + (1 - a) * r), Dbl.fin 0⟩
        ∧ 0 ≤ a * (f.mem.read p k).sqNorm + (1 - a) * r
        ∧ ((0 < r ∧ a < 1) ∨ (0 < a ∧ f.mem.read p k ≠ ⟨Dbl.fin 0, Dbl.fin 0⟩) →
            0 < a * (f.mem.read p k).sqNorm + (1 - a) * r))
    ∧ ∀ (gs f0 : Filter) (names : Tag → Option String) (fmt : Dbl → String)
        (atoi : String → Int) (strtod : String → Dbl) (name : String),
        gs.hasFilter = true → names gs.xmlTag = some name →
        gs.height * gs.width ≠ 0 → gs.height * gs.width < 2 ^ 31 →
        tokens (toString gs.height ++ " " ++ toString gs.width)
          = [toString gs.height, toString gs.width] →
        atoi (toString gs.height) = (gs.height : Int) →
        atoi (toString gs.width) = (gs.width : Int) →
        (∀ x y : Dbl, isValueLine (fmt x ++ " " ++ fmt y) = true
          ∧ tokens (fmt x ++ " " ++ fmt y) = [fmt x, fmt y]) →
        strtod (fmt (Dbl.fin 0)) = Dbl.fin 0 →
        (∀ k, k < gs.nElements → (gs.mem.read Ptr.mosseDen k).im = Dbl.fin 0) →
        ∃ lines, gs.save names fmt = Except.ok lines
          ∧ f0.loadWarnings atoi strtod (some lines) = some 0 := by
  refine ⟨?_, ?_, ?_⟩
  · obtain ⟨g, hg, _, _, tg⟩ := Filter.updateLoop_terms X T pairs (Filter.init h w m rate) hsize
    refine ⟨g, hg, fun k hk => ⟨?_, ?_, ?_⟩⟩
    · have hmap : pairs.map (denTerm X k)
          = (pairs.map (fun q => (X q.1 k).sqNorm)).map
              (fun q => (⟨Dbl.fin q, Dbl.fin 0⟩ : Cplx)) := by
        rw [List.map_map]
        exact List.map_congr_left (fun q hq => Cplx.mul_conj_finite _ (hfin q hq k))
      rw [(tg k hk).2, (Filter.init_zero h w m rate k hk).2, hmap, sumFrom_real, zero_add]
    · exact List.sum_nonneg (fun x hx => by
        obtain ⟨q, _, rfl⟩ := List.mem_map.mp hx
        exact Cplx.sqNorm_nonneg _)
    · rintro ⟨q, hq, hne⟩
      exact sum_pos_of_mem _ (fun x hx => by
          obtain ⟨q1, _, rfl⟩ := List.mem_map.mp hx
          exact Cplx.sqNorm_nonneg _) _
        (List.mem_map.mpr ⟨q, hq, rfl⟩) (Cplx.sqNorm_pos _ (hfin q hq k) hne)
  · intro k hk r hden hr hX
    have hn := Cplx.sqNorm_nonneg (f.mem.read p k)
    have h1a : 0 ≤ 1 - a := by linarith
    refine ⟨?_, add_nonneg (mul_nonneg ha0 hn) (mul_nonneg h1a hr), ?_⟩
    · rw [(Filter.onlineUpdate_terms f p Tg hs hf hpool k hk).2, Cplx.mul_conj_finite _ hX,
        hden, hrate]
      simp only [Dbl.one_def, Dbl.fin_sub, Dbl.fin_mul, Dbl.fin_add, mul_zero, add_zero]
    · rintro (⟨hr0, ha⟩ | ⟨ha, hne⟩)
      · have : 0 < (1 - a) * r := mul_pos (by linarith) hr0
        have := mul_nonneg ha0 hn
        linarith
      · have : 0 < a * (f.mem.read p k).sqNorm := mul_pos ha (Cplx.sqNorm_pos _ hX hne)
        have := mul_nonneg h1a hr
        linarith
  · intro gs f0 names fmt atoi strtod name hgf hn hne hlt hsz hah haw hfmt hzero hden
    exact Filter.save_load_no_warning gs f0 names fmt atoi strtod name hgf hn hne hlt hsz hah
      haw hfmt hzero hden

theorem Filter.denominator_real_witness :
    (∃ g, Filter.updateLoop sampleSpectra sampleTargets (Filter.init 1 2 sampleMem 0)
          [(Img.loaded 0 1 2, ⟨0, 0⟩), (Img.loaded 3 1 2, ⟨1, 0⟩)] = (none, g)
      ∧ g.mem.read Ptr.mosseDen 1 = ⟨Dbl.fin 11, Dbl.fin 0⟩)
    ∧ (realDenFilter.onlineUpdate (Ptr.ext 0) sampleT).mem.read Ptr.mosseDen 1
        = ⟨Dbl.fin 32, Dbl.fin 0⟩
    ∧ realDenSaved.save sampleNames sampleFmt
        = Except.ok ["MOSSE_LeftEye", "1 2", "Numerator", "3 3", "3 3", "Denominator", "3 0",
            "3 0"]
    ∧ (Filter.blank sampleMem).loadWarnings digitsValue digitsDbl
        (some ["MOSSE_LeftEye", "1 2", "Numerator", "3 3", "3 3", "Denominator", "3 0", "3 0"])
        = some 0 := by
  have h := Filter.denominator_real sampleSpectra sampleTargets 1 2 sampleMem 0
    [(Img.loaded 0 1 2, ⟨0, 0⟩), (Img.loaded 3 1 2, ⟨1, 0⟩)] realDenFilter
    (Ptr.ext 0) sampleT (1 / 2) (by simp [Img.size])
    (by
      intro q hq k
      simp only [List.mem_cons, List.mem_singleton, List.not_mem_nil, or_false] at hq
      rcases hq with rfl | rfl <;> rfl)
    (by decide) (by simp) (by intro i _; simp) rfl (by norm_num) (by norm_num)
  obtain ⟨⟨g, hg, hk⟩, hon, hsave⟩ := h
  have hs : realDenSaved.save sampleNames sampleFmt
      = Except.ok ["MOSSE_LeftEye", "1 2", "Numerator", "3 3", "3 3", "Denominator", "3 0",
          "3 0"] := by
    rfl
  obtain ⟨lines, hl, hw⟩ := hsave realDenSaved (Filter.blank sampleMem) sampleNames sampleFmt
    digitsValue digitsDbl "MOSSE_LeftEye" rfl rfl (by decide) (by decide) (by decide)
    (by decide) (by decide)
    (fun x y => by
      by_cases hx : x = Dbl.fin 0 <;> by_cases hy : y = Dbl.fin 0 <;>
        simp only [sampleFmt, hx, hy, if_true, if_false] <;> decide)
    (by simp [sampleFmt, digitsDbl, digitsValue]) (fun k _ => rfl)
  rw [hs] at hl
  cases hl
  refine ⟨⟨g, hg, ?_⟩, ?_, hs, hw⟩
  · rw [(hk 1 (by decide)).1]
    simp [sampleSpectra, Cplx.sqNorm]
    norm_num
  · rw [(hon 1 (by decide) 3 rfl (by norm_num) rfl).1]
    simp [realDenFilter, Cplx.sqNorm]
    norm_num

/-! ## Filter::createGaussian -/

theorem spacer_loop (start : ℚ) (n : Nat) :
    forRange n (fun _ (s : List Dbl × Dbl) => (s.1 ++ [s.2], s.2 + 1)) ([], Dbl.fin start)
      = ((List.range n).map (fun (t : Nat) => Dbl.fin (start + (t : ℚ))),
          Dbl.fin (start + (n : ℚ))) := by
  induction n with
  | zero => simp [forRange_zero]
  | succ n ih =>
    rw [forRange_succ, ih]
    simp only [List.range_succ, List.map_append, List.map_cons, List.map_nil, Dbl.one_def,
      Dbl.fin_add, Nat.cast_add, Nat.cast_one, add_assoc]

theorem spacer_getD (start : ℚ) (n j : Nat) (hj : j < n) :
    (spacer (Dbl.fin start) n).getD j 0 = Dbl.fin (start + (j : ℚ)) := by
  simp only [spacer, spacer_loop]
  rw [List.getD_eq_getElem _ _ (by simpa using hj)]
  simp

/-- The cell of the Gaussian in exact arithmetic, for a standard deviation
other than 0: the argument handed to `exp`. -/
theorem Filter.gaussianCell_arg (f : Filter) (exp : Dbl → Dbl) (location : CvPoint)
    (sd : ℚ) (hsd : sd ≠ 0) (i j : Nat) (hi : i < f.height) (hj : j < f.width) :
    f.gaussianCell exp location (Dbl.fin sd) i j
      = exp (Dbl.fin (-(((((j : ℚ) - location.x) ^ 2 + ((i : ℚ) - location.y) ^ 2)) / sd))) := by
  have hdet : sd * sd ≠ 0 := mul_ne_zero hsd hsd
  simp only [Filter.gaussianCell, Dbl.ofInt, spacer_getD _ _ _ hi, spacer_getD _ _ _ hj,
    Dbl.fin_mul, Dbl.fin_add, Dbl.fin_div_of_ne _ hdet, Dbl.fin_neg]
  congr 2
  push_cast
  field_simp
  ring

/-- The thresholds of `expDouble`: the exponential of an argument at or below
-746 is less than 2^-1075, and that of an argument at or above 710 is more
than 2^1024. -/
theorem exp_thresholds (q : ℚ) :
    (q ≤ -746 → Real.exp (q : ℝ) < (2 : ℝ) ^ (-1075 : ℤ))
      ∧ (710 ≤ q → (2 : ℝ) ^ (1024 : ℕ) < Real.exp (q : ℝ)) := by
  have hl := Real.log_two_lt_d9
  constructor
  · intro hq
    have hq1 : (q : ℝ) ≤ -746 := by exact_mod_cast hq
    have h : (q : ℝ) < -((1075 : ℕ) * Real.log 2) := by
      push_cast
      linarith
    calc Real.exp (q : ℝ) < Real.exp (-((1075 : ℕ) * Real.log 2)) := Real.exp_lt_exp.mpr h
      _ = (2 : ℝ) ^ (-1075 : ℤ) := by
        rw [Real.exp_neg, Real.exp_nat_mul, Real.exp_log (by norm_num), zpow_neg]
        norm_cast
  · intro hq
    have hq1 : (710 : ℝ) ≤ (q : ℝ) := by exact_mod_cast hq
    have h : ((1024 : ℕ) * Real.log 2) < (q : ℝ) := by
      push_cast
      linarith
    calc (2 : ℝ) ^ (1024 : ℕ) = Real.exp ((1024 : ℕ) * Real.log 2) := by
          rw [Real.exp_nat_mul, Real.exp_log (by norm_num)]
      _ < Real.exp (q : ℝ) := Real.exp_lt_exp.mpr h

/-- The element of a list built row after row. -/
theorem getD_flatMap_rows {α : Type} (F : Nat → Nat → α) (w : Nat) (d : α) :
    ∀ (h i j : Nat), i < h → j < w →
      ((List.range h).flatMap (fun i => (List.range w).map (fun j => F i j))).getD
        (i * w + j) d = F i j := by
  intro h
  induction h with
  | zero => intro i j hi; omega
  | succ n ih =>
    intro i j hi hj
    have hlen : ((List.range n).flatMap (fun i => (List.range w).map (fun j => F i j))).length
        = n * w := by
      rw [length_flatMap_const _ _ w (fun i => by simp), List.length_range]
    rw [List.range_succ, List.flatMap_append]
    by_cases hin : i < n
    · have hlt : i * w + j < n * w := by
        calc i * w + j < i * w + w := by omega
          _ = (i + 1) * w := by ring
          _ ≤ n * w := Nat.mul_le_mul_right _ hin
      rw [List.getD_append _ _ _ _ (by rw [hlen]; exact hlt)]
      exact ih i j hin hj
    · have hi2 : i = n := by omega
      subst hi2
      rw [List.getD_append_right _ _ _ _ (by rw [hlen]; omega), hlen]
      simp [hj]

/-- C25 (counterexample). For a 64 by 64 filter, the location (0, 0) and the
standard deviation 1, which is above 0, the cell at row 63 and column 63 is
exactly 0, so it does not lie in (0, 1]: the exponent is -7938 and the
exponential underflows, whatever the rounded values of `exp` between -746 and
710 are. -/
theorem Filter.createGaussian_underflow :
    plainFilter.gaussianCell (expDouble sampleApprox) ⟨0, 0⟩ (Dbl.fin 1) 63 63 = Dbl.fin 0
      ∧ plainFilter.height = 64 ∧ plainFilter.width = 64 ∧ (0 : ℚ) < 1 := by
  refine ⟨?_, rfl, rfl, by norm_num⟩
  rw [Filter.gaussianCell_arg plainFilter _ ⟨0, 0⟩ 1 (by norm_num) 63 63 (by decide) (by decide)]
  simp only [expDouble]
  norm_num

/-- The function `expDouble` on an argument that is not above 0: a finite value
between 0 and 1, when the rounded exponential is. -/
theorem expDouble_range (approx : ℚ → ℚ)
    (happrox : ∀ q, q < 0 → 0 ≤ approx q ∧ approx q ≤ 1) (q : ℚ) (hq : q ≤ 0) :
    ∃ r, expDouble approx (Dbl.fin q) = Dbl.fin r ∧ 0 ≤ r ∧ r ≤ 1 := by
  simp only [expDouble]
  by_cases h0 : q = 0
  · exact ⟨1, by rw [if_pos h0], by norm_num, by norm_num⟩
  · by_cases h1 : q ≤ -746
    · exact ⟨0, by rw [if_neg h0, if_pos h1], by norm_num, by norm_num⟩
    · have h2 : ¬ (710 ≤ q) := by
        intro hc
        linarith
      have hneg : q < 0 := lt_of_le_of_ne hq h0
      exact ⟨approx q, by rw [if_neg h0, if_neg h1, if_neg h2], happrox q hneg⟩

/-- C25 (amended). Filter::createGaussian, the exponent taken in exact
arithmetic and `exp` the function of the C library on doubles.  For a standard
deviation sd other than 0 the cell at row i and column j of the grid, which is
element i * width + j of the image buffer handed to the forward transform, is
exp(-(((j - cx)^2 + (i - cy)^2) / sd)) with (cx, cy) the location.
Filter::update and OnlineFilter::onlineUpdate, for a spread g, build their
target with sd = g / 2.  The cell at the location itself is 1.  For sd above 0
every cell lies in [0, 1], the rounded exponential of a negative argument
lying there; it is exactly 0, and so not in (0, 1], where
((j - cx)^2 + (i - cy)^2) / sd is 746 or more. -/
theorem Filter.createGaussian_cell (f : Filter) (approx : ℚ → ℚ)
    (fft : List Dbl → Nat → Cplx) (location : CvPoint) (sd g : ℚ) (size : Nat × Nat)
    (X : Nat → Cplx) (p : Ptr) (i j : Nat) (hsd : sd ≠ 0) (hi : i < f.height)
    (hj : j < f.width) (happrox : ∀ q, q < 0 → 0 ≤ approx q ∧ approx q ≤ 1) :
    f.gaussianCell (expDouble approx) location (Dbl.fin sd) i j
        = expDouble approx
            (Dbl.fin (-((((j : ℚ) - location.x) ^ 2 + ((i : ℚ) - location.y) ^ 2) / sd)))
      ∧ (f.gaussianBuffer (expDouble approx) location (Dbl.fin sd)).getD (i * f.width + j) 0
        = f.gaussianCell (expDouble approx) location (Dbl.fin sd) i j
      ∧ f.updateAt (Dbl.fin g) (expDouble approx) fft size X location
        = f.update size X (fft (f.gaussianBuffer (expDouble approx) location (Dbl.fin (g / 2))))
      ∧ f.onlineUpdateAt (Dbl.fin g) (expDouble approx) fft p location
        = f.onlineUpdate p (fft (f.gaussianBuffer (expDouble approx) location (Dbl.fin (g / 2))))
      ∧ (location = ⟨(j : Int), (i : Int)⟩ →
          f.gaussianCell (expDouble approx) location (Dbl.fin sd) i j = Dbl.fin 1)
      ∧ (0 < sd → ∃ r, f.gaussianCell (expDouble approx) location (Dbl.fin sd) i j = Dbl.fin r
          ∧ 0 ≤ r ∧ r ≤ 1)
      ∧ (0 < sd → 746 ≤ (((j : ℚ) - location.x) ^ 2 + ((i : ℚ) - location.y) ^ 2) / sd →
          f.gaussianCell (expDouble approx) location (Dbl.fin sd) i j = Dbl.fin 0) := by
  have h1 := Filter.gaussianCell_arg f (expDouble approx) location sd hsd i j hi hj
  have e2 : Dbl.fin g / Dbl.fin 2 = Dbl.fin (g / 2) := Dbl.fin_div_of_ne g (by norm_num)
  refine ⟨h1, ?_, ?_, ?_, ?_, ?_, ?_⟩
  · exact getD_flatMap_rows (fun i j => f.gaussianCell (expDouble approx) location (Dbl.fin sd) i j)
      f.width 0 f.height i j hi hj
  · simp only [Filter.updateAt, e2]
  · simp only [Filter.onlineUpdateAt, e2]
  · intro hloc
    rw [h1, hloc]
    simp [expDouble]
  · intro hpos
    rw [h1]
    refine expDouble_range approx happrox _ ?_
    have hnum : (0 : ℚ) ≤ ((j : ℚ) - location.x) ^ 2 + ((i : ℚ) - location.y) ^ 2 := by
      positivity
    have := div_nonneg hnum hpos.le
    linarith
  · intro hpos hfar
    rw [h1]
    have h0 : ¬ (-((((j : ℚ) - location.x) ^ 2 + ((i : ℚ) - location.y) ^ 2) / sd) = 0) := by
      intro hc
      linarith
    have h2 : -((((j : ℚ) - location.x) ^ 2 + ((i : ℚ) - location.y) ^ 2) / sd) ≤ -746 := by
      linarith
    simp only [expDouble, if_neg h0, if_pos h2]

theorem Filter.createGaussian_cell_witness :
    plainFilter.gaussianCell (expDouble sampleApprox) ⟨0, 0⟩ (Dbl.fin 2) 0 0 = Dbl.fin 1
      ∧ plainFilter.gaussianCell (expDouble sampleApprox) ⟨0, 0⟩ (Dbl.fin 2) 1 1
        = expDouble sampleApprox (Dbl.fin (-1))
      ∧ (∃ r, plainFilter.gaussianCell (expDouble sampleApprox) ⟨0, 0⟩ (Dbl.fin 2) 1 1
          = Dbl.fin r ∧ 0 ≤ r ∧ r ≤ 1)
      ∧ plainFilter.gaussianCell (expDouble sampleApprox) ⟨0, 0⟩ (Dbl.fin 2) 63 63 = Dbl.fin 0
      ∧ plainFilter.updateAt (Dbl.fin 4) (expDouble sampleApprox) sampleFft (64, 64) sampleX
          ⟨0, 0⟩
        = plainFilter.update (64, 64) sampleX
            (sampleFft (plainFilter.gaussianBuffer (expDouble sampleApprox) ⟨0, 0⟩ (Dbl.fin 2))) := by
  have hap : ∀ q, q < 0 → 0 ≤ sampleApprox q ∧ sampleApprox q ≤ 1 := by
    intro q hq
    simp only [sampleApprox, if_pos hq]
    norm_num
  have e : (4 : ℚ) / 2 = 2 := by norm_num
  have h00 := Filter.createGaussian_cell plainFilter sampleApprox sampleFft ⟨0, 0⟩ 2 4 (64, 64)
    sampleX (Ptr.ext 0) 0 0 (by norm_num) (by decide) (by decide) hap
  have h11 := Filter.createGaussian_cell plainFilter sampleApprox sampleFft ⟨0, 0⟩ 2 4 (64, 64)
    sampleX (Ptr.ext 0) 1 1 (by norm_num) (by decide) (by decide) hap
  have h63 := Filter.createGaussian_cell plainFilter sampleApprox sampleFft ⟨0, 0⟩ 2 4 (64, 64)
    sampleX (Ptr.ext 0) 63 63 (by norm_num) (by decide) (by decide) hap
  refine ⟨h00.2.2.2.2.1 rfl, ?_, h11.2.2.2.2.2.1 (by norm_num),
    h63.2.2.2.2.2.2 (by norm_num) (by norm_num), ?_⟩
  · rw [h11.1]
    norm_num
  · rw [h00.2.2.1, e]

/-! ## The normalisation steps of Filter::preprocessImage -/

theorem dsum_fin_from (r : ℚ) (qs : List ℚ) :
    (qs.map Dbl.fin).foldl (fun acc v => acc + v) (Dbl.fin r) = Dbl.fin (r + qs.sum) := by
  induction qs generalizing r with
  | nil => simp
  | cons q qs ih =>
    simp only [List.map_cons, List.foldl_cons, Dbl.fin_add, List.sum_cons]
    rw [ih, add_assoc]

theorem dsum_fin (qs : List ℚ) : dsum (qs.map Dbl.fin) = Dbl.fin qs.sum := by
  simp only [dsum, Dbl.zero_def]
  rw [dsum_fin_from, zero_add]

theorem cvMin_fin (v : ℚ) (vs : List ℚ) :
    cvMin ((v :: vs).map Dbl.fin) = Dbl.fin (qMin v vs) := by
  simp only [cvMin, List.map_cons, qMin]
  induction vs generalizing v with
  | nil => rfl
  | cons x xs ih =>
    simp only [List.map_cons, List.foldl_cons, Dbl.lt]
    by_cases h : x < v
    · simp only [h, decide_True, if_true]
      exact ih x
    · simp only [h, decide_False, if_false]
      exact ih v

theorem cvMax_fin (v : ℚ) (vs : List ℚ) :
    cvMax ((v :: vs).map Dbl.fin) = Dbl.fin (qMax v vs) := by
  simp only [cvMax, List.map_cons, qMax]
  induction vs generalizing v with
  | nil => rfl
  | cons x xs ih =>
    simp only [List.map_cons, List.foldl_cons, Dbl.lt]
    by_cases h : v < x
    · simp only [h, decide_True, if_true]
      exact ih x
    · simp only [h, decide_False, if_false]
      exact ih v

theorem qMin_spec (v : ℚ) (vs : List ℚ) :
    qMin v vs ∈ v :: vs ∧ ∀ x ∈ v :: vs, qMin v vs ≤ x := by
  induction vs generalizing v with
  | nil => simp [qMin]
  | cons y ys ih =>
    simp only [qMin, List.foldl_cons]
    by_cases h : y < v
    · simp only [h, if_true]
      obtain ⟨h1, h2⟩ := ih y
      simp only [qMin] at h1 h2
      refine ⟨List.mem_cons_of_mem _ h1, ?_⟩
      intro x hx
      rcases List.mem_cons.mp hx with rfl | hx
      · exact le_trans (h2 y (List.mem_cons_self _ _)) h.le
      · exact h2 x hx
    · simp only [h, if_false]
      obtain ⟨h1, h2⟩ := ih v
      simp only [qMin] at h1 h2
      refine ⟨?_, ?_⟩
      · rcases List.mem_cons.mp h1 with h1 | h1
        · rw [h1]; exact List.mem_cons_self _ _
        · exact List.mem_cons_of_mem _ (List.mem_cons_of_mem _ h1)
      · intro x hx
        rcases List.mem_cons.mp hx with rfl | hx
        · exact h2 x (List.mem_cons_self _ _)
        · rcases List.mem_cons.mp hx with rfl | hx
          · exact le_trans (h2 v (List.mem_cons_self _ _)) (not_lt.mp h)
          · exact h2 x (List.mem_cons_of_mem _ hx)

theorem qMax_spec (v : ℚ) (vs : List ℚ) :
    qMax v vs ∈ v :: vs ∧ ∀ x ∈ v :: vs, x ≤ qMax v vs := by
  induction vs generalizing v with
  | nil => simp [qMax]
  | cons y ys ih =>
    simp only [qMax, List.foldl_cons]
    by_cases h : v < y
    · simp only [h, if_true]
      obtain ⟨h1, h2⟩ := ih y
      simp only [qMax] at h1 h2
      refine ⟨List.mem_cons_of_mem _ h1, ?_⟩
      intro x hx
      rcases List.mem_cons.mp hx with rfl | hx
      · exact le_trans h.le (h2 y (List.mem_cons_self _ _))
      · exact h2 x hx
    · simp only [h, if_false]
      obtain ⟨h1, h2⟩ := ih v
      simp only [qMax] at h1 h2
      refine ⟨?_, ?_⟩
      · rcases List.mem_cons.mp h1 with h1 | h1
        · rw [h1]; exact List.mem_cons_self _ _
        · exact List.mem_cons_of_mem _ (List.mem_cons_of_mem _ h1)
      · intro x hx
        rcases List.mem_cons.mp hx with rfl | hx
        · exact h2 x (List.mem_cons_self _ _)
        · rcases List.mem_cons.mp hx with rfl | hx
          · exact le_trans (not_lt.mp h) (h2 v (List.mem_cons_self _ _))
          · exact h2 x (List.mem_cons_of_mem _ hx)

theorem cvMin_spec (l : List ℚ) (hl : l ≠ []) :
    ∃ m, cvMin (l.map Dbl.fin) = Dbl.fin m ∧ m ∈ l ∧ ∀ x ∈ l, m ≤ x := by
  cases l with
  | nil => exact absurd rfl hl
  | cons v vs => exact ⟨qMin v vs, cvMin_fin v vs, (qMin_spec v vs).1, (qMin_spec v vs).2⟩

theorem cvMax_spec (l : List ℚ) (hl : l ≠ []) :
    ∃ m, cvMax (l.map Dbl.fin) = Dbl.fin m ∧ m ∈ l ∧ ∀ x ∈ l, x ≤ m := by
  cases l with
  | nil => exact absurd rfl hl
  | cons v vs => exact ⟨qMax v vs, cvMax_fin v vs, (qMax_spec v vs).1, (qMax_spec v vs).2⟩

theorem sum_map_sub_const (qs : List ℚ) (c : ℚ) :
    (qs.map (fun q => q - c)).sum = qs.sum - (qs.length : ℚ) * c := by
  induction qs with
  | nil => simp
  | cons q qs ih =>
    simp only [List.map_cons, List.sum_cons, List.length_cons, ih]
    push_cast
    ring

theorem sum_map_neg (qs : List ℚ) : (qs.map (fun q => -q)).sum = -qs.sum := by
  induction qs with
  | nil => simp
  | cons q qs ih =>
    simp only [List.map_cons, List.sum_cons, ih]
    ring

theorem neg_mem_of_sum_zero (l : List ℚ) (hsum : l.sum = 0) (x : ℚ) (hx : x ∈ l)
    (hne : x ≠ 0) : ∃ y ∈ l, y < 0 := by
  by_contra hc
  push_neg at hc
  have hpos : 0 < x := lt_of_le_of_ne (hc x hx) (Ne.symm hne)
  have := sum_pos_of_mem l hc x hx hpos
  linarith

theorem pos_mem_of_sum_zero (l : List ℚ) (hsum : l.sum = 0) (x : ℚ) (hx : x ∈ l)
    (hne : x ≠ 0) : ∃ y ∈ l, 0 < y := by
  obtain ⟨y, hy, hlt⟩ := neg_mem_of_sum_zero (l.map (fun q => -q))
    (by rw [sum_map_neg, hsum, neg_zero]) (-x) (List.mem_map.mpr ⟨x, hx, rfl⟩)
    (neg_ne_zero.mpr hne)
  obtain ⟨z, hz, rfl⟩ := List.mem_map.mp hy
  exact ⟨z, hz, by linarith⟩

theorem Dbl.addR_exact (x y : Dbl) : Dbl.addR Dbl.fin x y = x + y := by
  cases x <;> cases y <;> rfl

theorem Dbl.subR_exact (x y : Dbl) : Dbl.subR Dbl.fin x y = x - y := by
  cases x <;> cases y <;> rfl

theorem Dbl.mulR_exact (x y : Dbl) : Dbl.mulR Dbl.fin x y = x * y := by
  cases x <;> cases y <;> rfl

theorem Dbl.divR_exact (x y : Dbl) : Dbl.divR Dbl.fin x y = x / y := by
  cases x <;> cases y <;> rfl

theorem cvSum_exact (img : List Dbl) : cvSum Dbl.fin img = dsum img := by
  simp only [cvSum, dsum, Dbl.addR_exact, Dbl.zero_def]

theorem cvSubS_fin (qs : List ℚ) (c : ℚ) :
    cvSubS Dbl.fin (qs.map Dbl.fin) (Dbl.fin c) = (qs.map (fun q => q - c)).map Dbl.fin := by
  simp only [cvSubS, List.map_map]
  exact List.map_congr_left (fun q _ => rfl)

theorem cvAddS_fin (qs : List ℚ) (c : ℚ) :
    cvAddS Dbl.fin (qs.map Dbl.fin) (Dbl.fin c) = (qs.map (fun q => q + c)).map Dbl.fin := by
  simp only [cvAddS, List.map_map]
  exact List.map_congr_left (fun q _ => rfl)

theorem cvConvertScale_fin (qs : List ℚ) (scale shift : ℚ) :
    cvConvertScale Dbl.fin (qs.map Dbl.fin) (Dbl.fin scale) (Dbl.fin shift)
      = (qs.map (fun q => q * scale + shift)).map Dbl.fin := by
  simp only [cvConvertScale, List.map_map]
  exact List.map_congr_left (fun q _ => rfl)

theorem cvMul_fin_self (qs : List ℚ) :
    cvMul Dbl.fin (qs.map Dbl.fin) (qs.map Dbl.fin) = (qs.map (fun q => q * q)).map Dbl.fin := by
  induction qs with
  | nil => rfl
  | cons q qs ih =>
    simp only [cvMul, List.map_cons, List.zipWith_cons_cons, Dbl.mulR] at ih ⊢
    rw [ih]

/-- The buffer after the mean has been subtracted and the result divided by
the sum of squares, when no operation rounds: for finite pixels that are not
all equal it is finite, holds a negative and a positive value, and the sum of
squares is positive. -/
theorem preprocessScaled_fin (qs : List ℚ) (a b : ℚ) (ha : a ∈ qs) (hb : b ∈ qs)
    (hab : a ≠ b) :
    ∃ es : List ℚ, preprocessScaled Dbl.fin (qs.map Dbl.fin) = es.map Dbl.fin
      ∧ es.length = qs.length ∧ (∃ y ∈ es, y < 0) ∧ ∃ y ∈ es, 0 < y := by
  have hlen : (qs.length : ℚ) ≠ 0 := by
    have : qs.length ≠ 0 := fun h => by
      rw [List.length_eq_zero] at h
      rw [h] at ha
      cases ha
    exact_mod_cast this
  have hsum0 : (qs.map (fun q => q - qs.sum / qs.length)).sum = 0 := by
    rw [sum_map_sub_const]
    field_simp
  have hx : ∃ x ∈ qs.map (fun q => q - qs.sum / qs.length), x ≠ 0 := by
    by_cases h0 : a - qs.sum / qs.length = 0
    · refine ⟨b - qs.sum / qs.length, List.mem_map.mpr ⟨b, hb, rfl⟩, fun hc => hab ?_⟩
      linarith
    · exact ⟨a - qs.sum / qs.length, List.mem_map.mpr ⟨a, ha, rfl⟩, h0⟩
  obtain ⟨x, hxm, hxne⟩ := hx
  have hS : 0 < ((qs.map (fun q => q - qs.sum / qs.length)).map (fun q => q * q)).sum := by
    refine sum_pos_of_mem _ (fun z hz => ?_) (x * x) (List.mem_map.mpr ⟨x, hxm, rfl⟩)
      (mul_self_pos.mpr hxne)
    obtain ⟨t, _, rfl⟩ := List.mem_map.mp hz
    exact mul_self_nonneg t
  obtain ⟨yn, hyn, hynlt⟩ := neg_mem_of_sum_zero _ hsum0 x hxm hxne
  obtain ⟨yp, hyp, hyplt⟩ := pos_mem_of_sum_zero _ hsum0 x hxm hxne
  have hinv : 0 < 1 / ((qs.map (fun q => q - qs.sum / qs.length)).map (fun q => q * q)).sum :=
    one_div_pos.mpr hS
  refine ⟨(qs.map (fun q => q - qs.sum / qs.length)).map (fun q =>
      q * (1 / ((qs.map (fun q => q - qs.sum / qs.length)).map (fun q => q * q)).sum) + 0),
    ?_, by simp, ?_, ?_⟩
  · simp only [preprocessScaled, cvAvg, cvSum_exact, Dbl.divR_exact, dsum_fin, List.length_map,
      Dbl.ofInt, Int.cast_natCast, Dbl.fin_div_of_ne _ hlen, cvSubS_fin, cvMul_fin_self,
      Dbl.one_def, Dbl.fin_div_of_ne _ hS.ne', Dbl.zero_def, cvConvertScale_fin]
  · refine ⟨_, List.mem_map.mpr ⟨yn, hyn, rfl⟩, ?_⟩
    have := mul_neg_of_neg_of_pos hynlt hinv
    linarith
  · refine ⟨_, List.mem_map.mpr ⟨yp, hyp, rfl⟩, ?_⟩
    have := mul_pos hyplt hinv
    linarith

/-- The normalisation steps of Filter::preprocessImage when no operation
rounds, on a buffer of finite values that are not all equal: the minimum found
after the division by the sum of squares is negative, so the branch that adds
the minimum as it is is not taken; the resulting buffer is finite, every
element lies in [0, 1], its minimum is 0 and its maximum is 1. -/
theorem preprocessNormalize_exact (qs : List ℚ) (a b : ℚ) (ha : a ∈ qs) (hb : b ∈ qs)
    (hab : a ≠ b) :
    (cvMin (preprocessScaled Dbl.fin (qs.map Dbl.fin))).lt 0 = true
      ∧ ∃ rs : List ℚ, preprocessNormalize Dbl.fin (qs.map Dbl.fin) = rs.map Dbl.fin
          ∧ rs.length = qs.length
          ∧ (∀ r ∈ rs, 0 ≤ r ∧ r ≤ 1)
          ∧ cvMin (rs.map Dbl.fin) = Dbl.fin 0
          ∧ cvMax (rs.map Dbl.fin) = Dbl.fin 1 := by
  obtain ⟨es, hes, heslen, ⟨yn, hyn, hynlt⟩, ⟨yp, hyp, hyplt⟩⟩ :=
    preprocessScaled_fin qs a b ha hb hab
  have hesne : es ≠ [] := List.ne_nil_of_mem hyn
  obtain ⟨mn, hmn, hmnmem, hmnle⟩ := cvMin_spec es hesne
  have hmnlt : mn < 0 := lt_of_le_of_lt (hmnle yn hyn) hynlt
  have hlt : (Dbl.fin mn).lt (Dbl.fin 0) = true := by
    simp only [Dbl.lt, decide_eq_true_eq]
    exact hmnlt
  have hgne : es.map (fun q => q + -mn) ≠ [] := by
    simpa using hesne
  obtain ⟨mx, hmx, hmxmem, hmxle⟩ := cvMax_spec (es.map (fun q => q + -mn)) hgne
  have hmxpos : 0 < mx := by
    have := hmxle (yp + -mn) (List.mem_map.mpr ⟨yp, hyp, rfl⟩)
    linarith
  have hinv : 0 < 1 / mx := one_div_pos.mpr hmxpos
  have hres : preprocessNormalize Dbl.fin (qs.map Dbl.fin)
      = ((es.map (fun q => q + -mn)).map (fun q => q * (1 / mx) + 0)).map Dbl.fin := by
    simp only [preprocessNormalize, hes, hmn, hlt, if_true, Dbl.fin_neg, cvAddS_fin, hmx,
      Dbl.divR_exact, Dbl.one_def, Dbl.fin_div_of_ne _ hmxpos.ne', Dbl.zero_def,
      cvConvertScale_fin]
  have hrange : ∀ r ∈ (es.map (fun q => q + -mn)).map (fun q => q * (1 / mx) + 0),
      0 ≤ r ∧ r ≤ 1 := by
    intro r hr
    obtain ⟨g, hg, rfl⟩ := List.mem_map.mp hr
    have hgle := hmxle g hg
    obtain ⟨e, he, rfl⟩ := List.mem_map.mp hg
    have hge : 0 ≤ e + -mn := by
      have := hmnle e he
      linarith
    constructor
    · have := mul_nonneg hge hinv.le
      linarith
    · have h1 : (e + -mn) * (1 / mx) ≤ mx * (1 / mx) :=
        mul_le_mul_of_nonneg_right hgle hinv.le
      have h2 : mx * (1 / mx) = 1 := by
        field_simp
      linarith
  have hzero : (0 : ℚ) ∈ (es.map (fun q => q + -mn)).map (fun q => q * (1 / mx) + 0) := by
    refine List.mem_map.mpr ⟨mn + -mn, List.mem_map.mpr ⟨mn, hmnmem, rfl⟩, ?_⟩
    simp
  have hone : (1 : ℚ) ∈ (es.map (fun q => q + -mn)).map (fun q => q * (1 / mx) + 0) := by
    refine List.mem_map.mpr ⟨mx, hmxmem, ?_⟩
    field_simp
  have hrne : (es.map (fun q => q + -mn)).map (fun q => q * (1 / mx) + 0) ≠ [] :=
    List.ne_nil_of_mem hzero
  obtain ⟨m0, hm0, hm0mem, hm0le⟩ := cvMin_spec _ hrne
  obtain ⟨m1, hm1, hm1mem, hm1le⟩ := cvMax_spec _ hrne
  have e0 : m0 = 0 := le_antisymm (hm0le 0 hzero) (hrange m0 hm0mem).1
  have e1 : m1 = 1 := le_antisymm (hrange m1 hm1mem).2 (hm1le 1 hone)
  refine ⟨by rw [hes, hmn]; exact hlt, _, hres, by simp [heslen], hrange, ?_, ?_⟩
  · rw [hm0, e0]
  · rw [hm1, e1]

theorem Dbl.addR_eq_fin (rnd : ℚ → Dbl) (x y : Dbl) (r : ℚ)
    (h : Dbl.addR rnd x y = Dbl.fin r) :
    ∃ a b, x = Dbl.fin a ∧ y = Dbl.fin b ∧ rnd (a + b) = Dbl.fin r := by
  cases x with
  | nan => cases y <;> cases h
  | fin a =>
    cases y with
    | nan => cases h
    | fin b => exact ⟨a, b, rfl, rfl, h⟩

theorem Dbl.mulR_eq_fin (rnd : ℚ → Dbl) (x y : Dbl) (r : ℚ)
    (h : Dbl.mulR rnd x y = Dbl.fin r) :
    ∃ a b, x = Dbl.fin a ∧ y = Dbl.fin b ∧ rnd (a * b) = Dbl.fin r := by
  cases x with
  | nan => cases y <;> cases h
  | fin a =>
    cases y with
    | nan => cases h
    | fin b => exact ⟨a, b, rfl, rfl, h⟩

theorem Dbl.divR_eq_fin (rnd : ℚ → Dbl) (x y : Dbl) (r : ℚ)
    (h : Dbl.divR rnd x y = Dbl.fin r) :
    ∃ a b, x = Dbl.fin a ∧ y = Dbl.fin b ∧ b ≠ 0 ∧ rnd (a / b) = Dbl.fin r := by
  cases x with
  | nan => cases y <;> cases h
  | fin a =>
    cases y with
    | nan => cases h
    | fin b =>
      by_cases hb : b = 0
      · simp only [Dbl.divR, if_pos hb] at h
        cases h
      · simp only [Dbl.divR, if_neg hb] at h
        exact ⟨a, b, rfl, rfl, hb, h⟩

theorem Dbl.lt_eq_true (x y : Dbl) (h : x.lt y = true) :
    ∃ a b, x = Dbl.fin a ∧ y = Dbl.fin b ∧ a < b := by
  cases x with
  | nan => cases y <;> cases h
  | fin a =>
    cases y with
    | nan => cases h
    | fin b =>
      simp only [Dbl.lt, decide_eq_true_eq] at h
      exact ⟨a, b, rfl, rfl, h⟩

theorem exists_map_fin (l : List Dbl) (h : ∀ v ∈ l, ∃ q, v = Dbl.fin q) :
    ∃ qs : List ℚ, l = qs.map Dbl.fin := by
  induction l with
  | nil => exact ⟨[], rfl⟩
  | cons v vs ih =>
    obtain ⟨q, hq⟩ := h v (List.mem_cons_self _ _)
    obtain ⟨qs, hqs⟩ := ih (fun w hw => h w (List.mem_cons_of_mem _ hw))
    exact ⟨q :: qs, by rw [hq, hqs]; rfl⟩

theorem roundDouble_zero : roundDouble 0 = Dbl.fin 0 := by
  simp [roundDouble]

/-- Rounding to the next double keeps the sign: the double next to a value
that is not negative is not negative. -/
theorem roundDouble_nonneg (x r : ℚ) (hx : 0 ≤ x) (h : roundDouble x = Dbl.fin r) : 0 ≤ r := by
  by_cases h0 : x = 0
  · rw [h0, roundDouble_zero] at h
    injection h with h
    exact h.le
  · have hneg : ¬ x < 0 := not_lt.mpr hx
    simp only [roundDouble, if_neg h0, if_neg hneg] at h
    split_ifs at h
    all_goals
      injection h with h
      rw [← h]
      exact Rat.mkRat_nonneg (Int.natCast_nonneg _) _

/-- The last steps of the normalisation on a buffer whose minimum is
negative, for a rounding that maps 0 to 0 and keeps the sign: when the result
is finite, none of its elements is negative and its minimum is 0. -/
theorem shifted_scaled_min (rnd : ℚ → Dbl) (h0 : rnd 0 = Dbl.fin 0)
    (hsign : ∀ x r, 0 ≤ x → rnd x = Dbl.fin r → 0 ≤ r) (es : List Dbl) (rs : List ℚ)
    (hbr : (cvMin es).lt 0 = true)
    (hres : cvConvertScale rnd (cvAddS rnd es (-(cvMin es)))
        (Dbl.divR rnd 1 (cvMax (cvAddS rnd es (-(cvMin es))))) 0 = rs.map Dbl.fin) :
    (∀ r ∈ rs, 0 ≤ r) ∧ cvMin (rs.map Dbl.fin) = Dbl.fin 0 := by
  obtain ⟨mn, z, hmn, hz, hmnlt⟩ := Dbl.lt_eq_true _ _ hbr
  have hz0 : z = 0 := by
    rw [Dbl.zero_def] at hz
    injection hz with hz
    exact hz.symm
  subst hz0
  have hesne : es ≠ [] := by
    intro hc
    rw [hc] at hmn
    simp only [cvMin, Dbl.zero_def] at hmn
    injection hmn with hmn
    rw [← hmn] at hmnlt
    exact lt_irrefl _ hmnlt
  rw [hmn, Dbl.fin_neg] at hres
  generalize hs : Dbl.divR rnd 1 (cvMax (cvAddS rnd es (Dbl.fin (-mn)))) = s at hres
  have hF : ∀ v ∈ es, ∃ r ∈ rs,
      Dbl.addR rnd (Dbl.mulR rnd (Dbl.addR rnd v (Dbl.fin (-mn))) s) 0 = Dbl.fin r := by
    intro v hv
    have hmem : Dbl.addR rnd (Dbl.mulR rnd (Dbl.addR rnd v (Dbl.fin (-mn))) s) 0
        ∈ rs.map Dbl.fin := by
      rw [← hres]
      simp only [cvConvertScale, cvAddS, List.map_map]
      exact List.mem_map.mpr ⟨v, hv, rfl⟩
    obtain ⟨r, hr, hre⟩ := List.mem_map.mp hmem
    exact ⟨r, hr, hre.symm⟩
  -- every element of the buffer is finite, and so is every shifted element
  have hparts : ∀ v ∈ es, ∃ q g s2 y r, v = Dbl.fin q ∧ rnd (q + -mn) = Dbl.fin g
      ∧ s = Dbl.fin s2 ∧ rnd (g * s2) = Dbl.fin y ∧ rnd (y + 0) = Dbl.fin r ∧ r ∈ rs := by
    intro v hv
    obtain ⟨r, hr, hre⟩ := hF v hv
    obtain ⟨y, o, hy, ho, hyr⟩ := Dbl.addR_eq_fin rnd _ _ r hre
    have ho0 : o = 0 := by
      rw [Dbl.zero_def] at ho
      injection ho with ho
      exact ho.symm
    subst ho0
    obtain ⟨g, s2, hg, hs2, hgy⟩ := Dbl.mulR_eq_fin rnd _ _ y hy
    obtain ⟨q, c, hq, hc, hqg⟩ := Dbl.addR_eq_fin rnd _ _ g hg
    injection hc with hc
    subst hc
    exact ⟨q, g, s2, y, r, hq, hqg, hs2, hgy, hyr, hr⟩
  obtain ⟨ev, hev⟩ := exists_map_fin es (fun v hv => by
    obtain ⟨q, _, _, _, _, hq, _⟩ := hparts v hv
    exact ⟨q, hq⟩)
  have hevne : ev ≠ [] := by
    intro hc
    rw [hc] at hev
    exact hesne hev
  obtain ⟨m', hm', hm'mem, hm'le⟩ := cvMin_spec ev hevne
  have hmm : m' = mn := by
    rw [← hev, hmn] at hm'
    injection hm' with hm'
    exact hm'.symm
  subst hmm
  have hmnes : Dbl.fin m' ∈ es := by
    rw [hev]
    exact List.mem_map.mpr ⟨m', hm'mem, rfl⟩
  -- the shifted buffer holds no negative value
  have hshift : ∀ x ∈ cvAddS rnd es (Dbl.fin (-m')), ∃ g, x = Dbl.fin g ∧ 0 ≤ g := by
    intro x hx
    simp only [cvAddS] at hx
    obtain ⟨v, hv, rfl⟩ := List.mem_map.mp hx
    obtain ⟨q, g, _, _, _, hq, hqg, _⟩ := hparts v hv
    refine ⟨g, by rw [hq]; exact hqg, hsign _ _ ?_ hqg⟩
    have hqm : q ∈ ev := by
      have : Dbl.fin q ∈ ev.map Dbl.fin := by
        rw [← hev, ← hq]
        exact hv
      obtain ⟨q', hq', he⟩ := List.mem_map.mp this
      injection he with he
      rw [← he]
      exact hq'
    have := hm'le q hqm
    linarith
  obtain ⟨gs, hgs⟩ := exists_map_fin _ (fun x hx => by
    obtain ⟨g, hg, _⟩ := hshift x hx
    exact ⟨g, hg⟩)
  -- the scale is finite and not negative
  obtain ⟨_, _, s2, _, _, _, _, hs2, _⟩ := hparts (Dbl.fin m') hmnes
  have hs2pos : 0 ≤ s2 := by
    rw [hs2] at hs
    obtain ⟨one, mx, hone, hmx, hmx0, hr⟩ := Dbl.divR_eq_fin rnd _ _ s2 hs
    have hgsne : gs ≠ [] := by
      intro hc
      rw [hgs, hc] at hmx
      simp only [List.map_nil, cvMin, cvMax, Dbl.zero_def] at hmx
      injection hmx with hmx
      exact hmx0 hmx.symm
    obtain ⟨mx', hmx', hmx'mem, _⟩ := cvMax_spec gs hgsne
    have hmxe : mx' = mx := by
      rw [← hgs, hmx] at hmx'
      injection hmx' with hmx'
      exact hmx'.symm
    subst hmxe
    obtain ⟨g, hg, hg0⟩ := hshift (Dbl.fin mx') (by
      rw [hgs]
      exact List.mem_map.mpr ⟨mx', hmx'mem, rfl⟩)
    injection hg with hg
    have hone1 : one = 1 := by
      rw [Dbl.one_def] at hone
      injection hone with hone
      exact hone.symm
    subst hone1
    refine hsign _ _ ?_ hr
    rw [hg]
    exact div_nonneg (by norm_num) hg0
  have hnonneg : ∀ r ∈ rs, 0 ≤ r := by
    intro r hr
    have hmem : Dbl.fin r ∈ rs.map Dbl.fin := List.mem_map.mpr ⟨r, hr, rfl⟩
    rw [← hres] at hmem
    simp only [cvConvertScale, cvAddS, List.map_map] at hmem
    obtain ⟨v, hv, hve⟩ := List.mem_map.mp hmem
    obtain ⟨q, g, s2', y, r', hq, hqg, hs2', hgy, hyr, _⟩ := hparts v hv
    have hs2e : s2' = s2 := by
      rw [hs2] at hs2'
      injection hs2' with h
      exact h.symm
    subst hs2e
    have hg0 : 0 ≤ g := by
      obtain ⟨g', hg', hg0'⟩ := hshift (Dbl.addR rnd v (Dbl.fin (-m'))) (by
        simp only [cvAddS]
        exact List.mem_map.mpr ⟨v, hv, rfl⟩)
      rw [hq] at hg'
      simp only [Dbl.addR] at hg'
      rw [hqg] at hg'
      injection hg' with hg'
      rw [hg']
      exact hg0'
    have hy0 : 0 ≤ y := hsign _ _ (mul_nonneg hg0 hs2pos) hgy
    have hr0 : 0 ≤ r' := hsign _ _ (by linarith) hyr
    have hrr : r = r' := by
      simp only [Function.comp, hq, Dbl.addR, hqg, hs2, Dbl.mulR, hgy, Dbl.zero_def, hyr] at hve
      injection hve with hve
      exact hve.symm
    rw [hrr]
    exact hr0
  have hzero : (0 : ℚ) ∈ rs := by
    obtain ⟨r, hr, hre⟩ := hF (Dbl.fin m') hmnes
    have e1 : m' + -m' = 0 := by ring
    simp only [Dbl.addR, e1, h0, hs2, Dbl.mulR, zero_mul, Dbl.zero_def, add_zero] at hre
    injection hre with hre
    rw [hre]
    exact hr
  have hrsne : rs ≠ [] := List.ne_nil_of_mem hzero
  obtain ⟨m0, hm0, hm0mem, hm0le⟩ := cvMin_spec rs hrsne
  have e0 : m0 = 0 := le_antisymm (hm0le 0 hzero) (hnonneg m0 hm0mem)
  exact ⟨hnonneg, by rw [hm0, e0]⟩

/-- A constant buffer leaves the normalisation steps without a finite value:
its sum of squares is 0. -/
theorem preprocessNormalize_constant :
    preprocessNormalize roundDouble [Dbl.fin 5, Dbl.fin 5, Dbl.fin 5]
        = [Dbl.nan, Dbl.nan, Dbl.nan]
      ∧ preprocessNormalize Dbl.fin [Dbl.fin 5, Dbl.fin 5, Dbl.fin 5]
        = [Dbl.nan, Dbl.nan, Dbl.nan] := by
  decide!

end MosseFilters
